import Mathlib

/-!
Verification of the Old-Style Plist (pbxproj) reader/writer and project facade.

Text is modelled as `List Char`. The Rust code scans UTF-8 bytes; every byte
the scanners compare against is ASCII, and multi-byte UTF-8 sequences consist
only of bytes ≥ 0x80, so the byte-level comparisons of the source coincide
with the character-level comparisons used here on every input the theorems
quantify over.  Machine integers are modelled as `Nat`/`Int`; `f64` payloads
are modelled as exact rationals (the claims proved about floats concern only
which variant is produced and the integral/fractional split, never rounding).
-/

namespace Xcode

/-- Text is a list of Unicode scalar values. -/
abbrev Str := List Char

/-- Decimal digit test, mirroring Rust `u8::is_ascii_digit`. -/
def isAsciiDigit (c : Char) : Bool := 48 ≤ c.toNat && c.toNat ≤ 57

/-- Octal digit test (`b'0'..=b'7'` in `escape.rs`). -/
def isOctDigit (c : Char) : Bool := 48 ≤ c.toNat && c.toNat ≤ 55

/-- Hex digit test, mirroring Rust `u8::is_ascii_hexdigit` (both cases). -/
def isHexDigit (c : Char) : Bool :=
  (48 ≤ c.toNat && c.toNat ≤ 57) || (97 ≤ c.toNat && c.toNat ≤ 102)
    || (65 ≤ c.toNat && c.toNat ≤ 70)

/-- ASCII whitespace as used by the lexer's trivia loop (`b' ' | b'\t' | b'\r' | b'\n'`). -/
def isWsChar (c : Char) : Bool := c = ' ' || c = '\t' || c = '\r' || c = '\n'

/-- Rust `u8::is_ascii_whitespace` (space, tab, newline, carriage return, form feed);
used inside data literals. -/
def isAsciiWhitespace (c : Char) : Bool :=
  c = ' ' || c = '\t' || c = '\n' || c = '\r' || c = '\x0C'

/-- Value of a decimal digit string, most significant first (`parse::<i64>` on
pure digit strings computes this value; overflow is handled at the use site). -/
def digitsVal (s : Str) : Nat := s.foldl (fun acc c => acc * 10 + (c.toNat - 48)) 0

/-- Value of an octal digit string (`u32::from_str_radix(_, 8)`). -/
def octVal (s : Str) : Nat := s.foldl (fun acc c => acc * 8 + (c.toNat - 48)) 0

/-- Value of a hex digit string (`u8::from_str_radix(_, 16)` / `u32::from_str_radix(_, 16)`). -/
def hexVal (s : Str) : Nat :=
  s.foldl (fun acc c =>
    acc * 16 + (if 97 ≤ c.toNat then c.toNat - 87
      else if 65 ≤ c.toNat then c.toNat - 55 else c.toNat - 48)) 0

/-- The plist value tree (`PlistValue` in `types/plist.rs`).  `Object` keeps its
entries as an insertion-ordered association list, mirroring `IndexMap`. -/
inductive PlistValue where
  | str (s : Str)
  | int (n : Int)
  | float (q : ℚ)
  | data (bytes : List Nat)
  | object (entries : List (Str × PlistValue))
  | array (items : List PlistValue)

/-- JS MAX_SAFE_INTEGER, 2^53 - 1 (`parser.rs` line 7). -/
def MAX_SAFE_INTEGER : Int := 9007199254740991

/-- Upper bound of `i64`; `literal.parse::<i64>()` fails above it. -/
def I64_MAX : Int := 9223372036854775807

/-- Rust `strip_prefix('+').or_else(strip_prefix('-')).unwrap_or(literal)`. -/
def stripSign (s : Str) : Str :=
  match s with
  | '+' :: t => t
  | '-' :: t => t
  | t => t

/-- The two halves of `splitn(2, '.')`: text before the first `'.'` and text
after it (the whole string pairs with `[]` when no `'.'` occurs, matching the
use sites, which only read the second half under a `contains('.')` guard). -/
def intFracParts (s : Str) : Str × Str :=
  (s.takeWhile (fun c => c ≠ '.'), (s.dropWhile (fun c => c ≠ '.')).tail)

/-- The `is_numeric` shape test inside `parse_type` (`parser.rs` lines 190-202). -/
def is_numeric (literal : Str) : Bool :=
  let s := stripSign literal
  if s.isEmpty then false
  else if s.contains '.' then
    let p := intFracParts s
    (p.1.isEmpty || p.1.all isAsciiDigit) && p.2.all isAsciiDigit
      && !(p.1.isEmpty && p.2.isEmpty)
  else false

/-- Exact rational value of a decimal literal; models the value
`literal.parse::<f64>()` computes, ignoring rounding to binary (no claim
below depends on the rounded value). -/
def ratOfDecimal (literal : Str) : ℚ :=
  let s := stripSign literal
  let p := intFracParts s
  let q : ℚ := (digitsVal p.1 : ℚ) + (digitsVal p.2 : ℚ) / ((10 : ℚ) ^ p.2.length)
  if literal.head? = some '-' then -q else q

/-- Atom type inference for unquoted string literals (`parse_type`,
`parser.rs` lines 171-217). -/
def parse_type (literal : Str) : PlistValue :=
  if 1 < literal.length ∧ literal.head? = some '0' ∧ literal.all isAsciiDigit then
    .str literal
  else if literal.all isAsciiDigit ∧ literal ≠ [] then
    if (digitsVal literal : Int) ≤ I64_MAX ∧ (digitsVal literal : Int) ≤ MAX_SAFE_INTEGER then
      .int (digitsVal literal)
    else
      .str literal
  else if is_numeric literal then
    if literal.getLast? = some '0' ∧ literal.contains '.' then
      .str literal
    else
      .float (ratOfDecimal literal)
  else
    .str literal

/-! Writer-side quoting (`writer/quotes.rs`). -/

/-- Safe-unquoted character class of the writer: `[a-zA-Z0-9_$/:.]`
(`quotes.rs` lines 46-52).  Hyphen is deliberately absent. -/
def isSafeChar (c : Char) : Bool :=
  (97 ≤ c.toNat && c.toNat ≤ 122) || (65 ≤ c.toNat && c.toNat ≤ 90)
    || (48 ≤ c.toNat && c.toNat ≤ 57)
    || c = '_' || c = '$' || c = '/' || c = ':' || c = '.'

/-- Writer check whether a string may be emitted without quotes. -/
def is_safe_unquoted (s : Str) : Bool := !s.isEmpty && s.all isSafeChar

/-- Lower-case hex digit (`format!("\\U{:04x}", _)`). -/
def hexDigitLower (n : Nat) : Char :=
  if n < 10 then Char.ofNat (48 + n) else Char.ofNat (87 + n)

/-- Four-digit zero-padded lowercase hex rendering of a code point. -/
def hex4Lower (n : Nat) : Str :=
  [hexDigitLower (n / 4096 % 16), hexDigitLower (n / 256 % 16),
   hexDigitLower (n / 16 % 16), hexDigitLower (n % 16)]

/-- Escape of a single character inside `add_quotes` (`quotes.rs` lines 8-24). -/
def escapeChar (c : Char) : Str :=
  if c = '\x07' then ['\\', 'a']
  else if c = '\x08' then ['\\', 'b']
  else if c = '\x0C' then ['\\', 'f']
  else if c = '\r' then ['\\', 'r']
  else if c = '\t' then ['\\', 't']
  else if c = '\x0B' then ['\\', 'v']
  else if c = '\n' then ['\\', 'n']
  else if c = '"' then ['\\', '"']
  else if c = '\\' then ['\\', '\\']
  else if c.toNat < 32 then '\\' :: 'U' :: hex4Lower c.toNat
  else [c]

/-- Escape special characters for output (`add_quotes`, `quotes.rs` lines 6-26). -/
def add_quotes (s : Str) : Str := s.flatMap escapeChar

/-- Quote a value for output when needed (`ensure_quotes`, `quotes.rs` lines 34-41). -/
def ensure_quotes (value : Str) : Str :=
  let escaped := add_quotes value
  if is_safe_unquoted escaped then escaped else '"' :: (escaped ++ ['"'])

/-- Unquoted-literal character class of the lexer: `[a-zA-Z0-9_$/:.-]`
(the `IS_LITERAL_CHAR` table, `lexer.rs` lines 5-29). -/
def is_literal_char (c : Char) : Bool := isSafeChar c || c = '-'

end Xcode

namespace Xcode

/-! Claim C2/C3 groundwork: how `parse_type` dispatches on the literal's shape. -/

theorem digitsVal_nil : digitsVal [] = 0 := rfl

/-- A list containing a character that fails the predicate fails `all`. -/
theorem all_eq_false_of_mem {p : Char → Bool} {s : Str} {c : Char} (hc : c ∈ s)
    (h : p c = false) : s.all p = false := by
  rw [List.all_eq_false]
  exact ⟨c, hc, by simp [h]⟩

theorem dot_not_digit : isAsciiDigit '.' = false := by decide

/-- C2: atom type inference on unquoted literals in value position: octal-looking
digit strings (length > 1, leading `'0'`) stay `String`; other all-digit strings
become `Integer` exactly when their value is at most 2^53-1 and fall back to
`String` above that bound (2^53-1 is an Integer, 2^53 a String, `0755` a String,
`0` the Integer 0); literals matching none of the octal, integer or
decimal-number shapes stay `String`. -/
theorem parse_type_classification :
    (∀ s : Str, 1 < s.length → s.head? = some '0' → s.all isAsciiDigit →
        parse_type s = .str s)
    ∧ (∀ s : Str, s.all isAsciiDigit → s ≠ [] → ¬(1 < s.length ∧ s.head? = some '0') →
        ((digitsVal s ≤ 2 ^ 53 - 1 → parse_type s = .int (digitsVal s))
          ∧ (2 ^ 53 - 1 < digitsVal s → parse_type s = .str s)))
    ∧ parse_type (("9007199254740991").data) = .int 9007199254740991
    ∧ parse_type (("9007199254740992").data) = .str (("9007199254740992").data)
    ∧ parse_type (("0755").data) = .str (("0755").data)
    ∧ parse_type (("0").data) = .int 0
    ∧ (∀ s : Str, ¬(1 < s.length ∧ s.head? = some '0' ∧ s.all isAsciiDigit) →
        ¬(s.all isAsciiDigit ∧ s ≠ []) → is_numeric s = false → parse_type s = .str s) := by
  refine ⟨?_, ?_, by rfl, by rfl, by rfl, by rfl, ?_⟩
  · intro s h1 h2 h3
    unfold parse_type
    rw [if_pos ⟨h1, h2, h3⟩]
  · intro s hdig hne hoct
    have hcond : ¬(1 < s.length ∧ s.head? = some '0' ∧ s.all isAsciiDigit) := by
      intro ⟨a, b, _⟩; exact hoct ⟨a, b⟩
    constructor
    · intro hle
      unfold parse_type
      rw [if_neg hcond, if_pos ⟨hdig, hne⟩, if_pos]
      constructor
      · show (digitsVal s : Int) ≤ I64_MAX
        have : digitsVal s ≤ 9007199254740991 := by simpa using hle
        unfold I64_MAX
        omega
      · show (digitsVal s : Int) ≤ MAX_SAFE_INTEGER
        have : digitsVal s ≤ 9007199254740991 := by simpa using hle
        unfold MAX_SAFE_INTEGER
        omega
    · intro hgt
      unfold parse_type
      rw [if_neg hcond, if_pos ⟨hdig, hne⟩, if_neg]
      intro ⟨_, hb⟩
      have : digitsVal s ≤ 9007199254740991 := by
        have := hb
        unfold MAX_SAFE_INTEGER at this
        omega
      have h2 : 9007199254740991 < digitsVal s := by simpa using hgt
      omega
  · intro s h1 h2 h3
    unfold parse_type
    rw [if_neg h1, if_neg h2, if_neg (by simp [h3])]

/-- Witness for C2 at concrete inputs. -/
theorem parse_type_classification_witness :
    parse_type (("0123").data) = .str (("0123").data)
      ∧ parse_type (("42").data) = .int 42 := by
  constructor
  · exact parse_type_classification.1 (("0123").data) (by decide) (by decide) (by decide)
  · have h := (parse_type_classification.2.1 (("42").data) (by decide) (by decide)
      (by decide)).1 (by decide)
    have e : digitsVal (("42").data) = 42 := rfl
    rw [e] at h
    exact h

end Xcode
namespace Xcode

/-- The decimal-number shape named by the spec: optional leading sign, a
nonempty run of digits, a dot, a nonempty run of digits. -/
def decimal_shape (s : Str) : Bool :=
  (stripSign s).contains '.'
    && !(intFracParts (stripSign s)).1.isEmpty
    && (intFracParts (stripSign s)).1.all isAsciiDigit
    && !(intFracParts (stripSign s)).2.isEmpty
    && (intFracParts (stripSign s)).2.all isAsciiDigit

theorem mem_of_mem_stripSign {c : Char} {s : Str} (h : c ∈ stripSign s) : c ∈ s := by
  unfold stripSign at h
  split at h
  · exact List.mem_cons_of_mem _ h
  · exact List.mem_cons_of_mem _ h
  · exact h

/-- C3: literals of the decimal-number shape become `Float` exactly when they
do not end in `'0'`; with a trailing `'0'` they stay `String` (`5.0` stays the
string `5.0`, `5.5` becomes the float 11/2). -/
theorem parse_type_decimal_spec :
    (∀ s : Str, decimal_shape s →
        (s.getLast? ≠ some '0' → parse_type s = .float (ratOfDecimal s))
          ∧ (s.getLast? = some '0' → parse_type s = .str s))
    ∧ parse_type (("5.0").data) = .str (("5.0").data)
    ∧ parse_type (("5.5").data) = .float (ratOfDecimal (("5.5").data))
    ∧ ratOfDecimal (("5.5").data) = 11 / 2 := by
  refine ⟨?_, by rfl, by rfl, ?_⟩
  swap
  · have e2 : intFracParts (stripSign (("5.5").data)) = (['5'], ['5']) := rfl
    have e3 : digitsVal ['5'] = 5 := rfl
    unfold ratOfDecimal
    simp only [e2, e3, List.length_cons, List.length_nil]
    rw [if_neg (by decide)]
    norm_num
  intro s hs
  simp only [decimal_shape, Bool.and_eq_true, Bool.not_eq_true'] at hs
  obtain ⟨⟨⟨⟨hdot, hi_ne⟩, hi_dig⟩, hf_ne⟩, hf_dig⟩ := hs
  have hdots : '.' ∈ s := mem_of_mem_stripSign (List.mem_of_elem_eq_true hdot)
  have hall : s.all isAsciiDigit = false := all_eq_false_of_mem hdots dot_not_digit
  have hc1 : ¬(1 < s.length ∧ s.head? = some '0' ∧ s.all isAsciiDigit) := by
    rintro ⟨-, -, h3⟩
    rw [hall] at h3
    cases h3
  have hc2 : ¬(s.all isAsciiDigit ∧ s ≠ []) := by
    rintro ⟨h3, -⟩
    rw [hall] at h3
    cases h3
  have ht : (stripSign s).isEmpty = false := by
    cases hh : stripSign s with
    | nil =>
        rw [hh] at hdot
        cases hdot
    | cons a t => rfl
  have hnum : is_numeric s = true := by
    unfold is_numeric
    rw [if_neg (by simp [ht]), if_pos (show (stripSign s).contains '.' = true from hdot)]
    simp [hi_ne, hi_dig, hf_ne, hf_dig]
  constructor
  · intro hlast
    unfold parse_type
    rw [if_neg hc1, if_neg hc2, if_pos hnum, if_neg]
    rintro ⟨h0, -⟩
    exact hlast h0
  · intro hlast
    unfold parse_type
    rw [if_neg hc1, if_neg hc2, if_pos hnum,
      if_pos ⟨hlast, List.elem_eq_true_of_mem hdots⟩]

/-- Witness for C3 at the concrete literal `7.25`. -/
theorem parse_type_decimal_spec_witness :
    parse_type (("7.25").data) = .float (ratOfDecimal (("7.25").data)) :=
  (parse_type_decimal_spec.1 (("7.25").data) (by decide)).1 (by decide)

end Xcode

namespace Xcode

theorem escapeChar_of_plain {c : Char} (h1 : 32 ≤ c.toNat) (h2 : c ≠ '"') (h3 : c ≠ '\\') :
    escapeChar c = [c] := by
  unfold escapeChar
  rw [if_neg, if_neg, if_neg, if_neg, if_neg, if_neg, if_neg, if_neg h2, if_neg h3,
    if_neg (by omega)]
  all_goals intro e
  all_goals subst e
  all_goals exact absurd h1 (by decide)

theorem safeChar_plain {c : Char} (h : isSafeChar c = true) :
    32 ≤ c.toNat ∧ c ≠ '"' ∧ c ≠ '\\' := by
  unfold isSafeChar at h
  simp only [Bool.or_eq_true, Bool.and_eq_true, decide_eq_true_eq] at h
  have hq : ('"').toNat = 34 := rfl
  have hb : ('\\').toNat = 92 := rfl
  rcases h with ((((((((⟨a, b⟩ | ⟨a, b⟩) | ⟨a, b⟩) | e) | e) | e) | e) | e))
  · exact ⟨by omega, fun e => by rw [e, hq] at a; omega, fun e => by rw [e, hb] at a b; omega⟩
  · exact ⟨by omega, fun e => by rw [e, hq] at a b; omega, fun e => by rw [e, hb] at a b; omega⟩
  · exact ⟨by omega, fun e => by rw [e, hq] at a b; omega, fun e => by rw [e, hb] at a b; omega⟩
  all_goals subst e
  all_goals exact ⟨by decide, by decide, by decide⟩

theorem escapeChar_of_safe {c : Char} (h : isSafeChar c = true) : escapeChar c = [c] := by
  obtain ⟨h1, h2, h3⟩ := safeChar_plain h
  exact escapeChar_of_plain h1 h2 h3

theorem add_quotes_of_safe {s : Str} (h : s.all isSafeChar = true) : add_quotes s = s := by
  induction s with
  | nil => rfl
  | cons c t ih =>
      rw [List.all_cons, Bool.and_eq_true] at h
      unfold add_quotes at *
      rw [List.flatMap_cons, escapeChar_of_safe h.1, ih h.2]
      rfl

set_option maxHeartbeats 1000000 in
theorem escapeChar_head_or_self (c : Char) :
    escapeChar c = [c] ∨ (escapeChar c).head? = some '\\' := by
  unfold escapeChar
  split_ifs
  all_goals first
  | exact Or.inr rfl
  | exact Or.inl rfl

theorem backslash_not_safe : isSafeChar '\\' = false := by decide

theorem quote_not_safe : isSafeChar '"' = false := by decide

theorem add_quotes_unsafe {s : Str} {c : Char} (hc : c ∈ s) (h : isSafeChar c = false) :
    ∃ d ∈ add_quotes s, isSafeChar d = false := by
  rcases escapeChar_head_or_self c with he | he
  · exact ⟨c, by
      unfold add_quotes
      exact List.mem_flatMap_of_mem hc (by rw [he]; exact List.mem_singleton_self c), h⟩
  · refine ⟨'\\', ?_, backslash_not_safe⟩
    unfold add_quotes
    refine List.mem_flatMap_of_mem hc ?_
    cases hh : escapeChar c with
    | nil => rw [hh] at he; cases he
    | cons a t =>
        rw [hh] at he
        simp only [List.head?_cons, Option.some.injEq] at he
        rw [he]
        exact List.mem_cons_self _ _

theorem length_le_add_quotes (s : Str) : s.length ≤ (add_quotes s).length := by
  induction s with
  | nil => simp [add_quotes]
  | cons c t ih =>
      unfold add_quotes at *
      rw [List.flatMap_cons, List.length_append, List.length_cons]
      have : 1 ≤ (escapeChar c).length := by
        rcases escapeChar_head_or_self c with he | he
        · rw [he]; simp
        · cases hh : escapeChar c with
          | nil => rw [hh] at he; cases he
          | cons a t2 => simp
      omega

/-- C6: the writer's quoting discipline: a token is emitted without surrounding
quotes iff it is nonempty and every character lies in `[A-Za-z0-9_$/:.]`;
hyphen is outside this set although the lexer's literal class accepts it, so
`foo-bar` is emitted quoted, and the empty string is emitted as `""`. -/
theorem ensure_quotes_spec :
    (∀ s : Str, ensure_quotes s = s ↔ (s ≠ [] ∧ s.all isSafeChar = true))
    ∧ (∀ s : Str, ¬(s ≠ [] ∧ s.all isSafeChar = true) →
        ensure_quotes s = '"' :: (add_quotes s ++ ['"']))
    ∧ isSafeChar '-' = false
    ∧ is_literal_char '-' = true
    ∧ ensure_quotes (("foo-bar").data) = '"' :: ((("foo-bar").data) ++ ['"'])
    ∧ ensure_quotes ([]) = ['"', '"'] := by
  have key : ∀ s : Str, ¬(s ≠ [] ∧ s.all isSafeChar = true) →
      is_safe_unquoted (add_quotes s) = false := by
    intro s hs
    rcases List.eq_nil_or_concat s with rfl | _
    · rfl
    · by_cases hall : s.all isSafeChar = true
      · rcases s with - | ⟨c, t⟩
        · rfl
        · exact absurd ⟨by simp, hall⟩ hs
      · rw [List.all_eq_true] at hall
        push_neg at hall
        obtain ⟨c, hc, hcs⟩ := hall
        obtain ⟨d, hd, hds⟩ := add_quotes_unsafe hc (by simpa using hcs)
        unfold is_safe_unquoted
        rw [all_eq_false_of_mem hd hds]
        simp
  refine ⟨?_, ?_, by decide, by decide, ?_, by decide⟩
  · intro s
    constructor
    · intro he
      by_cases hs : s ≠ [] ∧ s.all isSafeChar = true
      · exact hs
      · exfalso
        unfold ensure_quotes at he
        rw [if_neg (by rw [key s hs]; decide)] at he
        have hl := congrArg List.length he
        rw [List.length_cons, List.length_append] at hl
        have := length_le_add_quotes s
        simp at hl
        omega
    · intro ⟨h1, h2⟩
      unfold ensure_quotes
      rw [add_quotes_of_safe h2, if_pos]
      unfold is_safe_unquoted
      rw [h2]
      rcases s with - | ⟨c, t⟩
      · exact absurd rfl h1
      · rfl
  · intro s hs
    unfold ensure_quotes
    rw [if_neg (by rw [key s hs]; decide)]
  · have hfb : ¬((("foo-bar").data) ≠ [] ∧ (("foo-bar").data).all isSafeChar = true) := by
      decide
    have h1 : ensure_quotes (("foo-bar").data) = '"' :: (add_quotes (("foo-bar").data) ++ ['"']) := by
      unfold ensure_quotes
      rw [if_neg (by rw [key _ hfb]; decide)]
    rw [h1]
    rfl

/-- Witness for C6: a safe token passes through unquoted. -/
theorem ensure_quotes_spec_witness :
    ensure_quotes (("PRODUCT_NAME").data) = ("PRODUCT_NAME").data :=
  (ensure_quotes_spec.1 (("PRODUCT_NAME").data)).2 ⟨by decide, by decide⟩

end Xcode

namespace Xcode

/-- The NeXTSTEP byte-to-Unicode table (`NEXT_STEP_MAPPINGS`, `escape.rs`
lines 4-37), reproduced entry for entry. -/
def NEXT_STEP_MAPPINGS : List (Nat × Nat) := [
  (0x80, 0x00a0), (0x81, 0x00c0), (0x82, 0x00c1), (0x83, 0x00c2),
  (0x84, 0x00c3), (0x85, 0x00c4), (0x86, 0x00c5), (0x87, 0x00c7),
  (0x88, 0x00c8), (0x89, 0x00c9), (0x8a, 0x00ca), (0x8b, 0x00cb),
  (0x8c, 0x00cc), (0x8d, 0x00cd), (0x8e, 0x00ce), (0x8f, 0x00cf),
  (0x90, 0x00d0), (0x91, 0x00d1), (0x92, 0x00d2), (0x93, 0x00d3),
  (0x94, 0x00d4), (0x95, 0x00d5), (0x96, 0x00d6), (0x97, 0x00d9),
  (0x98, 0x00da), (0x99, 0x00db), (0x9a, 0x00dc), (0x9b, 0x00dd),
  (0x9c, 0x00de), (0x9d, 0x00b5), (0x9e, 0x00d7), (0x9f, 0x00f7),
  (0xa0, 0x00a9), (0xa1, 0x00a1), (0xa2, 0x00a2), (0xa3, 0x00a3),
  (0xa4, 0x2044), (0xa5, 0x00a5), (0xa6, 0x0192), (0xa7, 0x00a7),
  (0xa8, 0x00a4), (0xa9, 0x2019), (0xaa, 0x201c), (0xab, 0x00ab),
  (0xac, 0x2039), (0xad, 0x203a), (0xae, 0xfb01), (0xaf, 0xfb02),
  (0xb0, 0x00ae), (0xb1, 0x2013), (0xb2, 0x2020), (0xb3, 0x2021),
  (0xb4, 0x00b7), (0xb5, 0x00a6), (0xb6, 0x00b6), (0xb7, 0x2022),
  (0xb8, 0x201a), (0xb9, 0x201e), (0xba, 0x201d), (0xbb, 0x00bb),
  (0xbc, 0x2026), (0xbd, 0x2030), (0xbe, 0x00ac), (0xbf, 0x00bf),
  (0xc0, 0x00b9), (0xc1, 0x02cb), (0xc2, 0x00b4), (0xc3, 0x02c6),
  (0xc4, 0x02dc), (0xc5, 0x00af), (0xc6, 0x02d8), (0xc7, 0x02d9),
  (0xc8, 0x00a8), (0xc9, 0x00b2), (0xca, 0x02da), (0xcb, 0x00b8),
  (0xcc, 0x00b3), (0xcd, 0x02dd), (0xce, 0x02db), (0xcf, 0x02c7),
  (0xd0, 0x2014), (0xd1, 0x00b1), (0xd2, 0x00bc), (0xd3, 0x00bd),
  (0xd4, 0x00be), (0xd5, 0x00e0), (0xd6, 0x00e1), (0xd7, 0x00e2),
  (0xd8, 0x00e3), (0xd9, 0x00e4), (0xda, 0x00e5), (0xdb, 0x00e7),
  (0xdc, 0x00e8), (0xdd, 0x00e9), (0xde, 0x00ea), (0xdf, 0x00eb),
  (0xe0, 0x00ec), (0xe1, 0x00c6), (0xe2, 0x00ed), (0xe3, 0x00aa),
  (0xe4, 0x00ee), (0xe5, 0x00ef), (0xe6, 0x00f0), (0xe7, 0x00f1),
  (0xe8, 0x0141), (0xe9, 0x00d8), (0xea, 0x0152), (0xeb, 0x00ba),
  (0xec, 0x00f2), (0xed, 0x00f3), (0xee, 0x00f4), (0xef, 0x00f5),
  (0xf0, 0x00f6), (0xf1, 0x00e6), (0xf2, 0x00f9), (0xf3, 0x00fa),
  (0xf4, 0x00fb), (0xf5, 0x0131), (0xf6, 0x00fc), (0xf7, 0x00fd),
  (0xf8, 0x0142), (0xf9, 0x00f8), (0xfa, 0x0153), (0xfb, 0x00df),
  (0xfc, 0x00fe), (0xfd, 0x00ff), (0xfe, 0xfffd), (0xff, 0xfffd)]

/-- Table lookup (`nextstep_to_unicode`, `escape.rs` lines 40-50). -/
def nextstep_to_unicode (code : Nat) : Nat :=
  if code < 128 ∨ 255 < code then code
  else
    match NEXT_STEP_MAPPINGS.find? (fun p => p.1 = code) with
    | some p => p.2
    | none => code

end Xcode

namespace Xcode

/-- Code points accepted by `char::from_u32`. -/
def isValidCharNat (n : Nat) : Bool := n < 0xd800 || (0xe000 ≤ n && n < 0x110000)

/-- Up to two further octal digits after the first (the `j < i + 4` bound of the
octal loop in `unescape_string`). -/
def octTake2 : Str → Str
  | [] => []
  | [a] => if isOctDigit a then [a] else []
  | a :: b :: _ =>
    if isOctDigit a then (if isOctDigit b then [a, b] else [a]) else []

/-- Escape-sequence decoding for quoted strings (`unescape_string`,
`escape.rs` lines 59-159), stated over characters; all escape-introducing
bytes are ASCII, so the byte scan of the source and this character scan agree
(the `\U` arm needs four characters where the source needs four bytes — both
reject the sequence unless those are four ASCII hex digits). -/
def unescape_string : Str → Str
  | [] => []
  | c :: rest =>
    if c = '\\' then
      match rest with
      | [] => ['\\']
      | next :: rest2 =>
        if next = 'a' then '\x07' :: unescape_string rest2
        else if next = 'b' then '\x08' :: unescape_string rest2
        else if next = 'f' then '\x0C' :: unescape_string rest2
        else if next = 'n' then '\n' :: unescape_string rest2
        else if next = 'r' then '\r' :: unescape_string rest2
        else if next = 't' then '\t' :: unescape_string rest2
        else if next = 'v' then '\x0B' :: unescape_string rest2
        else if next = '"' then '"' :: unescape_string rest2
        else if next = '\'' then '\'' :: unescape_string rest2
        else if next = '\\' then '\\' :: unescape_string rest2
        else if next = '\n' then '\n' :: unescape_string rest2
        else if next = 'U' then
          match hu : rest2 with
          | h1 :: h2 :: h3 :: h4 :: _ =>
            if isHexDigit h1 && isHexDigit h2 && isHexDigit h3 && isHexDigit h4 then
              if isValidCharNat (hexVal [h1, h2, h3, h4]) then
                Char.ofNat (hexVal [h1, h2, h3, h4]) :: unescape_string (rest2.drop 4)
              else
                unescape_string (rest2.drop 4)
            else '\\' :: unescape_string ('U' :: rest2)
          | _ => '\\' :: unescape_string ('U' :: rest2)
        else if isOctDigit next then
          (if isValidCharNat (if 128 ≤ octVal (next :: octTake2 rest2) then
              nextstep_to_unicode (octVal (next :: octTake2 rest2))
            else octVal (next :: octTake2 rest2)) then
            [Char.ofNat (if 128 ≤ octVal (next :: octTake2 rest2) then
              nextstep_to_unicode (octVal (next :: octTake2 rest2))
            else octVal (next :: octTake2 rest2))]
          else []) ++ unescape_string (rest2.drop ((next :: octTake2 rest2).length - 1))
        else '\\' :: next :: unescape_string rest2
    else c :: unescape_string rest
  termination_by s => s.length
  decreasing_by
  all_goals simp_all
  all_goals omega

end Xcode

namespace Xcode

set_option maxRecDepth 8192 in
/-- Every remapped code point for a byte in `[0x80, 0xFF]` is a valid Unicode
scalar, so `char::from_u32` accepts it. -/
theorem nextstep_valid : ∀ n < 256, 128 ≤ n → isValidCharNat (nextstep_to_unicode n) = true := by
  decide

theorem unescape_nil : unescape_string [] = [] := by
  rw [unescape_string.eq_def]

theorem unescape_plain (c : Char) (rest : Str) (h : ¬(c = '\\')) :
    unescape_string (c :: rest) = c :: unescape_string rest := by
  rw [unescape_string.eq_def]
  change (if c = '\\' then _ else _) = _
  rw [if_neg h]

theorem octDigit_toNat {c : Char} (h : isOctDigit c = true) :
    48 ≤ c.toNat ∧ c.toNat ≤ 55 := by
  unfold isOctDigit at h
  simp only [Bool.and_eq_true, decide_eq_true_eq] at h
  exact h

theorem octVal_three_le {d1 d2 d3 : Char} (h1 : isOctDigit d1 = true)
    (h2 : isOctDigit d2 = true) (h3 : isOctDigit d3 = true) : octVal [d1, d2, d3] ≤ 511 := by
  obtain ⟨a1, b1⟩ := octDigit_toNat h1
  obtain ⟨a2, b2⟩ := octDigit_toNat h2
  obtain ⟨a3, b3⟩ := octDigit_toNat h3
  unfold octVal
  simp only [List.foldl_cons, List.foldl_nil]
  omega

/-- C4: decoding a three-octal-digit escape whose code is at least 0x80 yields
the NeXTSTEP table's Unicode mapping for that byte (0xFE and 0xFF map to
U+FFFD); `"\341"` decodes to U+00C6 (Æ), and re-encoding that text passes the
character through as UTF-8 inside quotes rather than as an octal escape. -/
theorem octal_escape_nextstep_spec :
    (∀ d1 d2 d3 : Char, ∀ rest : Str, isOctDigit d1 = true → isOctDigit d2 = true →
        isOctDigit d3 = true → 128 ≤ octVal [d1, d2, d3] → octVal [d1, d2, d3] ≤ 255 →
        unescape_string ('\\' :: d1 :: d2 :: d3 :: rest)
          = Char.ofNat (nextstep_to_unicode (octVal [d1, d2, d3])) :: unescape_string rest)
    ∧ nextstep_to_unicode 254 = 0xfffd
    ∧ nextstep_to_unicode 255 = 0xfffd
    ∧ unescape_string (['\\', '3', '4', '1']) = [Char.ofNat 0xc6]
    ∧ add_quotes ([Char.ofNat 0xc6]) = [Char.ofNat 0xc6]
    ∧ ensure_quotes ([Char.ofNat 0xc6]) = ['"', Char.ofNat 0xc6, '"'] := by
  have main : ∀ d1 d2 d3 : Char, ∀ rest : Str, isOctDigit d1 = true → isOctDigit d2 = true →
      isOctDigit d3 = true → 128 ≤ octVal [d1, d2, d3] → octVal [d1, d2, d3] ≤ 255 →
      unescape_string ('\\' :: d1 :: d2 :: d3 :: rest)
        = Char.ofNat (nextstep_to_unicode (octVal [d1, d2, d3])) :: unescape_string rest := by
    intro d1 d2 d3 rest h1 h2 h3 hge hle
    obtain ⟨a1, b1⟩ := octDigit_toNat h1
    have hoct2 : octTake2 (d2 :: d3 :: rest) = [d2, d3] := by
      rw [octTake2, if_pos h2, if_pos h3]
    rw [unescape_string.eq_def]
    change (if ('\\' : Char) = '\\' then _ else _) = _
    rw [if_pos rfl]
    change (if d1 = 'a' then _ else _) = _
    rw [if_neg (by intro e; rw [e] at a1 b1; revert a1 b1; decide),
      if_neg (by intro e; rw [e] at a1 b1; revert a1 b1; decide),
      if_neg (by intro e; rw [e] at a1 b1; revert a1 b1; decide),
      if_neg (by intro e; rw [e] at a1 b1; revert a1 b1; decide),
      if_neg (by intro e; rw [e] at a1 b1; revert a1 b1; decide),
      if_neg (by intro e; rw [e] at a1 b1; revert a1 b1; decide),
      if_neg (by intro e; rw [e] at a1 b1; revert a1 b1; decide),
      if_neg (by intro e; rw [e] at a1 b1; revert a1 b1; decide),
      if_neg (by intro e; rw [e] at a1 b1; revert a1 b1; decide),
      if_neg (by intro e; rw [e] at a1 b1; revert a1 b1; decide),
      if_neg (by intro e; rw [e] at a1 b1; revert a1 b1; decide),
      if_neg (by intro e; rw [e] at a1 b1; revert a1 b1; decide),
      if_pos h1, hoct2]
    rw [if_pos hge, if_pos (nextstep_valid _ (by omega) hge)]
    simp
  refine ⟨main, by rfl, by rfl, ?_, by decide, by decide⟩
  have h := main '3' '4' '1' [] (by decide) (by decide) (by decide) (by decide) (by decide)
  rw [h]
  have e : nextstep_to_unicode (octVal ['3', '4', '1']) = 198 := by decide
  rw [e, unescape_nil]

/-- Witness for C4 at the concrete escape `\200` (non-breaking space). -/
theorem octal_escape_nextstep_spec_witness :
    unescape_string (['\\', '2', '0', '0']) = [Char.ofNat 0xa0] := by
  have h := octal_escape_nextstep_spec.1 '2' '0' '0' [] (by decide) (by decide) (by decide)
    (by decide) (by decide)
  rw [h]
  have e : nextstep_to_unicode (octVal ['2', '0', '0']) = 160 := by decide
  rw [e, unescape_nil]

end Xcode

namespace Xcode

/-! Plist value helpers (`types/plist.rs`). -/

/-- Rust `PlistValue::as_str`. -/
def PlistValue.as_str : PlistValue → Option Str
  | .str s => some s
  | _ => none

/-- Rust `PlistValue::as_object`. -/
def PlistValue.as_object : PlistValue → Option (List (Str × PlistValue))
  | .object m => some m
  | _ => none

/-- Rust `PlistValue::as_array`. -/
def PlistValue.as_array : PlistValue → Option (List PlistValue)
  | .array v => some v
  | _ => none

/-- Lookup in an insertion-ordered map (`IndexMap::get`); keys are unique, so
the first hit is the entry. -/
def lookup? (m : List (Str × PlistValue)) (k : Str) : Option PlistValue :=
  (m.find? (fun e => e.1 == k)).map (fun e => e.2)

/-- Lookup a string-valued property (`get(key).and_then(as_str)`). -/
def getStrProp (m : List (Str × PlistValue)) (k : Str) : Option Str :=
  (lookup? m k).bind PlistValue.as_str

/-! Decimal and hex rendering used by the writer. -/

/-- Decimal digit character. -/
def digitChar (n : Nat) : Char := Char.ofNat (48 + n)

/-- Fuelled decimal rendering of a natural number; `natToStr` supplies enough
fuel for every input. -/
def natToStrGo : Nat → Nat → Str
  | 0, _ => []
  | fuel + 1, n => if n < 10 then [digitChar n] else natToStrGo fuel (n / 10) ++ [digitChar (n % 10)]

/-- Decimal rendering of a natural number (Rust `u64`/`usize` Display). -/
def natToStr (n : Nat) : Str := natToStrGo (n + 1) n

/-- Decimal rendering of an `i64` (Rust `i64` Display). -/
def intToStr (n : Int) : Str :=
  if n < 0 then '-' :: natToStr n.natAbs else natToStr n.toNat

/-- Upper-case hex digit (`format!("{:02X}", _)`). -/
def hexDigitUpper (n : Nat) : Char :=
  if n < 10 then Char.ofNat (48 + n) else Char.ofNat (55 + n)

/-- Two upper-hex digits of a byte. -/
def byteHexUpper (b : Nat) : Str := [hexDigitUpper (b / 16 % 16), hexDigitUpper (b % 16)]

/-- Render binary data as `<UPPERHEX>` (`format_data`, `quotes.rs` lines 55-58). -/
def format_data (bytes : List Nat) : Str :=
  '<' :: (bytes.flatMap byteHexUpper ++ ['>'])

/-- Truncation toward zero, the value of `f64::trunc` / `as i64` on the
rationals the parser produces. -/
def ratTrunc (q : ℚ) : Int := q.num / (q.den : Int)

/-- The fractional part `f - f.trunc()`; `f.fract() == 0.0` iff this is `0`. -/
def ratFract (q : ℚ) : ℚ := q - (ratTrunc q : ℚ)

/-- Display model for `format!("{}", f)` on an `f64`: integral values print
without a decimal point, finite decimal fractions print their shortest decimal
expansion.  Values outside that range do not arise from the parser, whose
floats always come from decimal literals; no theorem below evaluates this
function. -/
def float_display (q : ℚ) : Str :=
  let sign : Str := if q < 0 then ['-'] else []
  let a : ℚ := |q|
  match (List.range 18).find? (fun k => (a * 10 ^ k).den = 1) with
  | some 0 => sign ++ natToStr a.num.toNat
  | some k =>
      let ip : Nat := a.floor.toNat
      let fracnum : Nat := ((a - a.floor) * 10 ^ k).num.toNat
      let ds := natToStr fracnum
      sign ++ natToStr ip ++ '.' :: (List.replicate (k - ds.length) '0' ++ ds)
  | none => sign ++ natToStr a.num.toNat

/-! The comment resolver (`writer/comments.rs`).  The cache threads through the
computation exactly as the `&mut HashMap` does; recursion through `fileRef`
chains carries fuel, which `create_reference_list` sizes to the object count
(enough for every acyclic reference chain — on a cyclic `PBXBuildFile` chain
the source itself would not terminate). -/

/-- Rust `str::strip_prefix` on text. -/
def stripPrefixList (pre s : Str) : Option Str :=
  if pre.isPrefixOf s then some (s.drop pre.length) else none

/-- Last `/`-separated component (`path.split('/').last()`). -/
def lastComponent (s : Str) : Str :=
  s.foldl (fun acc c => if c = '/' then [] else acc ++ [c]) []

/-- Strip a `.git` suffix from a repository name. -/
def repo_name_part (path : Str) : Str :=
  let name := lastComponent path
  if (".git").data.isSuffixOf name then name.take (name.length - 4) else name

/-- GitHub repository name extraction (`get_repo_name_from_url`,
`comments.rs` lines 218-236). -/
def get_repo_name_from_url (url : Str) : Str :=
  match stripPrefixList (("https://github.com/").data) url with
  | some path =>
      let n := repo_name_part path
      if n ≠ [] then n
      else match stripPrefixList (("http://github.com/").data) url with
        | some path2 =>
            let n2 := repo_name_part path2
            if n2 ≠ [] then n2 else url
        | none => url
  | none =>
      match stripPrefixList (("http://github.com/").data) url with
      | some path2 =>
          let n2 := repo_name_part path2
          if n2 ≠ [] then n2 else url
      | none => url

/-- Default phase name from the ISA (`get_default_build_phase_name`):
strip the `PBX` prefix and `BuildPhase` suffix. -/
def default_build_phase_name (isa : Str) : Option Str :=
  if ("PBX").data.isPrefixOf isa && ("BuildPhase").data.isSuffixOf isa then
    some ((isa.drop 3).take (isa.length - 13))
  else
    none

/-- Build-phase annotation (`get_build_phase_name`). -/
def build_phase_name (obj : List (Str × PlistValue)) (isa : Str) : Str :=
  match getStrProp obj (("name").data) with
  | some name => name
  | none => (default_build_phase_name isa).getD []

/-- First of `name`, `productName`, `path`, falling back to the ISA
(`get_default_name`). -/
def default_name (obj : List (Str × PlistValue)) (isa : Str) : Option Str :=
  some ((((getStrProp obj (("name").data)).or
    (getStrProp obj (("productName").data))).or
    (getStrProp obj (("path").data))).getD isa)

/-- Annotation of an `XCConfigurationList`
(`get_xc_configuration_list_comment`, `comments.rs` lines 165-216). -/
def xc_configuration_list_comment (id : Str) (objs : List (Str × PlistValue)) : Str :=
  match objs.find? (fun e =>
      match e.2 with
      | .object m => getStrProp m (("buildConfigurationList").data) == some id
      | _ => false) with
  | none => ("Build configuration list for [unknown]").data
  | some (inner_id, v) =>
    match v.as_object with
    | none => ("Build configuration list for [unknown]").data
    | some m =>
      let isa := (getStrProp m (("isa").data)).getD []
      match ((getStrProp m (("name").data)).or
          (getStrProp m (("path").data))).or
          (getStrProp m (("productName").data)) with
      | some name =>
          ("Build configuration list for ").data ++ isa ++ (" \"").data ++ name ++ [ '"' ]
      | none =>
        let viaTargets : Option Str :=
          match lookup? m (("targets").data) with
          | some (.array targets) =>
            match targets.head?.bind PlistValue.as_str with
            | some tid =>
              match objs.find? (fun e => e.1 == tid) with
              | some te =>
                match te.2.as_object with
                | some tm =>
                    ((lookup? tm (("productName").data)).or
                      (lookup? tm (("name").data))).bind PlistValue.as_str
                | none => none
              | none => none
            | none => none
          | _ => none
        match viaTargets with
        | some name =>
            ("Build configuration list for ").data ++ isa ++ (" \"").data ++ name ++ [ '"' ]
        | none =>
          let proxy : Option Str := objs.findSome? (fun e =>
            match e.2 with
            | .object pm =>
                if getStrProp pm (("isa").data) == some (("PBXContainerItemProxy").data)
                    && getStrProp pm (("containerPortal").data) == some inner_id then
                  getStrProp pm (("remoteInfo").data)
                else none
            | _ => none)
          match proxy with
          | some name =>
              ("Build configuration list for ").data ++ isa ++ (" \"").data ++ name ++ [ '"' ]
          | none => ("Build configuration list for ").data ++ isa

/-- Reverse index `build_file_uuid → (phase_isa, phase_name)` built in one pass
over all build phases (`create_reference_list`, `comments.rs` lines 22-39). -/
def build_file_to_phase (objs : List (Str × PlistValue)) :
    List (Str × (Str × Option Str)) :=
  objs.foldl (fun acc pair =>
    match pair.2 with
    | .object m =>
      let isa := (getStrProp m (("isa").data)).getD []
      if ("BuildPhase").data.isSuffixOf isa then
        match lookup? m (("files").data) with
        | some (.array files) =>
            files.foldl (fun acc2 f =>
              match f with
              | .str uuid => (uuid, (isa, getStrProp m (("name").data))) :: acc2
              | _ => acc2) acc
        | _ => acc
      else acc
    | _ => acc) []

mutual

/-- Annotation for one object, threading the cache
(`get_comment_for_object`, `comments.rs` lines 49-102). -/
def get_comment_for_object (fuel : Nat) (id : Str) (object : PlistValue)
    (objs : List (Str × PlistValue)) (ftp : List (Str × (Str × Option Str)))
    (cache : List (Str × Str)) : Option Str × List (Str × Str) :=
  match fuel with
  | 0 => (none, cache)
  | fuel + 1 =>
    match object.as_object with
    | none => (none, cache)
    | some obj =>
      match getStrProp obj (("isa").data) with
      | none => (none, cache)
      | some isa =>
        match cache.find? (fun e => e.1 == id) with
        | some c => (some c.2, cache)
        | none =>
          let r : Option Str × List (Str × Str) :=
            if isa == ("PBXBuildFile").data then
              get_pbx_build_file_comment fuel id obj objs ftp cache
            else if isa == ("XCConfigurationList").data then
              (some (xc_configuration_list_comment id objs), cache)
            else if isa == ("XCRemoteSwiftPackageReference").data then
              (match getStrProp obj (("repositoryURL").data) with
                | some url =>
                    some (isa ++ (" \"").data ++ get_repo_name_from_url url ++ [ '"' ])
                | none => some isa, cache)
            else if isa == ("XCLocalSwiftPackageReference").data then
              (match getStrProp obj (("relativePath").data) with
                | some p => some (isa ++ (" \"").data ++ p ++ [ '"' ])
                | none => some isa, cache)
            else if isa == ("PBXProject").data then
              (some (("Project object").data), cache)
            else if ("BuildPhase").data.isSuffixOf isa then
              (some (build_phase_name obj isa), cache)
            else if isa == ("PBXGroup").data then
              (if (getStrProp obj (("name").data)).isNone
                  && (getStrProp obj (("path").data)).isNone then
                (some [], cache)
              else (default_name obj isa, cache))
            else (default_name obj isa, cache)
          match r with
          | (some c, cache') => (some c, (id, c) :: cache')
          | (none, cache') => (none, cache')

/-- Annotation of a `PBXBuildFile` (`get_pbx_build_file_comment`,
`comments.rs` lines 113-145). -/
def get_pbx_build_file_comment (fuel : Nat) (id : Str)
    (build_file : List (Str × PlistValue)) (objs : List (Str × PlistValue))
    (ftp : List (Str × (Str × Option Str)))
    (cache : List (Str × Str)) : Option Str × List (Str × Str) :=
  let phase_name : Str :=
    match ftp.find? (fun e => e.1 == id) with
    | some e =>
        match e.2.2 with
        | some n => n
        | none => (default_build_phase_name e.2.1).getD []
    | none => ("[missing build phase]").data
  let ref_id : Option Str :=
    ((lookup? build_file (("fileRef").data)).or
      (lookup? build_file (("productRef").data))).bind PlistValue.as_str
  let nc : Str × List (Str × Str) :=
    match ref_id with
    | some rid =>
      match (objs.find? (fun e => e.1 == rid)).map (fun e => e.2) with
      | some refobj =>
        match get_comment_for_object fuel rid refobj objs ftp cache with
        | (some c, cc) => (c, cc)
        | (none, cc) => (("(null)").data, cc)
      | none => (("(null)").data, cache)
    | none => (("(null)").data, cache)
  (some (nc.1 ++ (" in ").data ++ phase_name), nc.2)

end

/-- The `UUID → annotation` map consumed by the writer
(`create_reference_list`, `comments.rs` lines 10-47). -/
def create_reference_list (project : PlistValue) : List (Str × Str) :=
  match project.as_object.bind (fun root => lookup? root (("objects").data)) with
  | some (.object objs) =>
      let ftp := build_file_to_phase objs
      objs.foldl
        (fun cache pair =>
          (get_comment_for_object (objs.length + 1) pair.1 pair.2 objs ftp cache).2)
        []
  | _ => []

end Xcode

namespace Xcode

/-! The writer (`writer/serializer.rs`).  The mutable output buffer becomes
string concatenation; the `indent` field becomes an explicit argument; the
comment map is the `comments` parameter, filled by `create_reference_list`
in `build`. -/

/-- One tab per level (`write_indent`; the cached strings are an optimization
for the same text). -/
def indentStr (n : Nat) : Str := List.replicate n '\t'

/-- Bytes that force the escaping path (`needs_escaping`, `serializer.rs`
lines 418-420). -/
def needs_escaping (s : Str) : Bool :=
  s.any (fun b => b.toNat < 32 || b = '"' || b = '\\' || b.toNat = 127)

/-- The serializer's own quote-or-not writer (`write_ensure_quotes_to`,
`serializer.rs` lines 391-404); its `is_safe_unquoted` (lines 408-414) is the
same character test as the one in `quotes.rs`. -/
def write_ensure_quotes_to (value : Str) : Str :=
  if is_safe_unquoted value then
    if needs_escaping value then add_quotes value else value
  else
    '"' :: (add_quotes value ++ ['"'])

/-- Emit a UUID with its annotation when the comment map has a nonempty one
(`write_format_id` / `format_id_string`, `serializer.rs` lines 101-127). -/
def format_id (comments : List (Str × Str)) (id : Str) : Str :=
  match comments.find? (fun e => e.1 == id) with
  | some e =>
      if e.2 ≠ [] then id ++ (" /* ").data ++ e.2 ++ (" */").data
      else write_ensure_quotes_to id
  | none => write_ensure_quotes_to id

/-- Keys whose numeric values are forced to decimal form
(`key_has_float_value`, `serializer.rs` lines 129-135). -/
def key_has_float_value (key : Str) : Bool :=
  key.all (fun b => !(97 ≤ b.toNat && b.toNat ≤ 122))
    && ((("SWIFT_VERSION").data.isSuffixOf key)
      || (("MARKETING_VERSION").data.isSuffixOf key)
      || (("_DEPLOYMENT_TARGET").data.isSuffixOf key))

mutual

/-- Payload size used as the writer's termination measure. -/
def sizeVal : PlistValue → Nat
  | .str _ => 1
  | .int _ => 1
  | .float _ => 1
  | .data _ => 1
  | .object entries => 1 + sizeEntries entries
  | .array items => 1 + sizeItems items

/-- Size of an entry list. -/
def sizeEntries : List (Str × PlistValue) → Nat
  | [] => 0
  | (_, v) :: rest => 1 + sizeVal v + sizeEntries rest

/-- Size of an item list. -/
def sizeItems : List PlistValue → Nat
  | [] => 0
  | v :: rest => 1 + sizeVal v + sizeItems rest

end

/-- Byte-wise string order (`&str` comparison; UTF-8 byte order coincides with
code-point order). -/
def strLe (a b : Str) : Bool :=
  match a, b with
  | [], _ => true
  | _ :: _, [] => false
  | c :: a2, d :: b2 => if c = d then strLe a2 b2 else decide (c.toNat < d.toNat)

/-- Sorted list of the distinct ISA names, in ASCII order (the `BTreeMap`
iteration order of `write_pbx_objects`). -/
def sortedIsas (rendered : List (Str × Str × Str)) : List Str :=
  ((rendered.map (fun e => e.1)).mergeSort strLe).eraseReps

mutual

/-- Emit the entries of one object (`write_object`, `serializer.rs`
lines 156-217). -/
def write_object (comments : List (Str × Str)) (ind : Nat) (is_base : Bool) :
    List (Str × PlistValue) → Str
  | [] => []
  | (key, value) :: rest =>
    (match value with
     | .data d =>
         indentStr ind ++ ensure_quotes key ++ (" = ").data ++ format_data d ++ (";\n").data
     | .array items => write_array comments ind key items
     | .object inner =>
       if !is_base && inner.isEmpty then
         indentStr ind ++ write_ensure_quotes_to key ++ (" = \x7b\x7d;\n").data
       else
         indentStr ind ++ write_ensure_quotes_to key ++ (" = \x7b\n").data
           ++ (if is_base && key == ("objects").data then
                write_pbx_objects comments (ind + 1) inner
              else
                write_object comments (ind + 1) is_base inner)
           ++ indentStr ind ++ ("\x7d;\n").data
     | .int n =>
       if key_has_float_value key then
         indentStr ind ++ ensure_quotes key ++ (" = ").data
           ++ ensure_quotes (intToStr n ++ (".0").data) ++ (";\n").data
       else
         indentStr ind ++ ensure_quotes key ++ (" = ").data
           ++ ensure_quotes (intToStr n) ++ (";\n").data
     | .float q =>
       indentStr ind ++ ensure_quotes key ++ (" = ").data
         ++ ensure_quotes (if key_has_float_value key && ratFract q == 0 then
              intToStr (ratTrunc q) ++ (".0").data
            else float_display q) ++ (";\n").data
     | .str s =>
       if key == ("remoteGlobalIDString").data || key == ("TestTargetID").data then
         indentStr ind ++ ensure_quotes key ++ (" = ").data ++ ensure_quotes s ++ (";\n").data
       else
         indentStr ind ++ ensure_quotes key ++ (" = ").data
           ++ format_id comments s ++ (";\n").data)
      ++ write_object comments ind is_base rest
  termination_by l => (sizeEntries l, 0)
  decreasing_by all_goals first
  | exact Prod.Lex.right _ (by omega)
  | apply Prod.Lex.left _ _ (by simp [sizeVal, sizeEntries, sizeItems]; omega)
  | (simp [sizeVal, sizeEntries, sizeItems]; omega)

/-- Emit one array-valued entry (`write_array`, `serializer.rs`
lines 342-386). -/
def write_array (comments : List (Str × Str)) (ind : Nat) (key : Str)
    (items : List PlistValue) : Str :=
  indentStr ind ++ write_ensure_quotes_to key ++ (" = (\n").data
    ++ write_array_items comments (ind + 1) items
    ++ indentStr ind ++ (");\n").data
  termination_by (sizeItems items, 1)
  decreasing_by all_goals first
  | exact Prod.Lex.right _ (by omega)
  | apply Prod.Lex.left _ _ (by simp [sizeVal, sizeEntries, sizeItems]; omega)
  | (simp [sizeVal, sizeEntries, sizeItems]; omega)

/-- Emit the items of an array, one per line with a trailing comma; nested
arrays fall into the catch-all arm of the source's `match` and are dropped. -/
def write_array_items (comments : List (Str × Str)) (ind : Nat) :
    List PlistValue → Str
  | [] => []
  | item :: rest =>
    (match item with
     | .data d => indentStr ind ++ format_data d ++ (",\n").data
     | .object inner =>
         indentStr ind ++ ("\x7b\n").data
           ++ write_object comments (ind + 1) false inner
           ++ indentStr ind ++ ("\x7d,\n").data
     | .str s => indentStr ind ++ format_id comments s ++ (",\n").data
     | .int n => indentStr ind ++ format_id comments (intToStr n) ++ (",\n").data
     | .float q => indentStr ind ++ format_id comments (float_display q) ++ (",\n").data
     | .array _ => [])
      ++ write_array_items comments ind rest
  termination_by l => (sizeItems l, 0)
  decreasing_by all_goals first
  | exact Prod.Lex.right _ (by omega)
  | apply Prod.Lex.left _ _ (by simp [sizeVal, sizeEntries, sizeItems]; omega)
  | (simp [sizeVal, sizeEntries, sizeItems]; omega)

/-- Inline form of one object (`write_inline_recursive`, `serializer.rs`
lines 272-340). -/
def write_inline_recursive (comments : List (Str × Str)) (key : Str)
    (value : List (Str × PlistValue)) : Str :=
  format_id comments key ++ (" = \x7b").data
    ++ write_inline_entries comments value ++ ("\x7d; ").data
  termination_by (sizeEntries value, 1)
  decreasing_by all_goals first
  | exact Prod.Lex.right _ (by omega)
  | apply Prod.Lex.left _ _ (by simp [sizeVal, sizeEntries, sizeItems]; omega)
  | (simp [sizeVal, sizeEntries, sizeItems]; omega)

/-- Entries of an inlined object. -/
def write_inline_entries (comments : List (Str × Str)) :
    List (Str × PlistValue) → Str
  | [] => []
  | (k, v) :: rest =>
    (match v with
     | .data d =>
         write_ensure_quotes_to k ++ (" = ").data ++ format_data d ++ ("; ").data
     | .array items =>
         write_ensure_quotes_to k ++ (" = (").data
           ++ write_inline_array_items items ++ ("); ").data
     | .object inner => write_inline_recursive comments k inner
     | .str s =>
       if k == ("remoteGlobalIDString").data || k == ("TestTargetID").data then
         write_ensure_quotes_to k ++ (" = ").data ++ write_ensure_quotes_to s ++ ("; ").data
       else
         write_ensure_quotes_to k ++ (" = ").data ++ format_id comments s ++ ("; ").data
     | .int n =>
         write_ensure_quotes_to k ++ (" = ").data
           ++ write_ensure_quotes_to (intToStr n) ++ ("; ").data
     | .float q =>
         write_ensure_quotes_to k ++ (" = ").data
           ++ write_ensure_quotes_to (float_display q) ++ ("; ").data)
      ++ write_inline_entries comments rest
  termination_by l => (sizeEntries l, 0)
  decreasing_by all_goals first
  | exact Prod.Lex.right _ (by omega)
  | apply Prod.Lex.left _ _ (by simp [sizeVal, sizeEntries, sizeItems]; omega)
  | (simp [sizeVal, sizeEntries, sizeItems]; omega)

/-- Items of an inlined array: only strings and integers are emitted
(the `_ => ()` arm of the source). -/
def write_inline_array_items : List PlistValue → Str
  | [] => []
  | item :: rest =>
    (match item with
     | .str s => write_ensure_quotes_to s ++ (", ").data
     | .int n => write_ensure_quotes_to (intToStr n) ++ (", ").data
     | _ => [])
      ++ write_inline_array_items rest
  termination_by l => (sizeItems l, 0)
  decreasing_by all_goals first
  | exact Prod.Lex.right _ (by omega)
  | apply Prod.Lex.left _ _ (by simp [sizeVal, sizeEntries, sizeItems]; omega)
  | (simp [sizeVal, sizeEntries, sizeItems]; omega)

/-- Render every object of the `objects` map in insertion order; grouping and
sorting happen afterwards on the rendered text, which matches the source's
group-then-sort because rendering one entry is independent of order.  Each
item is `(isa, uuid, text)`; non-object entries are skipped, as in the
source. -/
def render_objects (comments : List (Str × Str)) (ind : Nat) :
    List (Str × PlistValue) → List (Str × Str × Str)
  | [] => []
  | (id, v) :: rest =>
    match v with
    | .object m =>
      let isa := (getStrProp m (("isa").data)).getD (("Unknown").data)
      (isa, id, write_object_inclusive comments ind id m)
        :: render_objects comments ind rest
    | _ => render_objects comments ind rest
  termination_by l => (sizeEntries l, 0)
  decreasing_by all_goals first
  | exact Prod.Lex.right _ (by omega)
  | apply Prod.Lex.left _ _ (by simp [sizeVal, sizeEntries, sizeItems]; omega)
  | (simp [sizeVal, sizeEntries, sizeItems]; omega)

/-- One object of the `objects` section: `PBXBuildFile` and
`PBXFileReference` are inlined, everything else is braced multi-line
(`write_object_inclusive`, `serializer.rs` lines 245-258). -/
def write_object_inclusive (comments : List (Str × Str)) (ind : Nat)
    (key : Str) (value : List (Str × PlistValue)) : Str :=
  let isa := (getStrProp value (("isa").data)).getD []
  if isa == ("PBXBuildFile").data || isa == ("PBXFileReference").data then
    indentStr ind
      ++ (let s := write_inline_recursive comments key value
          if s.getLast? = some ' ' then s.dropLast else s)
      ++ ['\n']
  else
    indentStr ind ++ format_id comments key ++ (" = \x7b\n").data
      ++ write_object comments (ind + 1) false value
      ++ indentStr ind ++ ("\x7d;\n").data
  termination_by (sizeEntries value, 2)
  decreasing_by all_goals first
  | exact Prod.Lex.right _ (by omega)
  | apply Prod.Lex.left _ _ (by simp [sizeVal, sizeEntries, sizeItems]; omega)
  | (simp [sizeVal, sizeEntries, sizeItems]; omega)

/-- The ISA-sectioned `objects` map (`write_pbx_objects`, `serializer.rs`
lines 219-243). -/
def write_pbx_objects (comments : List (Str × Str)) (ind : Nat)
    (objects : List (Str × PlistValue)) : Str :=
  let rendered := render_objects comments ind objects
  (sortedIsas rendered).flatMap (fun isa =>
    '\n' :: (("/* Begin ").data ++ isa ++ (" section */\n").data)
      ++ (((rendered.filter (fun e => e.1 == isa)).mergeSort
            (fun a b => strLe a.2.1 b.2.1)).flatMap (fun e => e.2.2))
      ++ (("/* End ").data ++ isa ++ (" section */\n").data))
  termination_by (sizeEntries objects, 1)
  decreasing_by all_goals first
  | exact Prod.Lex.right _ (by omega)
  | apply Prod.Lex.left _ _ (by simp [sizeVal, sizeEntries, sizeItems]; omega)
  | (simp [sizeVal, sizeEntries, sizeItems]; omega)

end

/-- Shebang line (`write_shebang` with the default options). -/
def shebangLine : Str := ("// ").data ++ ("!$*UTF8*$!").data ++ ['\n']

/-- Top-level braces around the root object (`write_project`,
`serializer.rs` lines 146-154); a non-object root emits only the braces. -/
def write_project (comments : List (Str × Str)) (project : PlistValue) : Str :=
  ("\x7b\n").data
    ++ (match project.as_object with
        | some obj => write_object comments 1 true obj
        | none => [])
    ++ ("\x7d\n").data

/-- Build a pbxproj text from a value tree (`build`, `serializer.rs`
lines 434-437, through `Writer::with_options`). -/
def build (project : PlistValue) : Str :=
  shebangLine ++ write_project (create_reference_list project) project

end Xcode

namespace Xcode

theorem digitChar_toNat {n : Nat} (h : n < 10) : (digitChar n).toNat = 48 + n := by
  interval_cases n <;> decide

theorem digitChar_isDigit {n : Nat} (h : n < 10) : isAsciiDigit (digitChar n) = true := by
  unfold isAsciiDigit
  rw [digitChar_toNat h]
  simp
  omega

theorem natToStrGo_digits :
    ∀ fuel n, n < fuel →
      (natToStrGo fuel n).all isAsciiDigit = true ∧ natToStrGo fuel n ≠ [] := by
  intro fuel
  induction fuel with
  | zero => intro n h; omega
  | succ f ih =>
      intro n h
      unfold natToStrGo
      by_cases hn : n < 10
      · rw [if_pos hn]
        constructor
        · simp [digitChar_isDigit hn]
        · simp
      · rw [if_neg hn]
        have hd : n / 10 < f := by omega
        obtain ⟨ha, hb⟩ := ih (n / 10) hd
        refine ⟨?_, by simp⟩
        rw [List.all_append, ha]
        simp [digitChar_isDigit (Nat.mod_lt n (by omega))]

theorem natToStr_digits (n : Nat) :
    (natToStr n).all isAsciiDigit = true ∧ natToStr n ≠ [] :=
  natToStrGo_digits (n + 1) n (by omega)

theorem digit_isSafe {c : Char} (h : isAsciiDigit c = true) : isSafeChar c = true := by
  unfold isAsciiDigit at h
  unfold isSafeChar
  simp only [Bool.and_eq_true, decide_eq_true_eq] at h
  simp only [Bool.or_eq_true, Bool.and_eq_true, decide_eq_true_eq]
  tauto

/-- A nonempty all-safe token passes `ensure_quotes` unchanged. -/
theorem ensure_quotes_of_safe {s : Str} (h1 : s ≠ []) (h2 : s.all isSafeChar = true) :
    ensure_quotes s = s := by
  unfold ensure_quotes
  rw [add_quotes_of_safe h2, if_pos]
  unfold is_safe_unquoted
  rw [h2]
  rcases s with - | ⟨c, t⟩
  · exact absurd rfl h1
  · rfl

theorem intToStr_nonneg_safe {n : Int} (h : 0 ≤ n) :
    (intToStr n).all isSafeChar = true ∧ intToStr n ≠ [] := by
  unfold intToStr
  rw [if_neg (by omega)]
  obtain ⟨ha, hb⟩ := natToStr_digits n.toNat
  refine ⟨?_, hb⟩
  rw [List.all_eq_true] at ha ⊢
  exact fun c hc => digit_isSafe (ha c hc)

theorem ensure_quotes_int_dot_zero {n : Int} (h : 0 ≤ n) :
    ensure_quotes (intToStr n ++ (".0").data) = intToStr n ++ (".0").data := by
  obtain ⟨ha, hb⟩ := intToStr_nonneg_safe h
  refine ensure_quotes_of_safe (by simp) ?_
  rw [List.all_append, ha]
  decide

theorem ensure_quotes_int {n : Int} (h : 0 ≤ n) :
    ensure_quotes (intToStr n) = intToStr n := by
  obtain ⟨ha, hb⟩ := intToStr_nonneg_safe h
  exact ensure_quotes_of_safe hb ha

end Xcode

namespace Xcode

/-- C5: keys that are entirely non-lowercase and end in `SWIFT_VERSION`,
`MARKETING_VERSION` or `_DEPLOYMENT_TARGET` force decimal form on write:
`Integer(n)` is emitted as the token `n.0` and a `Float` with zero fractional
part as `trunc.0` (a key `SWIFT_VERSION` holding Integer 5 writes as `5.0`);
keys outside the predicate emit their numeric values unchanged. -/
theorem key_float_coercion_spec :
    (∀ k : Str, key_has_float_value k = true ↔
        ((∀ c ∈ k, ¬(97 ≤ c.toNat ∧ c.toNat ≤ 122))
          ∧ ((("SWIFT_VERSION").data <:+ k) ∨ (("MARKETING_VERSION").data <:+ k)
              ∨ (("_DEPLOYMENT_TARGET").data <:+ k))))
    ∧ (∀ comments ind base k (n : Int), key_has_float_value k = true → 0 ≤ n →
        write_object comments ind base [(k, .int n)]
          = indentStr ind ++ ensure_quotes k ++ (" = ").data
              ++ (intToStr n ++ (".0").data) ++ (";\n").data)
    ∧ (∀ comments ind base k (q : ℚ), key_has_float_value k = true → ratFract q = 0 →
        0 ≤ q →
        write_object comments ind base [(k, .float q)]
          = indentStr ind ++ ensure_quotes k ++ (" = ").data
              ++ (intToStr (ratTrunc q) ++ (".0").data) ++ (";\n").data)
    ∧ (∀ comments ind base k (n : Int), key_has_float_value k = false → 0 ≤ n →
        write_object comments ind base [(k, .int n)]
          = indentStr ind ++ ensure_quotes k ++ (" = ").data ++ intToStr n ++ (";\n").data)
    ∧ (∀ comments ind base k (q : ℚ), key_has_float_value k = false →
        write_object comments ind base [(k, .float q)]
          = indentStr ind ++ ensure_quotes k ++ (" = ").data
              ++ ensure_quotes (float_display q) ++ (";\n").data)
    ∧ write_object [] 2 false [((("SWIFT_VERSION").data), .int 5)]
        = ("\t\tSWIFT_VERSION = 5.0;\n").data := by
  have main2 : ∀ comments ind base k (n : Int), key_has_float_value k = true → 0 ≤ n →
      write_object comments ind base [(k, .int n)]
        = indentStr ind ++ ensure_quotes k ++ (" = ").data
            ++ (intToStr n ++ (".0").data) ++ (";\n").data := by
    intro comments ind base k n hk hn
    rw [write_object]
    change (if key_has_float_value k = true then _ else _) ++ _ = _
    rw [if_pos hk, write_object, ensure_quotes_int_dot_zero hn]
    simp
  refine ⟨?_, main2, ?_, ?_, ?_, ?_⟩
  · intro k
    unfold key_has_float_value
    simp only [Bool.and_eq_true, Bool.or_eq_true, List.all_eq_true,
      List.isSuffixOf_iff_suffix, Bool.not_eq_true', Bool.and_eq_false_iff,
      decide_eq_false_iff_not, decide_eq_true_eq]
    constructor
    · rintro ⟨h1, h2⟩
      refine ⟨fun c hc => ?_, by tauto⟩
      rcases h1 c hc with h | h
      · exact fun hc2 => h hc2.1
      · exact fun hc2 => h hc2.2
    · rintro ⟨h1, h2⟩
      refine ⟨fun c hc => ?_, by tauto⟩
      by_cases ha : 97 ≤ c.toNat
      · exact Or.inr (fun hb => h1 c hc ⟨ha, hb⟩)
      · exact Or.inl ha
  · intro comments ind base k q hk hf hq
    rw [write_object]
    change _ ++ _ = _
    rw [write_object]
    have hcond : (key_has_float_value k && (ratFract q == 0)) = true := by
      rw [hk, beq_iff_eq.mpr hf]
      rfl
    rw [hcond]
    have htr : (0 : Int) ≤ ratTrunc q := by
      unfold ratTrunc
      have h1 : 0 ≤ q.num := Rat.num_nonneg.mpr hq
      have h2 : (0 : Int) < q.den := by exact_mod_cast q.den_pos
      exact Int.ediv_nonneg h1 (le_of_lt h2)
    rw [if_pos rfl, ensure_quotes_int_dot_zero htr]
    simp
  · intro comments ind base k n hk hn
    rw [write_object]
    change (if key_has_float_value k = true then _ else _) ++ _ = _
    rw [if_neg (by rw [hk]; simp), write_object, ensure_quotes_int hn]
    simp
  · intro comments ind base k q hk
    rw [write_object]
    change _ ++ _ = _
    rw [write_object]
    have hcond : (key_has_float_value k && (ratFract q == 0)) = false := by
      rw [hk]
      rfl
    rw [hcond]
    rw [if_neg (by simp)]
    simp
  · rw [main2 [] 2 false (("SWIFT_VERSION").data) 5 (by decide) (by decide)]
    decide

/-- Witness for C5 at a deployment-target key. -/
theorem key_float_coercion_spec_witness :
    write_object [] 1 false [((("IPHONEOS_DEPLOYMENT_TARGET").data), .int 14)]
      = ("\tIPHONEOS_DEPLOYMENT_TARGET = 14.0;\n").data := by
  rw [key_float_coercion_spec.2.1 [] 1 false (("IPHONEOS_DEPLOYMENT_TARGET").data) 14
    (by decide) (by decide)]
  decide

end Xcode

namespace Xcode

/-! The lexer (`parser/lexer.rs`).  `pos` arguments carry the byte offset of
the current input suffix; offsets advance by UTF-8 size, so they equal the
source's byte positions.  Offsets feed only the error payloads. -/

/-- Token kinds (`Token`, `lexer.rs` lines 32-44). -/
inductive Token where
  | openBrace
  | closeBrace
  | openParen
  | closeParen
  | equals
  | semicolon
  | comma
  | stringLit (s : Str)
  | quotedStr (s : Str)
  | dataLit (bytes : List Nat)
  deriving DecidableEq

/-- Lex errors; the source formats these into strings
(`format!("Unterminated string at offset {}", …)` and friends), so each
constructor carries exactly the data of the corresponding message. -/
inductive LexError where
  | unterminatedString (off : Nat)
  | unterminatedData (off : Nat)
  | invalidDataChar (c : Char)
  | unexpectedChar (c : Char) (off : Nat)
  deriving DecidableEq

/-- UTF-8 byte length of a text (how far Rust's byte cursor advances). -/
def utf8Len (s : Str) : Nat := s.foldl (fun a c => a + c.utf8Size) 0

/-- Skip a `//` comment body: stop at the newline, which stays in the input
(`skip_trivia`, `lexer.rs` lines 84-90). -/
def dropLineComment : Str → Str
  | [] => []
  | c :: rest => if c = '\n' then c :: rest else dropLineComment rest

/-- Skip a block comment body after `/*`: consume through the closing `*/`;
with one byte left the scan stops without consuming it
(`skip_trivia`, `lexer.rs` lines 91-100). -/
def dropBlockComment : Str → Str
  | [] => []
  | [c] => [c]
  | c :: d :: rest =>
    if c = '*' ∧ d = '/' then rest else dropBlockComment (d :: rest)

theorem dropLineComment_length_le (s : Str) : (dropLineComment s).length ≤ s.length := by
  induction s with
  | nil => simp [dropLineComment]
  | cons c rest ih =>
      unfold dropLineComment
      split <;> simp
      omega

theorem dropBlockComment_length_le (s : Str) : (dropBlockComment s).length ≤ s.length := by
  induction s using dropBlockComment.induct with
  | case1 => simp [dropBlockComment]
  | case2 c => simp [dropBlockComment]
  | case3 c d rest h =>
      unfold dropBlockComment
      rw [if_pos h]
      simp
      omega
  | case4 c d rest h ih =>
      unfold dropBlockComment
      rw [if_neg h]
      simp at ih ⊢
      omega

/-- Whitespace-and-comment skipping (`skip_trivia`, `lexer.rs`
lines 65-107).  Every loop iteration consumes at least one character, so
the fuel `length + 1` supplied by `next_token` never runs out; the fuel-0
fallback returns the input unchanged. -/
def skip_trivia : Nat → Str → Str
  | 0, s => s
  | _ + 1, [] => []
  | fuel + 1, c :: rest =>
    if isWsChar c then skip_trivia fuel rest
    else if c = '/' then
      match rest with
      | [] => c :: rest
      | d :: rest2 =>
        if d = '/' then skip_trivia fuel (dropLineComment rest2)
        else if d = '*' then skip_trivia fuel (dropBlockComment rest2)
        else c :: rest
    else c :: rest

/-- Bytes of a run of hex digits, two digits per byte, the final lone digit
(if any) standing alone (the `step_by(2)` chunking in `read_data_literal`). -/
def hexPairs : Str → List Nat
  | [] => []
  | [a] => [hexVal [a]]
  | a :: b :: rest => hexVal [a, b] :: hexPairs rest

/-- Validate the inside of a data literal: keep hex digits, skip ASCII
whitespace, fail on anything else (`read_data_literal`, `lexer.rs`
lines 171-180). -/
def collectHex : Str → Except LexError Str
  | [] => .ok []
  | c :: rest =>
    if isHexDigit c then (collectHex rest).map (fun h => c :: h)
    else if isAsciiWhitespace c then collectHex rest
    else .error (.invalidDataChar c)

/-- Read a data literal; `start` is the byte offset just after the `<`
(`read_data_literal`, `lexer.rs` lines 152-191). -/
def read_data_literal (start : Nat) (s : Str) : Except LexError (Token × Str) :=
  let content := s.takeWhile (fun c => c ≠ '>')
  if content.length = s.length then .error (.unterminatedData (start - 1))
  else
    match collectHex content with
    | .error e => .error e
    | .ok hex => .ok (.dataLit (hexPairs hex), (s.dropWhile (fun c => c ≠ '>')).tail)

/-- Scan a quoted string for its closing quote, skipping the byte after every
backslash, and remember whether any escape occurred (`read_quoted_string`,
`lexer.rs` lines 110-148); returns the raw inner text and the input after the
closing quote, or `none` when the quote is unterminated. -/
def scanQuoted (quote : Char) : Str → Option (Str × Bool × Str)
  | [] => none
  | c :: rest =>
    if c = quote then some ([], false, rest)
    else if c = '\\' then
      match rest with
      | [] => none
      | d :: rest2 =>
        match scanQuoted quote rest2 with
        | some (raw, _, r) => some ('\\' :: d :: raw, true, r)
        | none => none
    else
      match scanQuoted quote rest with
      | some (raw, esc, r) => some (c :: raw, esc, r)
      | none => none

/-- Read a quoted string whose opening quote (at byte offset `posQuote`) has
been consumed; the escape codec runs only when a backslash was seen. -/
def read_quoted_string (posQuote : Nat) (quote : Char) (s : Str) :
    Except LexError (Token × Str) :=
  match scanQuoted quote s with
  | none => .error (.unterminatedString posQuote)
  | some (raw, esc, rest) =>
      .ok (.quotedStr (if esc then unescape_string raw else raw), rest)

/-- Produce the next token, or `none` at end of input (`next_token`,
`lexer.rs` lines 209-254); `pos` is the byte offset of `s`. -/
def next_token (pos : Nat) (s : Str) : Except LexError (Option (Token × Str)) :=
  match skip_trivia (s.length + 1) s with
  | [] => .ok none
  | c :: rest =>
    if c = '\x7b' then .ok (some (.openBrace, rest))
    else if c = '\x7d' then .ok (some (.closeBrace, rest))
    else if c = '(' then .ok (some (.openParen, rest))
    else if c = ')' then .ok (some (.closeParen, rest))
    else if c = '=' then .ok (some (.equals, rest))
    else if c = ';' then .ok (some (.semicolon, rest))
    else if c = ',' then .ok (some (.comma, rest))
    else if c = '<' then
      (read_data_literal (pos + utf8Len s - utf8Len rest) rest).map some
    else if c = '"' ∨ c = '\'' then
      (read_quoted_string (pos + utf8Len s - utf8Len (c :: rest)) c rest).map some
    else if is_literal_char c then
      .ok (some (.stringLit (c :: rest.takeWhile is_literal_char),
        rest.dropWhile is_literal_char))
    else
      .error (.unexpectedChar c (pos + utf8Len s - utf8Len (c :: rest)))

end Xcode

namespace Xcode

theorem collectHex_ok_iff (content : Str) :
    (∃ h, collectHex content = .ok h) ↔
      content.all (fun c => isHexDigit c || isAsciiWhitespace c) = true := by
  induction content with
  | nil => simp [collectHex]
  | cons c rest ih =>
      unfold collectHex
      by_cases hx : isHexDigit c = true
      · rw [if_pos hx]
        simp only [List.all_cons, hx, Bool.true_or, Bool.true_and]
        rw [← ih]
        constructor
        · rintro ⟨h, hh⟩
          cases he : collectHex rest with
          | error e => rw [he] at hh; cases hh
          | ok v => exact ⟨v, rfl⟩
        · rintro ⟨h, hh⟩
          exact ⟨c :: h, by rw [hh]; rfl⟩
      · rw [if_neg hx]
        by_cases hw : isAsciiWhitespace c = true
        · rw [if_pos hw]
          simp only [List.all_cons, hw, Bool.or_true, Bool.true_and]
          rw [← ih]
        · rw [if_neg hw]
          simp only [Bool.not_eq_true] at hx hw
          simp [hx, hw]

theorem collectHex_all_hexws {content : Str}
    (h : content.all (fun c => isHexDigit c || isAsciiWhitespace c) = true) :
    collectHex content = .ok (content.filter isHexDigit) := by
  induction content with
  | nil => rfl
  | cons c rest ih =>
      rw [List.all_cons, Bool.and_eq_true] at h
      unfold collectHex
      by_cases hx : isHexDigit c = true
      · rw [if_pos hx, ih h.2, List.filter_cons_of_pos hx]
        rfl
      · have hw : isAsciiWhitespace c = true := by
          rcases Bool.or_eq_true_iff.mp h.1 with h1 | h1
          · exact absurd h1 hx
          · exact h1
        rw [if_neg hx, if_pos hw, ih h.2,
          List.filter_cons_of_neg (by simp [hx])]

theorem takeWhile_all_append {p : Char → Bool} {a : Str} (h : ∀ c ∈ a, p c = true)
    (q : Char) (hq : p q = false) (tail : Str) :
    (a ++ q :: tail).takeWhile p = a ∧ (a ++ q :: tail).dropWhile p = q :: tail := by
  induction a with
  | nil => simp [List.takeWhile, List.dropWhile, hq]
  | cons c rest ih =>
      have hc : p c = true := h c (by simp)
      have hr : ∀ c ∈ rest, p c = true := fun d hd => h d (by simp [hd])
      obtain ⟨t1, t2⟩ := ih hr
      constructor
      · rw [List.cons_append, List.takeWhile_cons_of_pos hc, t1]
      · rw [List.cons_append, List.dropWhile_cons_of_pos hc, t2]

/-- C9 counterexample: odd-length hex content is accepted: `<ABC>` lexes to the
bytes `[0xAB, 0x0C]` (the trailing lone digit is parsed as a one-digit byte). -/
theorem read_data_literal_odd_counterexample :
    read_data_literal 1 (("ABC>").data) = .ok (.dataLit ([171, 12]), []) := rfl

/-- C9 amended: reading a data literal succeeds exactly when the literal is
terminated by `>` and every content character is a hex digit or ASCII
whitespace (any length; digits pair up greedily and a trailing lone digit
forms its own byte); a non-hex non-whitespace byte is a fatal error carrying
that byte, and an unterminated literal is a fatal error reporting the byte
offset of the `<`. -/
theorem read_data_literal_spec :
    (∀ start : Nat, ∀ s : Str, (∃ t, read_data_literal start s = .ok t) ↔
        ((s.takeWhile (fun c => c ≠ '>')).length ≠ s.length
          ∧ (s.takeWhile (fun c => c ≠ '>')).all
              (fun c => isHexDigit c || isAsciiWhitespace c) = true))
    ∧ (∀ start : Nat, ∀ content rest : Str,
        content.all (fun c => isHexDigit c || isAsciiWhitespace c) = true →
        (∀ c ∈ content, c ≠ '>') →
        read_data_literal start (content ++ '>' :: rest)
          = .ok (.dataLit (hexPairs (content.filter isHexDigit)), rest))
    ∧ (∀ start : Nat, ∀ s : Str, (s.takeWhile (fun c => c ≠ '>')).length = s.length →
        read_data_literal start s = .error (.unterminatedData (start - 1)))
    ∧ (∀ good more : Str, ∀ c : Char,
        good.all (fun c => isHexDigit c || isAsciiWhitespace c) = true →
        isHexDigit c = false → isAsciiWhitespace c = false →
        collectHex (good ++ c :: more) = .error (.invalidDataChar c)) := by
  refine ⟨?_, ?_, ?_, ?_⟩
  · intro start s
    unfold read_data_literal
    by_cases hterm : (s.takeWhile (fun c => c ≠ '>')).length = s.length
    · rw [if_pos hterm]
      constructor
      · rintro ⟨t, ht⟩
        cases ht
      · rintro ⟨hne, -⟩
        exact absurd hterm hne
    · rw [if_neg hterm]
      constructor
      · rintro ⟨t, ht⟩
        refine ⟨hterm, ?_⟩
        rw [← collectHex_ok_iff]
        cases he : collectHex (s.takeWhile (fun c => c ≠ '>')) with
        | error e => rw [he] at ht; cases ht
        | ok v => exact ⟨v, rfl⟩
      · rintro ⟨-, hall⟩
        obtain ⟨h, hh⟩ := (collectHex_ok_iff _).mpr hall
        exact ⟨_, by rw [hh]⟩
  · intro start content rest hall hne
    have hp : ∀ c ∈ content, (decide (c ≠ '>')) = true := by
      intro c hc
      simp [hne c hc]
    obtain ⟨t1, t2⟩ := takeWhile_all_append hp '>' (by simp) rest
    unfold read_data_literal
    rw [t1, t2, if_neg (by simp), collectHex_all_hexws hall]
    rfl
  · intro start s hterm
    unfold read_data_literal
    rw [if_pos hterm]
  · intro good more c hall hx hw
    induction good with
    | nil =>
        rw [List.nil_append]
        unfold collectHex
        rw [if_neg (by simp [hx]), if_neg (by simp [hw])]
    | cons g grest ih =>
        rw [List.all_cons, Bool.and_eq_true] at hall
        rw [List.cons_append]
        unfold collectHex
        by_cases hg : isHexDigit g = true
        · rw [if_pos hg, ih hall.2]
          rfl
        · have hgw : isAsciiWhitespace g = true := by
            rcases Bool.or_eq_true_iff.mp hall.1 with h1 | h1
            · exact absurd h1 hg
            · exact h1
          rw [if_neg hg, if_pos hgw, ih hall.2]

/-- Witness for C9 at the literal `<AB CD>`. -/
theorem read_data_literal_spec_witness :
    read_data_literal 5 ((("AB CD").data) ++ '>' :: []) = .ok (.dataLit ([171, 205]), []) := by
  rw [read_data_literal_spec.2.1 5 (("AB CD").data) [] (by decide) (by decide)]
  rfl

end Xcode

namespace Xcode

/-- Extension-to-UTI table (`FILE_TYPES_BY_EXTENSION`, `types/constants.rs`). -/
def FILE_TYPES_BY_EXTENSION : List (Str × Str) := [
  (("a").data, ("archive.ar").data),
  (("app").data, ("wrapper.application").data),
  (("appex").data, ("wrapper.app-extension").data),
  (("bundle").data, ("wrapper.plug-in").data),
  (("c").data, ("sourcecode.c.c").data),
  (("cc").data, ("sourcecode.cpp.cpp").data),
  (("cpp").data, ("sourcecode.cpp.cpp").data),
  (("css").data, ("text.css").data),
  (("cxx").data, ("sourcecode.cpp.cpp").data),
  (("d").data, ("sourcecode.dtrace").data),
  (("dylib").data, ("compiled.mach-o.dylib").data),
  (("entitlements").data, ("text.plist.entitlements").data),
  (("framework").data, ("wrapper.framework").data),
  (("gif").data, ("image.gif").data),
  (("gpx").data, ("text.xml").data),
  (("h").data, ("sourcecode.c.h").data),
  (("hh").data, ("sourcecode.cpp.h").data),
  (("hpp").data, ("sourcecode.cpp.h").data),
  (("html").data, ("text.html").data),
  (("hxx").data, ("sourcecode.cpp.h").data),
  (("ipp").data, ("sourcecode.cpp.h").data),
  (("intentdefinition").data, ("file.intentdefinition").data),
  (("jpeg").data, ("image.jpeg").data),
  (("jpg").data, ("image.jpeg").data),
  (("js").data, ("sourcecode.javascript").data),
  (("json").data, ("text.json").data),
  (("m").data, ("sourcecode.c.objc").data),
  (("markdown").data, ("net.daringfireball.markdown").data),
  (("md").data, ("net.daringfireball.markdown").data),
  (("mm").data, ("sourcecode.cpp.objcpp").data),
  (("modulemap").data, ("sourcecode.module").data),
  (("mp3").data, ("audio.mp3").data),
  (("pch").data, ("sourcecode.c.h").data),
  (("plist").data, ("text.plist.xml").data),
  (("png").data, ("image.png").data),
  (("s").data, ("sourcecode.asm").data),
  (("sh").data, ("text.script.sh").data),
  (("storyboard").data, ("file.storyboard").data),
  (("strings").data, ("text.plist.strings").data),
  (("stringsdict").data, ("text.plist.stringsdict").data),
  (("swift").data, ("sourcecode.swift").data),
  (("tbd").data, ("sourcecode.text-based-dylib-definition").data),
  (("ts").data, ("sourcecode.javascript").data),
  (("tsx").data, ("sourcecode.javascript").data),
  (("ttf").data, ("file").data),
  (("wav").data, ("audio.wav").data),
  (("xcassets").data, ("folder.assetcatalog").data),
  (("xcconfig").data, ("text.xcconfig").data),
  (("xcdatamodel").data, ("wrapper.xcdatamodel").data),
  (("xcdatamodeld").data, ("wrapper.xcdatamodeld").data),
  (("xcframework").data, ("wrapper.xcframework").data),
  (("xib").data, ("file.xib").data),
  (("xml").data, ("text.xml").data),
  (("yaml").data, ("text.yaml").data),
  (("yml").data, ("text.yaml").data),
  (("zip").data, ("archive.zip").data)]

/-- File-type-to-sourceTree table (`SOURCETREE_BY_FILETYPE`,
`types/constants.rs`). -/
def SOURCETREE_BY_FILETYPE : List (Str × Str) := [
  (("wrapper.application").data, ("BUILT_PRODUCTS_DIR").data),
  (("wrapper.framework").data, ("BUILT_PRODUCTS_DIR").data),
  (("compiled.mach-o.dylib").data, ("BUILT_PRODUCTS_DIR").data),
  (("wrapper.plug-in").data, ("BUILT_PRODUCTS_DIR").data),
  (("archive.ar").data, ("BUILT_PRODUCTS_DIR").data)]

/-- HashMap-style lookup in a constant table. -/
def tableGet (t : List (Str × Str)) (k : Str) : Option Str :=
  (t.find? (fun e => e.1 == k)).map (fun e => e.2)

end Xcode

namespace Xcode

/-! The project model (`objects/mod.rs`, `project/xcode_project.rs`,
`project/uuid.rs`). -/

/-- A typed project object (`PbxObject`, `objects/mod.rs` lines 35-39). -/
structure PbxObject where
  uuid : Str
  isa : Str
  props : List (Str × PlistValue)

/-- Rust `PbxObject::from_plist`. -/
def PbxObject.from_plist (uuid : Str) (props : List (Str × PlistValue)) : PbxObject :=
  { uuid := uuid,
    isa := (getStrProp props (("isa").data)).getD (("Unknown").data),
    props := props }

/-- Rust `PbxObject::get_str`. -/
def PbxObject.get_str (o : PbxObject) (k : Str) : Option Str := getStrProp o.props k

/-- Rust `PbxObject::get_array`. -/
def PbxObject.get_array (o : PbxObject) (k : Str) : Option (List PlistValue) :=
  (lookup? o.props k).bind PlistValue.as_array

/-- Rust `PbxObject::get_object`. -/
def PbxObject.get_object (o : PbxObject) (k : Str) : Option (List (Str × PlistValue)) :=
  (lookup? o.props k).bind PlistValue.as_object

/-- The project container (`XcodeProject`, `xcode_project.rs` lines 29-36);
the filesystem-only `file_path` field is out of scope here. -/
structure XcodeProject where
  archive_version : Int
  object_version : Int
  classes : List (Str × PlistValue)
  root_object_uuid : Str
  objects : List (Str × PbxObject)

/-- Rust `XcodeProject::get_object`. -/
def get_object (p : XcodeProject) (uuid : Str) : Option PbxObject :=
  (p.objects.find? (fun e => e.1 == uuid)).map (fun e => e.2)

/-- `IndexMap::insert` semantics: an existing key keeps its position and has
its value replaced; a new key is appended. -/
def indexInsert (m : List (Str × PlistValue)) (k : Str) (v : PlistValue) :
    List (Str × PlistValue) :=
  if m.any (fun e => e.1 == k) then
    m.map (fun e => if e.1 == k then (e.1, v) else e)
  else
    m ++ [(k, v)]

/-- Modelled from the spec: the MD5 digest is an external collaborator the
core merely calls ("MD5-based UUID minting (a well-known algorithm the core
merely calls)" is deliberately out of scope).  This stand-in produces a
32-character upper-hex digest; every theorem below uses only that shape,
never particular digest values. -/
def md5_hex_upper (seed : Str) : Str :=
  (List.range 32).map (fun i =>
    hexDigitUpper (seed.foldl (fun a c => (a * 131 + c.toNat + 7) % (16 ^ 32)) 5381
      / 16 ^ (31 - i) % 16))

/-- Candidate identifier: `"XX" + first 20 hex chars of the digest + "XX"`
(`make_uuid`, `uuid.rs` lines 18-25). -/
def make_uuid (seed : Str) : Str :=
  'X' :: 'X' :: ((md5_hex_upper seed).take 20 ++ ['X', 'X'])

/-- The retry loop of `generate_uuid` (`uuid.rs` lines 7-16): append one space
to the seed while the candidate is already present.  The source loops
unconditionally; the fuel makes the function total, `none` standing for a
loop that has not returned within `fuel` rounds. -/
def generate_uuid (fuel : Nat) (seed : Str) (existing : Str → Bool) : Option Str :=
  match fuel with
  | 0 => none
  | fuel + 1 =>
    if existing (make_uuid seed) then generate_uuid fuel (seed ++ [' ']) existing
    else some (make_uuid seed)

/-- JSON escape of one character inside a string (the `serde_json` string
encoder the `Serialize` impl in `types/plist.rs` drives). -/
def json_escape_char (c : Char) : Str :=
  if c = '"' then ['\\', '"']
  else if c = '\\' then ['\\', '\\']
  else if c = '\n' then ['\\', 'n']
  else if c = '\r' then ['\\', 'r']
  else if c = '\t' then ['\\', 't']
  else if c.toNat < 32 then '\\' :: 'u' :: hex4Lower c.toNat
  else [c]

/-- Comma-separated concatenation. -/
def joinComma : List Str → Str
  | [] => []
  | [s] => s
  | s :: rest => s ++ ',' :: joinComma rest

mutual

/-- The JSON rendering of a value tree, following the `Serialize`
implementation in `types/plist.rs` (used only as the UUID seed of
`create_object`; no theorem depends on the rendered text). -/
def plist_to_json : PlistValue → Str
  | .str s => '"' :: (s.flatMap json_escape_char ++ ['"'])
  | .int n => intToStr n
  | .float q => float_display q
  | .data bytes =>
      ("\x7b\"type\":\"Buffer\",\"data\":[").data
        ++ joinComma (bytes.map natToStr) ++ ("]\x7d").data
  | .object entries => '\x7b' :: (plist_to_json_entries entries ++ ['\x7d'])
  | .array items => '[' :: (plist_to_json_items items ++ [']'])

/-- Entries of a JSON object, comma separated. -/
def plist_to_json_entries : List (Str × PlistValue) → Str
  | [] => []
  | [(k, v)] => '"' :: (k.flatMap json_escape_char ++ ['"', ':']) ++ plist_to_json v
  | (k, v) :: rest =>
      '"' :: (k.flatMap json_escape_char ++ ['"', ':']) ++ plist_to_json v
        ++ ',' :: plist_to_json_entries rest

/-- Items of a JSON array, comma separated. -/
def plist_to_json_items : List PlistValue → Str
  | [] => []
  | [v] => plist_to_json v
  | v :: rest => plist_to_json v ++ ',' :: plist_to_json_items rest

end

/-- Rust `XcodeProject::get_unique_id`: mint against the current object keys;
the fuel `objects.length + 1` is the model's bound on the retry loop. -/
def get_unique_id (p : XcodeProject) (seed : Str) : Option Str :=
  generate_uuid (p.objects.length + 1) seed (fun u => p.objects.any (fun e => e.1 == u))

/-- Rust `XcodeProject::create_object` (`xcode_project.rs` lines 218-224):
seed from the JSON form of the props, mint, insert.  The `none` result stands
for the unbounded retry loop not returning. -/
def create_object (p : XcodeProject) (props : List (Str × PlistValue)) :
    XcodeProject × Option Str :=
  let seed := plist_to_json (.object props)
  match get_unique_id p seed with
  | some uuid =>
      ({ p with objects := p.objects ++ [(uuid, PbxObject.from_plist uuid props)] },
        some uuid)
  | none => (p, none)

/-- Rust `XcodeProject::set_object_property` (`xcode_project.rs`
lines 840-847). -/
def set_object_property (p : XcodeProject) (uuid k vstr : Str) :
    XcodeProject × Bool :=
  if p.objects.any (fun e => e.1 == uuid) then
    ({ p with objects := p.objects.map (fun e =>
        if e.1 == uuid then
          (e.1, { e.2 with props := indexInsert e.2.props k (.str vstr) })
        else e) }, true)
  else
    (p, false)

/-- Push one UUID string onto an array-valued property of one object, the
`if let Some(PlistValue::Array(ref mut _)) = obj.props.get_mut(key)` pattern
used by `add_file`, `embed_extension` and friends. -/
def push_str_to_array (p : XcodeProject) (uuid key val : Str) : XcodeProject :=
  { p with objects := p.objects.map (fun e =>
      if e.1 == uuid then
        (e.1, { e.2 with props := e.2.props.map (fun en =>
            if en.1 == key then
              (en.1, match en.2 with
                     | .array items => .array (items ++ [.str val])
                     | other => other)
            else en) })
      else e) }

/-- Last path component (`Path::file_name`), modelled for ordinary relative
or absolute file paths (no trailing separators or `..`). -/
def fileNameOf (path : Str) : Str := lastComponent path

/-- File extension (`Path::extension`): text after the last dot of the file
name, absent when there is no dot or the stem would be empty. -/
def extensionOf (path : Str) : Option Str :=
  let fname := fileNameOf path
  let revExt := fname.reverse.takeWhile (fun c => c ≠ '.')
  if revExt.length = fname.length then none
  else if fname.length = revExt.length + 1 ∧ fname.head? = some '.' then none
  else some revExt.reverse

/-- The property list `add_file` builds for the new `PBXFileReference`
(`xcode_project.rs` lines 467-498). -/
def add_file_props (path : Str) : List (Str × PlistValue) :=
  let ext := (extensionOf path).getD []
  let file_type := (tableGet FILE_TYPES_BY_EXTENSION ext).getD (("file").data)
  let source_tree := (tableGet SOURCETREE_BY_FILETYPE file_type).getD (("<group>").data)
  let name := fileNameOf path
  [((("isa").data), .str (("PBXFileReference").data)),
   ((("fileEncoding").data), .int 4),
   ((("lastKnownFileType").data), .str file_type)]
  ++ (if name ≠ path then [((("name").data), .str name)] else [])
  ++ [((("path").data), .str path),
      ((("sourceTree").data), .str source_tree)]

/-- Rust `XcodeProject::add_file` (`xcode_project.rs` lines 466-510). -/
def add_file (p : XcodeProject) (group_uuid path : Str) :
    XcodeProject × Option Str :=
  match create_object p (add_file_props path) with
  | (p1, some file_uuid) =>
      (push_str_to_array p1 group_uuid (("children").data) file_uuid, some file_uuid)
  | (p1, none) => (p1, none)

/-- Rust `XcodeProject::embed_extension` (`xcode_project.rs` lines 958-1016). -/
def embed_extension (p : XcodeProject) (host_target_uuid extension_target_uuid : Str) :
    XcodeProject × Option Str :=
  match get_object p extension_target_uuid with
  | none => (p, none)
  | some ext_target =>
    match ext_target.get_str (("productType").data) with
    | none => (p, none)
    | some product_type =>
      match ext_target.get_str (("productReference").data) with
      | none => (p, none)
      | some product_ref_uuid =>
        let spec : Int × Str × Str :=
          if product_type == ("com.apple.product-type.application.on-demand-install-capable").data then
            (16, ("$(CONTENTS_FOLDER_PATH)/AppClips").data, ("Embed App Clips").data)
          else if product_type == ("com.apple.product-type.application").data then
            (16, ("$(CONTENTS_FOLDER_PATH)/Watch").data, ("Embed Watch Content").data)
          else if product_type == ("com.apple.product-type.extensionkit-extension").data then
            (16, ("$(EXTENSIONS_FOLDER_PATH)").data, ("Embed ExtensionKit Extensions").data)
          else
            (13, [], ("Embed Foundation Extensions").data)
        let build_file_props : List (Str × PlistValue) :=
          [((("isa").data), .str (("PBXBuildFile").data)),
           ((("fileRef").data), .str product_ref_uuid),
           ((("settings").data), .object
             [((("ATTRIBUTES").data), .array [.str (("RemoveHeadersOnCopy").data)])])]
        match create_object p build_file_props with
        | (p1, none) => (p1, none)
        | (p1, some build_file_uuid) =>
          let phase_props : List (Str × PlistValue) :=
            [((("isa").data), .str (("PBXCopyFilesBuildPhase").data)),
             ((("buildActionMask").data), .int 2147483647),
             ((("dstPath").data), .str spec.2.1),
             ((("dstSubfolderSpec").data), .int spec.1),
             ((("files").data), .array [.str build_file_uuid]),
             ((("name").data), .str spec.2.2),
             ((("runOnlyForDeploymentPostprocessing").data), .int 0)]
          match create_object p1 phase_props with
          | (p2, none) => (p2, none)
          | (p2, some phase_uuid) =>
              (push_str_to_array p2 host_target_uuid (("buildPhases").data) phase_uuid,
                some phase_uuid)

end Xcode

namespace Xcode

theorem char_toNat_lt (c : Char) : c.toNat < 1114112 := by
  have h := c.valid
  unfold UInt32.isValidChar at h
  unfold Nat.isValidChar at h
  unfold Char.toNat
  omega

theorem char_toNat_injective : Function.Injective (fun c : Char => c.toNat) := by
  intro a b h
  apply Char.ext
  exact UInt32.ext h

theorem finite_char : Finite Char := by
  refine Finite.of_injective
    (fun c : Char => (⟨c.toNat, char_toNat_lt c⟩ : Fin 1114112)) ?_
  intro a b h
  apply char_toNat_injective
  simpa using congrArg Fin.val h

/-- Strings of length 24 form a finite set (characters are Unicode scalars, a
finite alphabet). -/
theorem finite_strings_of_length_24 : Set.Finite { s : Str | s.length = 24 } := by
  have : Finite Char := finite_char
  rw [← Set.finite_coe_iff]
  refine Finite.of_injective
    (fun e : { s : Str // s.length = 24 } =>
      (fun i : Fin 24 => e.1.get (Fin.cast e.2.symm i))) ?_
  intro a b h
  apply Subtype.ext
  apply List.ext_get (by rw [a.2, b.2])
  intro i h1 h2
  have := congrFun h (Fin.cast a.2 ⟨i, h1⟩)
  simpa using this

theorem md5_hex_upper_length (seed : Str) : (md5_hex_upper seed).length = 32 := by
  simp [md5_hex_upper]

theorem make_uuid_length (seed : Str) : (make_uuid seed).length = 24 := by
  unfold make_uuid
  simp [md5_hex_upper_length]

theorem generate_uuid_len24_none :
    ∀ fuel seed, generate_uuid fuel seed (fun s => s.length == 24) = none := by
  intro fuel
  induction fuel with
  | zero => intro seed; rfl
  | succ f ih =>
      intro seed
      unfold generate_uuid
      rw [if_pos (by rw [make_uuid_length]; rfl)]
      exact ih (seed ++ [' '])

/-- C10 counterexample: the mint loop does not terminate for every finite set
of existing identifiers: against the (finite) set of all 24-character strings,
every candidate collides, and the loop never returns whatever fuel it is
given. -/
theorem generate_uuid_diverges_counterexample :
    Set.Finite { s : Str | s.length = 24 }
      ∧ ∀ fuel : Nat, generate_uuid fuel (("seed").data) (fun s => s.length == 24) = none :=
  ⟨finite_strings_of_length_24, fun fuel => generate_uuid_len24_none fuel (("seed").data)⟩

/-- C10 amended: whenever the mint loop returns, it returns a 24-character
identifier not in the existing set; it does return as soon as some candidate
in the retry sequence (seed, seed+" ", seed+"  ", …) lies outside the
existing set — true of every actual project, whose object table cannot
contain all 24-character identifiers; and `create_object` inserts the new
object under the freshly minted identifier, which collides with no existing
key. -/
theorem generate_uuid_spec :
    (∀ (fuel : Nat) (seed : Str) (existing : Str → Bool) (u : Str),
        generate_uuid fuel seed existing = some u →
        u.length = 24 ∧ existing u = false)
    ∧ (∀ (existing : Str → Bool) (seed : Str) (n : Nat),
        existing (make_uuid (seed ++ List.replicate n ' ')) = false →
        ∃ fuel u, generate_uuid fuel seed existing = some u
          ∧ u.length = 24 ∧ existing u = false)
    ∧ (∀ (p : XcodeProject) (props : List (Str × PlistValue))
          (p' : XcodeProject) (u : Str),
        create_object p props = (p', some u) →
        p.objects.all (fun e => !(e.1 == u)) = true
          ∧ p'.objects = p.objects ++ [(u, PbxObject.from_plist u props)]) := by
  have part1 : ∀ (fuel : Nat) (seed : Str) (existing : Str → Bool) (u : Str),
      generate_uuid fuel seed existing = some u →
      u.length = 24 ∧ existing u = false := by
    intro fuel
    induction fuel with
    | zero => intro seed existing u h; cases h
    | succ f ih =>
        intro seed existing u h
        unfold generate_uuid at h
        by_cases hx : existing (make_uuid seed) = true
        · rw [if_pos hx] at h
          exact ih _ existing u h
        · rw [if_neg hx] at h
          cases h
          exact ⟨make_uuid_length seed, by simpa using hx⟩
  refine ⟨part1, ?_, ?_⟩
  · intro existing seed n
    induction n generalizing seed with
    | zero =>
        intro h
        simp only [List.replicate, List.append_nil] at h
        refine ⟨1, make_uuid seed, ?_, make_uuid_length seed, h⟩
        unfold generate_uuid
        rw [if_neg (by rw [h]; simp)]
    | succ m ih =>
        intro h
        by_cases hx : existing (make_uuid seed) = true
        · have hrep : seed ++ List.replicate (m + 1) ' '
              = (seed ++ [' ']) ++ List.replicate m ' ' := by
            simp [List.replicate_succ]
          obtain ⟨fuel, u, h1, h2, h3⟩ := ih (seed ++ [' ']) (by rw [← hrep]; exact h)
          refine ⟨fuel + 1, u, ?_, h2, h3⟩
          unfold generate_uuid
          rw [if_pos hx]
          exact h1
        · refine ⟨1, make_uuid seed, ?_, make_uuid_length seed, by simpa using hx⟩
          unfold generate_uuid
          rw [if_neg hx]
  · intro p props p' u h
    simp only [create_object] at h
    cases hg : get_unique_id p (plist_to_json (.object props)) with
    | none => rw [hg] at h; cases h
    | some v =>
        rw [hg] at h
        injection h with hp hu
        injection hu with hv
        subst hv
        unfold get_unique_id at hg
        obtain ⟨-, hfree⟩ := part1 _ _ _ _ hg
        constructor
        · rw [List.all_eq_true]
          intro e he
          by_cases hk : (e.1 == v) = true
          · exfalso
            have : p.objects.any (fun e => e.1 == v) = true := by
              rw [List.any_eq_true]
              exact ⟨e, he, hk⟩
            rw [this] at hfree
            cases hfree
          · simp [hk]
        · rw [← hp]

/-- Witness for C10's amended statement at a concrete seed and the empty
existing set. -/
theorem generate_uuid_spec_witness :
    (make_uuid (("x").data)).length = 24
      ∧ (fun _ : Str => false) (make_uuid (("x").data)) = false :=
  generate_uuid_spec.1 1 (("x").data) (fun _ => false) (make_uuid (("x").data)) rfl

end Xcode

namespace Xcode

/-- Rust `XcodeProject::get_default_configuration` (`xcode_project.rs`
lines 394-414): resolve the list, require `defaultConfigurationName`, scan
the configurations for the first whose `name` matches, and fall back to the
first configuration. -/
def get_default_configuration (p : XcodeProject) (config_list_uuid : Str) :
    Option PbxObject :=
  match get_object p config_list_uuid with
  | none => none
  | some config_list =>
    match config_list.get_str (("defaultConfigurationName").data) with
    | none => none
    | some default_name =>
      match config_list.get_array (("buildConfigurations").data) with
      | none => none
      | some configs =>
        match configs.findSome? (fun cv =>
            match cv.as_str with
            | none => none
            | some config_uuid =>
              match get_object p config_uuid with
              | none => none
              | some config =>
                if config.get_str (("name").data) = some default_name then some config
                else none) with
        | some config => some config
        | none => (configs.head?.bind PlistValue.as_str).bind (get_object p)

/-- Rust `XcodeProject::get_build_setting` (`xcode_project.rs`
lines 417-423). -/
def get_build_setting (p : XcodeProject) (target_uuid k : Str) :
    Option PlistValue :=
  match get_object p target_uuid with
  | none => none
  | some target =>
    match target.get_str (("buildConfigurationList").data) with
    | none => none
    | some config_list_uuid =>
      match get_default_configuration p config_list_uuid with
      | none => none
      | some config =>
        match config.get_object (("buildSettings").data) with
        | none => none
        | some bs => lookup? bs k

/-- `settings.insert(key, value)` on the Object-valued `buildSettings`
property of one object; absent or non-Object `buildSettings` is left alone
(`set_build_setting`, `xcode_project.rs` lines 445-449). -/
def setBS (k : Str) (v : PlistValue) (o : PbxObject) : PbxObject :=
  { o with props := o.props.map (fun en =>
      if en.1 == (("buildSettings").data) then
        (en.1, match en.2 with
               | .object settings => .object (indexInsert settings k v)
               | other => other)
      else en) }

/-- The update loop of `set_build_setting` over the object table: for each
configuration UUID in turn, rewrite the matching object with `setBS`. -/
def setFold (k : Str) (v : PlistValue) (l : List Str)
    (objs : List (Str × PbxObject)) : List (Str × PbxObject) :=
  l.foldl (fun os cu => os.map (fun e =>
    if e.1 == cu then (e.1, setBS k v e.2) else e)) objs

/-- Rust `XcodeProject::set_build_setting` (`xcode_project.rs`
lines 426-452): bail out `false` when the target, its
`buildConfigurationList` string, or the list object is missing; otherwise
update every configuration and report `true` (a missing or non-array
`buildConfigurations` yields an empty update list and still `true`). -/
def set_build_setting (p : XcodeProject) (target_uuid k : Str) (v : PlistValue) :
    XcodeProject × Bool :=
  match get_object p target_uuid with
  | none => (p, false)
  | some target =>
    match target.get_str (("buildConfigurationList").data) with
    | none => (p, false)
    | some config_list_uuid =>
      match get_object p config_list_uuid with
      | none => (p, false)
      | some config_list =>
        let config_uuids : List Str :=
          ((config_list.get_array (("buildConfigurations").data)).getD []).filterMap
            PlistValue.as_str
        ({ p with objects := setFold k v config_uuids p.objects }, true)

/-- The per-object accumulated action of `setFold` on an object stored under
key `u`: one `setBS` application per occurrence of `u` in the UUID list. -/
def applyMany (k : Str) (v : PlistValue) (l : List Str) (u : Str) (o : PbxObject) :
    PbxObject :=
  l.foldl (fun o cu => if u == cu then setBS k v o else o) o

end Xcode

namespace Xcode

theorem applyMany_cons (k : Str) (v : PlistValue) (cu : Str) (l : List Str)
    (u : Str) (o : PbxObject) :
    applyMany k v (cu :: l) u o
      = applyMany k v l u (if u == cu then setBS k v o else o) := rfl

theorem setFold_eq (k : Str) (v : PlistValue) (l : List Str) :
    ∀ objs, setFold k v l objs
      = objs.map (fun e => (e.1, applyMany k v l e.1 e.2)) := by
  induction l with
  | nil =>
      intro objs
      have h : objs.map (fun e => (e.1, applyMany k v [] e.1 e.2))
          = objs.map id := List.map_congr_left (fun e _ => rfl)
      rw [h, List.map_id]
      rfl
  | cons cu l ih =>
      intro objs
      rw [show setFold k v (cu :: l) objs
            = setFold k v l (objs.map (fun e =>
                if e.1 == cu then (e.1, setBS k v e.2) else e)) from rfl,
        ih, List.map_map]
      refine List.map_congr_left (fun e _ => ?_)
      simp only [Function.comp_apply]
      by_cases h : (e.1 == cu) = true
      · rw [if_pos h, applyMany_cons, if_pos h]
      · rw [if_neg h, applyMany_cons, if_neg h]

theorem find_map_keyfix (l : List (Str × PbxObject))
    (f : Str × PbxObject → Str × PbxObject)
    (hf : ∀ e, (f e).1 = e.1) (u : Str) :
    (l.map f).find? (fun e => e.1 == u) = (l.find? (fun e => e.1 == u)).map f := by
  induction l with
  | nil => rfl
  | cons e l ih =>
      simp only [List.map_cons, List.find?]
      rw [hf e]
      cases he : (e.1 == u) with
      | true => rfl
      | false => exact ih

theorem get_object_setFold (k : Str) (v : PlistValue) (l : List Str)
    (p : XcodeProject) (u : Str) :
    get_object { p with objects := setFold k v l p.objects } u
      = (get_object p u).map (applyMany k v l u) := by
  show ((setFold k v l p.objects).find? (fun e => e.1 == u)).map (fun e => e.2) = _
  rw [setFold_eq,
    find_map_keyfix p.objects (fun e => (e.1, applyMany k v l e.1 e.2)) (fun e => rfl) u]
  rw [get_object]
  cases hfind : p.objects.find? (fun e => e.1 == u) with
  | none => rfl
  | some e =>
      have hkey : e.1 = u := by
        have hb := List.find?_some hfind
        simp at hb
        exact hb
      show some (applyMany k v l e.1 e.2) = some (applyMany k v l u e.2)
      rw [hkey]

end Xcode

namespace Xcode

theorem lookup_cons (x : Str × PlistValue) (r : List (Str × PlistValue)) (key : Str) :
    lookup? (x :: r) key = bif x.1 == key then some x.2 else lookup? r key := by
  simp only [lookup?, List.find?]
  cases h : (x.1 == key) with
  | true => rfl
  | false => rfl

theorem lookup_map_cond (m : List (Str × PlistValue)) (key t : Str)
    (g : PlistValue → PlistValue) (hne : key ≠ t) :
    lookup? (m.map (fun en => if en.1 == t then (en.1, g en.2) else en)) key
      = lookup? m key := by
  induction m with
  | nil => rfl
  | cons en m ih =>
      rw [List.map_cons, lookup_cons, lookup_cons]
      by_cases h1 : (en.1 == t) = true
      · rw [if_pos h1]
        cases h2 : (en.1 == key) with
        | true => exact absurd ((eq_of_beq h2).symm.trans (eq_of_beq h1)) hne
        | false => exact ih
      · rw [if_neg h1]
        cases h2 : (en.1 == key) with
        | true => rfl
        | false => exact ih

theorem lookup_map_cond_hit (m : List (Str × PlistValue)) (t : Str)
    (g : PlistValue → PlistValue) (val : PlistValue)
    (h : lookup? m t = some val) :
    lookup? (m.map (fun en => if en.1 == t then (en.1, g en.2) else en)) t
      = some (g val) := by
  induction m with
  | nil => cases h
  | cons en m ih =>
      rw [lookup_cons] at h
      rw [List.map_cons, lookup_cons]
      by_cases h1 : (en.1 == t) = true
      · rw [if_pos h1]
        rw [h1, Bool.cond_true] at h
        rw [h1, Bool.cond_true, Option.some.inj h]
      · have h1f : (en.1 == t) = false := Bool.eq_false_iff.mpr h1
        rw [if_neg h1]
        rw [h1f, Bool.cond_false] at h
        rw [h1f, Bool.cond_false]
        exact ih h

theorem lookup_setBS_ne (k : Str) (v : PlistValue) (o : PbxObject) (key : Str)
    (hne : key ≠ (("buildSettings").data)) :
    lookup? (setBS k v o).props key = lookup? o.props key :=
  lookup_map_cond o.props key (("buildSettings").data)
    (fun pv => match pv with
               | .object settings => .object (indexInsert settings k v)
               | other => other) hne

theorem lookup_setBS_bs (k : Str) (v : PlistValue) (o : PbxObject)
    (s : List (Str × PlistValue))
    (h : lookup? o.props (("buildSettings").data) = some (.object s)) :
    lookup? (setBS k v o).props (("buildSettings").data)
      = some (.object (indexInsert s k v)) :=
  lookup_map_cond_hit o.props (("buildSettings").data)
    (fun pv => match pv with
               | .object settings => .object (indexInsert settings k v)
               | other => other) _ h

theorem applyMany_no_match (k : Str) (v : PlistValue) (l : List Str) (u : Str)
    (o : PbxObject) (h : l.any (fun cu => u == cu) = false) :
    applyMany k v l u o = o := by
  induction l generalizing o with
  | nil => rfl
  | cons cu l ih =>
      rw [List.any_cons, Bool.or_eq_false_iff] at h
      rw [applyMany_cons, if_neg (by simp [h.1])]
      exact ih o h.2

theorem lookup_applyMany_ne (k : Str) (v : PlistValue) (l : List Str) (u : Str)
    (o : PbxObject) (key : Str) (hne : key ≠ (("buildSettings").data)) :
    lookup? (applyMany k v l u o).props key = lookup? o.props key := by
  induction l generalizing o with
  | nil => rfl
  | cons cu l ih =>
      rw [applyMany_cons]
      by_cases h : (u == cu) = true
      · rw [if_pos h, ih (setBS k v o), lookup_setBS_ne k v o key hne]
      · rw [if_neg h, ih o]

end Xcode

namespace Xcode

theorem indexInsert_present (s : List (Str × PlistValue)) (k : Str) (v : PlistValue)
    (h : s.any (fun e => e.1 == k) = true) :
    indexInsert s k v = s.map (fun e => if e.1 == k then (e.1, v) else e) := by
  rw [indexInsert, if_pos h]

theorem indexInsert_absent (s : List (Str × PlistValue)) (k : Str) (v : PlistValue)
    (h : s.any (fun e => e.1 == k) = false) :
    indexInsert s k v = s ++ [(k, v)] := by
  rw [indexInsert, if_neg (by simp [h])]

theorem any_map_keyfix_plist (s : List (Str × PlistValue)) (k : Str) (v : PlistValue) :
    ((s.map (fun e => if e.1 == k then (e.1, v) else e)).any (fun e => e.1 == k))
      = s.any (fun e => e.1 == k) := by
  induction s with
  | nil => rfl
  | cons e s ih =>
      rw [List.map_cons, List.any_cons, List.any_cons, ih]
      by_cases h : (e.1 == k) = true
      · rw [if_pos h]
      · rw [if_neg h]

theorem indexInsert_idem (s : List (Str × PlistValue)) (k : Str) (v : PlistValue) :
    indexInsert (indexInsert s k v) k v = indexInsert s k v := by
  by_cases h : s.any (fun e => e.1 == k) = true
  · rw [indexInsert_present s k v h,
      indexInsert_present _ k v (by rw [any_map_keyfix_plist]; exact h),
      List.map_map]
    refine List.map_congr_left (fun e _ => ?_)
    rw [Function.comp_apply]
    by_cases he : (e.1 == k) = true
    · rw [if_pos he, if_pos he]
    · rw [if_neg he, if_neg he]
  · have hf : s.any (fun e => e.1 == k) = false := Bool.eq_false_iff.mpr h
    rw [indexInsert_absent s k v hf,
      indexInsert_present _ k v (by rw [List.any_append]; simp),
      List.map_append]
    have h1 : s.map (fun e => if e.1 == k then ((e.1 : Str), v) else e) = s := by
      have hid : s.map (fun e => if e.1 == k then ((e.1 : Str), v) else e)
          = s.map id := by
        refine List.map_congr_left (fun e he => ?_)
        have hek : (e.1 == k) = false := by
          cases hek : (e.1 == k) with
          | false => rfl
          | true =>
              exact absurd (show s.any (fun e => e.1 == k) = true from
                List.any_eq_true.mpr ⟨e, he, hek⟩) (by simp [hf])
        rw [if_neg (by simp [hek])]
        rfl
      rw [hid, List.map_id]
    rw [h1]
    have h2 : (([((k : Str), v)]).map (fun e =>
        if e.1 == k then ((e.1 : Str), v) else e)) = [((k : Str), v)] := by
      simp
    rw [h2]

theorem lookup_indexInsert_self (s : List (Str × PlistValue)) (k : Str)
    (v : PlistValue) :
    lookup? (indexInsert s k v) k = some v := by
  by_cases h : s.any (fun e => e.1 == k) = true
  · rw [indexInsert_present s k v h]
    induction s with
    | nil => cases h
    | cons e s ih =>
        rw [List.map_cons, lookup_cons]
        by_cases he : (e.1 == k) = true
        · rw [if_pos he, he, Bool.cond_true]
        · have hef : (e.1 == k) = false := Bool.eq_false_iff.mpr he
          rw [if_neg he, hef, Bool.cond_false]
          rw [List.any_cons, hef, Bool.false_or] at h
          exact ih h
  · have hf : s.any (fun e => e.1 == k) = false := Bool.eq_false_iff.mpr h
    rw [indexInsert_absent s k v hf]
    induction s with
    | nil =>
        rw [List.nil_append, lookup_cons]
        rw [show ((k == k) = true) from beq_self_eq_true k, Bool.cond_true]
    | cons e s ih =>
        rw [List.any_cons, Bool.or_eq_false_iff] at hf
        rw [List.cons_append, lookup_cons, hf.1, Bool.cond_false]
        exact ih (by simp [hf.2]) hf.2

theorem lookup_applyMany_bs (k : Str) (v : PlistValue) (l : List Str) (u : Str) :
    ∀ (o : PbxObject) (s : List (Str × PlistValue)),
    l.any (fun cu => u == cu) = true →
    lookup? o.props (("buildSettings").data) = some (.object s) →
    lookup? (applyMany k v l u o).props (("buildSettings").data)
      = some (.object (indexInsert s k v)) := by
  induction l with
  | nil => intro o s h _; cases h
  | cons cu l ih =>
      intro o s hany hs
      rw [applyMany_cons]
      by_cases hcu : (u == cu) = true
      · rw [if_pos hcu]
        by_cases ha : l.any (fun cu => u == cu) = true
        · rw [ih (setBS k v o) (indexInsert s k v) ha (lookup_setBS_bs k v o s hs),
            indexInsert_idem]
        · rw [applyMany_no_match k v l u (setBS k v o)
            (Bool.eq_false_iff.mpr ha)]
          exact lookup_setBS_bs k v o s hs
      · rw [if_neg hcu]
        have ha : l.any (fun cu => u == cu) = true := by
          rw [List.any_cons, Bool.eq_false_iff.mpr hcu, Bool.false_or] at hany
          exact hany
        exact ih o s ha hs

end Xcode

namespace Xcode

theorem get_str_applyMany (k : Str) (v : PlistValue) (l : List Str) (u : Str)
    (o : PbxObject) (key : Str) (hne : key ≠ (("buildSettings").data)) :
    (applyMany k v l u o).get_str key = o.get_str key := by
  show (lookup? _ key).bind _ = (lookup? _ key).bind _
  rw [lookup_applyMany_ne k v l u o key hne]

theorem get_array_applyMany (k : Str) (v : PlistValue) (l : List Str) (u : Str)
    (o : PbxObject) (key : Str) (hne : key ≠ (("buildSettings").data)) :
    (applyMany k v l u o).get_array key = o.get_array key := by
  show (lookup? _ key).bind _ = (lookup? _ key).bind _
  rw [lookup_applyMany_ne k v l u o key hne]

/-- C7 amended: when the target resolves, its `buildConfigurationList`
string and list object resolve, the list names a `defaultConfigurationName`,
the list is non-empty, and every listed configuration resolves to an object
with an Object-valued `buildSettings`, then `set_build_setting` reports
`true`, writes the value into every configuration in the list, and a
subsequent `get_build_setting` returns it.  (Without the
`defaultConfigurationName` hypothesis the claim fails: `set_build_setting`
still reports `true` and updates every configuration, but
`get_default_configuration` bails out before its first-configuration
fallback, so `get_build_setting` returns `None`.) -/
theorem set_get_build_setting_spec
    (p : XcodeProject) (tu k : Str) (v : PlistValue)
    (target : PbxObject) (clu : Str) (config_list : PbxObject)
    (configs : List PlistValue) (dname : Str)
    (h1 : get_object p tu = some target)
    (h2 : target.get_str (("buildConfigurationList").data) = some clu)
    (h3 : get_object p clu = some config_list)
    (h4 : config_list.get_str (("defaultConfigurationName").data) = some dname)
    (h5 : config_list.get_array (("buildConfigurations").data) = some configs)
    (h6 : configs ≠ [])
    (h7 : ∀ c ∈ configs, ∃ cu cobj s, c = PlistValue.str cu
        ∧ get_object p cu = some cobj
        ∧ lookup? cobj.props (("buildSettings").data) = some (.object s)) :
    (set_build_setting p tu k v).2 = true
      ∧ get_build_setting (set_build_setting p tu k v).1 tu k = some v
      ∧ (∀ cu, PlistValue.str cu ∈ configs →
          ∃ cobj s2, get_object (set_build_setting p tu k v).1 cu = some cobj
            ∧ lookup? cobj.props (("buildSettings").data) = some (.object s2)
            ∧ lookup? s2 k = some v) := by
  set uuids := configs.filterMap PlistValue.as_str with huuids
  have hsbs : set_build_setting p tu k v
      = ({ p with objects := setFold k v uuids p.objects }, true) := by
    simp only [set_build_setting, h1, h2, h3, h5, Option.getD_some]
  rw [hsbs]
  set p' : XcodeProject :=
    { p with objects := setFold k v uuids p.objects } with hp'
  have hg : ∀ u, get_object p' u = (get_object p u).map (applyMany k v uuids u) :=
    fun u => get_object_setFold k v uuids p u
  have htarget : get_object p' tu = some (applyMany k v uuids tu target) := by
    rw [hg, h1]
    rfl
  have hbcl : (applyMany k v uuids tu target).get_str
      (("buildConfigurationList").data) = some clu := by
    rw [get_str_applyMany k v uuids tu target _ (by decide)]
    exact h2
  have hcl : get_object p' clu = some (applyMany k v uuids clu config_list) := by
    rw [hg, h3]
    rfl
  have hdcn : (applyMany k v uuids clu config_list).get_str
      (("defaultConfigurationName").data) = some dname := by
    rw [get_str_applyMany k v uuids clu config_list _ (by decide)]
    exact h4
  have hbc : (applyMany k v uuids clu config_list).get_array
      (("buildConfigurations").data) = some configs := by
    rw [get_array_applyMany k v uuids clu config_list _ (by decide)]
    exact h5
  have hmem_uuids : ∀ cu, PlistValue.str cu ∈ configs →
      uuids.any (fun x => cu == x) = true := by
    intro cu hmem
    exact List.any_eq_true.mpr ⟨cu, List.mem_filterMap.mpr ⟨.str cu, hmem, rfl⟩,
      beq_self_eq_true cu⟩
  have hupd : ∀ cu, PlistValue.str cu ∈ configs →
      ∃ cobj s, get_object p cu = some cobj
        ∧ get_object p' cu = some (applyMany k v uuids cu cobj)
        ∧ lookup? (applyMany k v uuids cu cobj).props (("buildSettings").data)
            = some (.object (indexInsert s k v)) := by
    intro cu hmem
    obtain ⟨cu', cobj, s, hceq, hgo, hlk⟩ := h7 _ hmem
    have hcu : cu = cu' := by
      injection hceq with hq
    subst hcu
    refine ⟨cobj, s, hgo, ?_, ?_⟩
    · rw [hg, hgo]
      rfl
    · exact lookup_applyMany_bs k v uuids cu cobj s (hmem_uuids cu hmem) hlk
  have hkey : ∃ cfg s, get_default_configuration p' clu = some cfg
      ∧ lookup? cfg.props (("buildSettings").data)
          = some (.object (indexInsert s k v)) := by
    cases hfs : configs.findSome? (fun cv =>
        match cv.as_str with
        | none => none
        | some config_uuid =>
          match get_object p' config_uuid with
          | none => none
          | some config =>
            if config.get_str (("name").data) = some dname then some config
            else none) with
    | some cfg =>
        obtain ⟨cv, hcvmem, hcv⟩ := List.exists_of_findSome?_eq_some hfs
        cases cv with
        | str cu0 =>
            have hcv2 : (match get_object p' cu0 with
                | none => none
                | some config =>
                  if config.get_str (("name").data) = some dname then some config
                  else none) = some cfg := hcv
            cases hobj : get_object p' cu0 with
            | none =>
                rw [hobj] at hcv2
                exact Option.noConfusion hcv2
            | some c =>
                rw [hobj] at hcv2
                have hcv3 : (if c.get_str (("name").data) = some dname
                    then some c else none) = some cfg := hcv2
                obtain ⟨cobj, s, hgo, hobj', hlk'⟩ := hupd cu0 hcvmem
                have hc : c = applyMany k v uuids cu0 cobj := by
                  rw [hobj] at hobj'
                  exact (Option.some.inj hobj')
                have hcfg : c = cfg := by
                  by_cases hname : c.get_str (("name").data) = some dname
                  · rw [if_pos hname] at hcv3
                    exact Option.some.inj hcv3
                  · rw [if_neg hname] at hcv3
                    exact Option.noConfusion hcv3
                refine ⟨cfg, s, ?_, ?_⟩
                · simp only [get_default_configuration, hcl, hdcn, hbc, hfs]
                · rw [← hcfg, hc]
                  exact hlk'
        | int n => exact Option.noConfusion hcv
        | float q => exact Option.noConfusion hcv
        | data bytes => exact Option.noConfusion hcv
        | object entries => exact Option.noConfusion hcv
        | array items => exact Option.noConfusion hcv
    | none =>
        obtain ⟨c0, cs, hcfgeq⟩ : ∃ c0 cs, configs = c0 :: cs := by
          cases hcc : configs with
          | nil => exact absurd hcc h6
          | cons a l => exact ⟨a, l, rfl⟩
        obtain ⟨cu0, cobj, s, hceq, hgo, hlk⟩ := h7 c0 (hcfgeq ▸ List.mem_cons_self c0 cs)
        obtain ⟨cobj', s', hgo', hobj', hlk'⟩ :=
          hupd cu0 (by rw [hcfgeq, ← hceq]; exact List.mem_cons_self c0 cs)
        refine ⟨applyMany k v uuids cu0 cobj', s', ?_, hlk'⟩
        simp only [get_default_configuration, hcl, hdcn, hbc, hfs]
        rw [hcfgeq]
        rw [show (c0 :: cs).head? = some c0 from rfl, hceq]
        rw [show (Option.some (PlistValue.str cu0)).bind PlistValue.as_str
          = some cu0 from rfl]
        exact hobj'
  obtain ⟨cfg, s, hgdceq, hlkk⟩ := hkey
  have hco : cfg.get_object (("buildSettings").data)
      = some (indexInsert s k v) := by
    show (lookup? _ _).bind _ = _
    rw [hlkk]
    rfl
  refine ⟨rfl, ?_, ?_⟩
  · simp only [get_build_setting, htarget, hbcl, hgdceq, hco]
    exact lookup_indexInsert_self s k v
  · intro cu hmem
    obtain ⟨cobj, s0, hgo, hobj', hlk'⟩ := hupd cu hmem
    exact ⟨applyMany k v uuids cu cobj, indexInsert s0 k v, hobj', hlk',
      lookup_indexInsert_self s0 k v⟩

end Xcode

namespace Xcode

/-- A native target pointing at configuration list `CL`. -/
def oT7 : PbxObject := PbxObject.from_plist (("T").data)
  [((("isa").data), .str (("PBXNativeTarget").data)),
   ((("buildConfigurationList").data), .str (("CL").data))]

/-- A configuration list without `defaultConfigurationName`. -/
def oCL7 : PbxObject := PbxObject.from_plist (("CL").data)
  [((("isa").data), .str (("XCConfigurationList").data)),
   ((("buildConfigurations").data), .array [.str (("C1").data)])]

/-- A build configuration named Debug with empty settings. -/
def oC17 : PbxObject := PbxObject.from_plist (("C1").data)
  [((("isa").data), .str (("XCBuildConfiguration").data)),
   ((("name").data), .str (("Debug").data)),
   ((("buildSettings").data), .object [])]

/-- Project whose configuration list lacks `defaultConfigurationName`. -/
def projC7 : XcodeProject :=
  { archive_version := 1, object_version := 56, classes := [],
    root_object_uuid := ("R").data,
    objects := [((("T").data), oT7), ((("CL").data), oCL7),
      ((("C1").data), oC17)] }

/-- C7 counterexample: with a non-empty configuration list that merely lacks
`defaultConfigurationName`, `set_build_setting` succeeds (`true`, every
configuration updated) yet the subsequent `get_build_setting` returns `None`:
`get_default_configuration` bails out on the missing name before its
first-configuration fallback. -/
theorem set_get_build_setting_counterexample :
    (set_build_setting projC7 (("T").data) (("K").data) (.str (("V").data))).2
        = true
      ∧ get_build_setting
          (set_build_setting projC7 (("T").data) (("K").data)
            (.str (("V").data))).1 (("T").data) (("K").data) = none
      ∧ (get_object projC7 (("CL").data)).bind
          (fun o => o.get_array (("buildConfigurations").data))
          = some [.str (("C1").data)] :=
  ⟨rfl, rfl, rfl⟩

/-- Like `oCL7` but with `defaultConfigurationName` present. -/
def oCL7w : PbxObject := PbxObject.from_plist (("CL").data)
  [((("isa").data), .str (("XCConfigurationList").data)),
   ((("defaultConfigurationName").data), .str (("Debug").data)),
   ((("buildConfigurations").data), .array [.str (("C1").data)])]

/-- Project satisfying every hypothesis of the amended C7 statement. -/
def projC7w : XcodeProject :=
  { archive_version := 1, object_version := 56, classes := [],
    root_object_uuid := ("R").data,
    objects := [((("T").data), oT7), ((("CL").data), oCL7w),
      ((("C1").data), oC17)] }

/-- Witness for C7's amended statement on a concrete three-object project. -/
theorem set_get_build_setting_spec_witness :
    (set_build_setting projC7w (("T").data) (("K").data) (.str (("V").data))).2
        = true
      ∧ get_build_setting
          (set_build_setting projC7w (("T").data) (("K").data)
            (.str (("V").data))).1 (("T").data) (("K").data)
          = some (.str (("V").data)) := by
  have h := set_get_build_setting_spec projC7w (("T").data) (("K").data)
      (.str (("V").data)) oT7 (("CL").data) oCL7w [.str (("C1").data)]
      (("Debug").data) rfl rfl rfl rfl rfl (List.cons_ne_nil _ _)
      (by
        intro c hc
        rw [List.mem_singleton] at hc
        subst hc
        exact ⟨(("C1").data), oC17, [], rfl, rfl, rfl⟩)
  exact ⟨h.1, h.2.1⟩

/-- An empty project. -/
def projC8 : XcodeProject :=
  { archive_version := 1, object_version := 56, classes := [],
    root_object_uuid := ("R").data, objects := [] }

/-- C8 counterexample: `add_file` given a group UUID absent from the objects
table still creates the file-reference object and returns its UUID — the
project state is not left unchanged. -/
theorem add_file_missing_group_counterexample :
    get_object projC8 (("G").data) = none
      ∧ ((add_file projC8 (("G").data) (("main.c").data)).2).isSome = true
      ∧ (add_file projC8 (("G").data) (("main.c").data)).1.objects.length = 1 :=
  ⟨rfl, rfl, rfl⟩

theorem create_object_some_objects (p : XcodeProject)
    (props : List (Str × PlistValue)) (p1 : XcodeProject) (u : Str)
    (h : create_object p props = (p1, some u)) :
    p1.objects = p.objects ++ [(u, PbxObject.from_plist u props)] := by
  simp only [create_object] at h
  cases hg : get_unique_id p (plist_to_json (.object props)) with
  | none =>
      rw [hg] at h
      injection h with h1 h2
      exact Option.noConfusion h2
  | some w =>
      rw [hg] at h
      injection h with hp hu
      injection hu with hw
      rw [← hp, hw]

theorem push_str_map_fst (p : XcodeProject) (uuid key val : Str) :
    (push_str_to_array p uuid key val).objects.map Prod.fst
      = p.objects.map Prod.fst := by
  show (p.objects.map _).map Prod.fst = _
  rw [List.map_map]
  refine List.map_congr_left (fun e _ => ?_)
  rw [Function.comp_apply]
  by_cases h : (e.1 == uuid) = true
  · rw [if_pos h]
  · rw [if_neg h]

/-- C8 amended: on a missing UUID, `set_object_property` is a no-op
returning `false` and `embed_extension` with a missing extension target
returns `None` unchanged; but `add_file` always creates the file-reference
object — with a missing group only the group-membership update is skipped,
so it still returns the fresh UUID and the object table grows by exactly
that object.  No mutator raises: all are total functions signalling through
`Option`/`Bool` results. -/
theorem facade_missing_uuid_spec :
    (∀ (p : XcodeProject) (uuid k vs : Str),
        p.objects.any (fun e => e.1 == uuid) = false →
        set_object_property p uuid k vs = (p, false))
    ∧ (∀ (p : XcodeProject) (host ext : Str),
        get_object p ext = none →
        embed_extension p host ext = (p, none))
    ∧ (∀ (p : XcodeProject) (group path : Str) (p1 : XcodeProject) (u : Str),
        get_object p group = none →
        add_file p group path = (p1, some u) →
        p1.objects.map Prod.fst = p.objects.map Prod.fst ++ [u]) := by
  refine ⟨?_, ?_, ?_⟩
  · intro p uuid k vs h
    rw [set_object_property, if_neg (by simp [h])]
  · intro p host ext h
    simp only [embed_extension, h]
  · intro p group path p1 u _ h
    simp only [add_file] at h
    cases hc : create_object p (add_file_props path) with
    | mk p2 ou =>
        rw [hc] at h
        cases ou with
        | none =>
            injection h with h1 h2
            exact Option.noConfusion h2
        | some fu =>
            injection h with h1 h2
            injection h2 with h3
            rw [← h1, push_str_map_fst,
              create_object_some_objects p (add_file_props path) p2 fu hc,
              List.map_append, h3]
            rfl

/-- Witness for C8's amended statement on a concrete empty project. -/
theorem facade_missing_uuid_spec_witness :
    set_object_property projC8 (("X").data) (("k").data) (("v").data)
        = (projC8, false)
      ∧ embed_extension projC8 (("H").data) (("E").data) = (projC8, none) :=
  ⟨facade_missing_uuid_spec.1 projC8 (("X").data) (("k").data) (("v").data) rfl,
   facade_missing_uuid_spec.2.1 projC8 (("H").data) (("E").data) rfl⟩

end Xcode

namespace Xcode

/-- Run the lexer to completion (`tokenize_all`, `lexer.rs` lines 256-263).
Each produced token consumes at least one byte, so the caller's fuel
`s.length + 1` never runs out; fuel exhaustion returns the tokens read so
far. -/
def lexAll (fuel : Nat) (pos : Nat) (s : Str) : Except LexError (List Token) :=
  match fuel with
  | 0 => .ok []
  | fuel + 1 =>
    match next_token pos s with
    | .error e => .error e
    | .ok none => .ok []
    | .ok (some (t, rest)) =>
        (lexAll fuel (pos + utf8Len s - utf8Len rest) rest).map (fun ts => t :: ts)

/-- Parser errors; the source formats these into `String`s, so each
constructor carries the data of the corresponding `format!` message
(`parser.rs`).  `outOfFuel` is the model's marker for exhausted recursion
fuel; the recursion depth of the source parser is bounded by its token
count, so the fuel chosen by `parse` makes it unreachable. -/
inductive ParseErr where
  | lexError (e : LexError)
  | expected (expected : Token) (got : Token) (pos : Nat)
  | expectedGotEOF (expected : Token) (pos : Nat)
  | expectedHead (got : Token)
  | emptyInput
  | unterminatedObject
  | unterminatedArray
  | unexpectedValueToken (t : Token)
  | eofInValue
  | expectedIdentifier (t : Token)
  | eofIdentifier
  | outOfFuel
  deriving DecidableEq

/-- `Parser::expect` (`parser.rs` lines 44-57); the token list is the
unconsumed suffix and `pos` the absolute token index. -/
def expectTok (expected : Token) (ts : List Token) (pos : Nat) :
    Except ParseErr (List Token × Nat) :=
  match ts with
  | [] => .error (.expectedGotEOF expected pos)
  | t :: rest =>
      if t = expected then .ok (rest, pos + 1)
      else .error (.expected expected t pos)

/-- `Parser::parse_identifier_as_string` (`parser.rs` lines 155-163). -/
def parse_identifier_as_string (ts : List Token) (pos : Nat) :
    Except ParseErr (Str × List Token × Nat) :=
  match ts with
  | .quotedStr s :: rest => .ok (s, rest, pos + 1)
  | .stringLit s :: rest => .ok (s, rest, pos + 1)
  | t :: _ => .error (.expectedIdentifier t)
  | [] => .error .eofIdentifier

/-- The fuel-indexed family of the five mutually recursive parser
functions; fuel decreases on every call, and the fuel-0 pack answers
`outOfFuel` everywhere.  The named wrappers below carry the source names
and unfold to one layer of this family by `rfl`. -/
structure ParserPack where
  pObject : List Token → Nat → Except ParseErr (PlistValue × List Token × Nat)
  pObjectItems : List (Str × PlistValue) → List Token → Nat →
    Except ParseErr (PlistValue × List Token × Nat)
  pObjectItem : List Token → Nat →
    Except ParseErr ((Str × PlistValue) × List Token × Nat)
  pArray : List Token → Nat → Except ParseErr (PlistValue × List Token × Nat)
  pArrayItems : List PlistValue → List Token → Nat →
    Except ParseErr (PlistValue × List Token × Nat)
  pValue : List Token → Nat → Except ParseErr (PlistValue × List Token × Nat)

/-- One recursion layer of the parser (bodies from `parser.rs`; see the
named wrappers for line references). -/
def parserFuel : Nat → ParserPack
  | 0 =>
    { pObject := fun _ _ => .error .outOfFuel,
      pObjectItems := fun _ _ _ => .error .outOfFuel,
      pObjectItem := fun _ _ => .error .outOfFuel,
      pArray := fun _ _ => .error .outOfFuel,
      pArrayItems := fun _ _ _ => .error .outOfFuel,
      pValue := fun _ _ => .error .outOfFuel }
  | fuel + 1 =>
    let P := parserFuel fuel
    { pObject := fun ts pos =>
        match expectTok .openBrace ts pos with
        | .error e => .error e
        | .ok (ts1, pos1) => P.pObjectItems [] ts1 pos1,
      pObjectItems := fun map ts pos =>
        match ts with
        | [] => .error .unterminatedObject
        | .closeBrace :: rest => .ok (.object map, rest, pos + 1)
        | _ =>
          match P.pObjectItem ts pos with
          | .error e => .error e
          | .ok ((k, v), ts2, pos2) => P.pObjectItems (indexInsert map k v) ts2 pos2,
      pObjectItem := fun ts pos =>
        match parse_identifier_as_string ts pos with
        | .error e => .error e
        | .ok (key, ts1, pos1) =>
          match expectTok .equals ts1 pos1 with
          | .error e => .error e
          | .ok (ts2, pos2) =>
            match P.pValue ts2 pos2 with
            | .error e => .error e
            | .ok (v, ts3, pos3) =>
              match expectTok .semicolon ts3 pos3 with
              | .error e => .error e
              | .ok (ts4, pos4) => .ok ((key, v), ts4, pos4),
      pArray := fun ts pos =>
        match expectTok .openParen ts pos with
        | .error e => .error e
        | .ok (ts1, pos1) => P.pArrayItems [] ts1 pos1,
      pArrayItems := fun items ts pos =>
        match ts with
        | [] => .error .unterminatedArray
        | .closeParen :: rest => .ok (.array items, rest, pos + 1)
        | _ =>
          match P.pValue ts pos with
          | .error e => .error e
          | .ok (v, ts2, pos2) =>
            match ts2 with
            | .comma :: rest2 => P.pArrayItems (items ++ [v]) rest2 (pos2 + 1)
            | _ => P.pArrayItems (items ++ [v]) ts2 pos2,
      pValue := fun ts pos =>
        match ts with
        | .openBrace :: _ => P.pObject ts pos
        | .openParen :: _ => P.pArray ts pos
        | .dataLit d :: rest => .ok (.data d, rest, pos + 1)
        | .quotedStr s :: rest => .ok (.str s, rest, pos + 1)
        | .stringLit s :: rest => .ok (parse_type s, rest, pos + 1)
        | t :: _ => .error (.unexpectedValueToken t)
        | [] => .error .eofInValue }

/-- `Parser::parse_object` (`parser.rs` lines 70-87). -/
def parse_object (fuel : Nat) (ts : List Token) (pos : Nat) :
    Except ParseErr (PlistValue × List Token × Nat) :=
  (parserFuel fuel).pObject ts pos

/-- The accumulation loop of `parse_object`; `map.insert` is IndexMap
insertion. -/
def parse_object_items (fuel : Nat) (map : List (Str × PlistValue))
    (ts : List Token) (pos : Nat) :
    Except ParseErr (PlistValue × List Token × Nat) :=
  (parserFuel fuel).pObjectItems map ts pos

/-- `Parser::parse_object_item` (`parser.rs` lines 90-96). -/
def parse_object_item (fuel : Nat) (ts : List Token) (pos : Nat) :
    Except ParseErr ((Str × PlistValue) × List Token × Nat) :=
  (parserFuel fuel).pObjectItem ts pos

/-- `Parser::parse_array` (`parser.rs` lines 99-119). -/
def parse_array (fuel : Nat) (ts : List Token) (pos : Nat) :
    Except ParseErr (PlistValue × List Token × Nat) :=
  (parserFuel fuel).pArray ts pos

/-- The accumulation loop of `parse_array`, with the optional trailing
comma. -/
def parse_array_items (fuel : Nat) (items : List PlistValue)
    (ts : List Token) (pos : Nat) :
    Except ParseErr (PlistValue × List Token × Nat) :=
  (parserFuel fuel).pArrayItems items ts pos

/-- `Parser::parse_value` (`parser.rs` lines 122-151). -/
def parse_value (fuel : Nat) (ts : List Token) (pos : Nat) :
    Except ParseErr (PlistValue × List Token × Nat) :=
  (parserFuel fuel).pValue ts pos

/-- `Parser::parse_head` (`parser.rs` lines 60-67). -/
def parse_head (fuel : Nat) (ts : List Token) (pos : Nat) :
    Except ParseErr (PlistValue × List Token × Nat) :=
  match ts with
  | .openBrace :: _ => parse_object fuel ts pos
  | .openParen :: _ => parse_array fuel ts pos
  | t :: _ => .error (.expectedHead t)
  | [] => .error .emptyInput

/-- Rust `parse` (`parser.rs` lines 219-225): tokenize, then parse the head
rule, ignoring any tokens after it.  The lexer fuel `length + 1` suffices
because every token consumes at least one byte; the parser fuel
`4·tokens + 4` suffices because every parser call either consumes a token
or hands over to a callee that consumes one within two steps. -/
def parse (text : Str) : Except ParseErr PlistValue :=
  match lexAll (text.length + 1) 0 text with
  | .error e => .error (.lexError e)
  | .ok ts =>
    match parse_head (4 * ts.length + 4) ts 0 with
    | .error e => .error e
    | .ok (v, _, _) => .ok v

/-- C1 counterexample: `parse` accepts the array text `()`, but
`build` renders every non-object root as a bare brace pair, so the
round-tripped value is the empty Object, not the empty Array: the typed
variant of the root is not preserved. -/
theorem parse_build_counterexample :
    parse (("()").data) = .ok (.array [])
      ∧ parse (build (.array [])) = .ok (.object [])
      ∧ PlistValue.array [] ≠ PlistValue.object [] :=
  ⟨rfl, rfl, fun h => PlistValue.noConfusion h⟩

end Xcode

namespace Xcode

theorem utf8Len_go (s : Str) : ∀ a : Nat,
    s.foldl (fun a c => a + c.utf8Size) a = a + utf8Len s := by
  induction s with
  | nil => intro a; simp [utf8Len]
  | cons c rest ih =>
      intro a
      show rest.foldl _ (a + c.utf8Size) = a + utf8Len (c :: rest)
      rw [ih (a + c.utf8Size)]
      have h2 : utf8Len (c :: rest) = c.utf8Size + utf8Len rest := by
        show rest.foldl _ (0 + c.utf8Size) = _
        rw [ih (0 + c.utf8Size)]
        omega
      omega

theorem utf8Len_cons (c : Char) (s : Str) :
    utf8Len (c :: s) = c.utf8Size + utf8Len s := by
  show s.foldl _ (0 + c.utf8Size) = _
  rw [utf8Len_go s (0 + c.utf8Size)]
  omega

theorem utf8Len_append (a b : Str) :
    utf8Len (a ++ b) = utf8Len a + utf8Len b := by
  induction a with
  | nil => simp [utf8Len]
  | cons c rest ih => rw [List.cons_append, utf8Len_cons, ih, utf8Len_cons]; omega

theorem skip_trivia_zero (s : Str) : skip_trivia 0 s = s := rfl

theorem skip_trivia_punct (c : Char) (rest : Str) (h1 : isWsChar c = false)
    (h2 : c ≠ '/') : ∀ fuel, skip_trivia fuel (c :: rest) = c :: rest := by
  intro fuel
  cases fuel with
  | zero => rfl
  | succ f =>
      show (if isWsChar c = true then _ else _) = _
      rw [if_neg (by simp [h1]), if_neg h2]

theorem skip_trivia_slash (rest : Str)
    (h : rest = [] ∨ ∃ d rest2, rest = d :: rest2 ∧ d ≠ '/' ∧ d ≠ '*') :
    ∀ fuel, skip_trivia fuel ('/' :: rest) = '/' :: rest := by
  intro fuel
  cases fuel with
  | zero => rfl
  | succ f =>
      show (if isWsChar '/' = true then _ else _) = _
      rw [if_neg (by decide), if_pos rfl]
      rcases h with h | ⟨d, rest2, hr, hd1, hd2⟩
      · rw [h]
      · rw [hr]
        show (if d = '/' then _ else _) = _
        rw [if_neg hd1, if_neg hd2]

theorem skip_trivia_clean (w : Str) (c : Char) (y : Str)
    (hw : w.all isWsChar = true) (h1 : isWsChar c = false) (h2 : c ≠ '/') :
    ∀ fuel, w.length < fuel → skip_trivia fuel (w ++ c :: y) = c :: y := by
  induction w with
  | nil =>
      intro fuel _
      rw [List.nil_append]
      exact skip_trivia_punct c y h1 h2 fuel
  | cons a w' ih =>
      intro fuel hf
      rw [List.all_cons, Bool.and_eq_true] at hw
      cases fuel with
      | zero => omega
      | succ f =>
          rw [List.cons_append]
          show (if isWsChar a = true then _ else _) = _
          rw [if_pos hw.1]
          exact ih hw.2 f (by simp at hf; omega)

theorem skip_trivia_clean_slash (w : Str) (y : Str)
    (hw : w.all isWsChar = true)
    (hy : y = [] ∨ ∃ d rest2, y = d :: rest2 ∧ d ≠ '/' ∧ d ≠ '*') :
    ∀ fuel, w.length < fuel → skip_trivia fuel (w ++ '/' :: y) = '/' :: y := by
  induction w with
  | nil =>
      intro fuel _
      rw [List.nil_append]
      exact skip_trivia_slash y hy fuel
  | cons a w' ih =>
      intro fuel hf
      rw [List.all_cons, Bool.and_eq_true] at hw
      cases fuel with
      | zero => omega
      | succ f =>
          rw [List.cons_append]
          show (if isWsChar a = true then _ else _) = _
          rw [if_pos hw.1]
          exact ih hw.2 f (by simp at hf; omega)

theorem skip_trivia_all_ws (w : Str) (hw : w.all isWsChar = true) :
    ∀ fuel, w.length < fuel → skip_trivia fuel w = [] := by
  induction w with
  | nil =>
      intro fuel hf
      cases fuel with
      | zero => omega
      | succ f => rfl
  | cons a w' ih =>
      intro fuel hf
      rw [List.all_cons, Bool.and_eq_true] at hw
      cases fuel with
      | zero => omega
      | succ f =>
          show (if isWsChar a = true then _ else _) = _
          rw [if_pos hw.1]
          exact ih hw.2 f (by simp at hf; omega)

end Xcode

namespace Xcode

theorem lit_not_ws (c : Char) (h : is_literal_char c = true) : isWsChar c = false := by
  cases hws : isWsChar c with
  | false => rfl
  | true =>
      exfalso
      simp only [isWsChar, Bool.or_eq_true, decide_eq_true_eq] at hws
      rcases hws with ((h1 | h1) | h1) | h1 <;>
        (subst h1; exact absurd h (by decide))

theorem lit_ne_of_not_lit {c : Char} (h : is_literal_char c = true) (x : Char)
    (hx : is_literal_char x = false) : c ≠ x := by
  intro he
  rw [he, hx] at h
  cases h

theorem takeWhile_all_nil {p : Char → Bool} {a : Str} (h : ∀ c ∈ a, p c = true) :
    a.takeWhile p = a ∧ a.dropWhile p = [] := by
  induction a with
  | nil => exact ⟨rfl, rfl⟩
  | cons c rest ih =>
      have hc : p c = true := h c (by simp)
      obtain ⟨t1, t2⟩ := ih (fun d hd => h d (by simp [hd]))
      exact ⟨by rw [List.takeWhile_cons_of_pos hc, t1],
        by rw [List.dropWhile_cons_of_pos hc, t2]⟩

theorem next_token_literal (pos : Nat) (w s y : Str)
    (hw : w.all isWsChar = true)
    (hs1 : s ≠ []) (hs2 : s.all is_literal_char = true)
    (hslash1 : (s ++ y).take 2 ≠ ['/', '/'])
    (hslash2 : (s ++ y).take 2 ≠ ['/', '*'])
    (hy : ∀ d, y.head? = some d → is_literal_char d = false) :
    next_token pos (w ++ (s ++ y)) = .ok (some (.stringLit s, y)) := by
  cases s with
  | nil => exact absurd rfl hs1
  | cons c s' =>
      rw [List.all_cons, Bool.and_eq_true] at hs2
      have hall : ∀ d ∈ s', is_literal_char d = true := List.all_eq_true.mp hs2.2
      have hcws : isWsChar c = false := lit_not_ws c hs2.1
      show next_token pos (w ++ c :: (s' ++ y)) = .ok (some (.stringLit (c :: s'), y))
      have hsk : skip_trivia ((w ++ c :: (s' ++ y)).length + 1) (w ++ c :: (s' ++ y))
          = c :: (s' ++ y) := by
        by_cases hcs : c = '/'
        · subst hcs
          refine skip_trivia_clean_slash w (s' ++ y) hw ?_ _ (by simp; omega)
          cases s' with
          | nil =>
              cases y with
              | nil => exact Or.inl rfl
              | cons d y' =>
                  refine Or.inr ⟨d, y', rfl, ?_, ?_⟩
                  · intro he
                    subst he
                    exact hslash1 rfl
                  · intro he
                    subst he
                    exact hslash2 rfl
          | cons c1 s'' =>
              have hc1 : is_literal_char c1 = true := hall c1 (by simp)
              refine Or.inr ⟨c1, s'' ++ y, rfl, ?_, ?_⟩
              · intro he
                subst he
                exact hslash1 rfl
              · exact lit_ne_of_not_lit hc1 '*' rfl
        · exact skip_trivia_clean w c (s' ++ y) hw hcws hcs _ (by simp; omega)
      unfold next_token
      rw [hsk]
      change (if c = '\x7b' then _ else _) = _
      have hne : ∀ (x : Char), is_literal_char x = false → ¬ (c = x) :=
        fun x hx => lit_ne_of_not_lit hs2.1 x hx
      rw [if_neg (hne '\x7b' (by decide)), if_neg (hne '\x7d' (by decide)),
        if_neg (hne '(' (by decide)), if_neg (hne ')' (by decide)),
        if_neg (hne '=' (by decide)), if_neg (hne ';' (by decide)),
        if_neg (hne ',' (by decide)), if_neg (hne '<' (by decide)),
        if_neg (by
          rintro (h | h)
          · exact hne '"' (by decide) h
          · exact hne '\x27' (by decide) h),
        if_pos hs2.1]
      cases y with
      | nil =>
          obtain ⟨t1, t2⟩ := takeWhile_all_nil hall
          rw [List.append_nil, t1, t2]
      | cons d y' =>
          obtain ⟨t1, t2⟩ := takeWhile_all_append hall d (hy d rfl) y'
          rw [t1, t2]

end Xcode

namespace Xcode

theorem next_token_openBrace (pos : Nat) (w y : Str) (hw : w.all isWsChar = true) :
    next_token pos (w ++ '\x7b' :: y) = .ok (some (.openBrace, y)) := by
  unfold next_token
  rw [skip_trivia_clean w '\x7b' y hw (by decide) (by decide) _ (by simp; omega)]
  rfl

theorem next_token_closeBrace (pos : Nat) (w y : Str) (hw : w.all isWsChar = true) :
    next_token pos (w ++ '\x7d' :: y) = .ok (some (.closeBrace, y)) := by
  unfold next_token
  rw [skip_trivia_clean w '\x7d' y hw (by decide) (by decide) _ (by simp; omega)]
  rfl

theorem next_token_openParen (pos : Nat) (w y : Str) (hw : w.all isWsChar = true) :
    next_token pos (w ++ '(' :: y) = .ok (some (.openParen, y)) := by
  unfold next_token
  rw [skip_trivia_clean w '(' y hw (by decide) (by decide) _ (by simp; omega)]
  rfl

theorem next_token_closeParen (pos : Nat) (w y : Str) (hw : w.all isWsChar = true) :
    next_token pos (w ++ ')' :: y) = .ok (some (.closeParen, y)) := by
  unfold next_token
  rw [skip_trivia_clean w ')' y hw (by decide) (by decide) _ (by simp; omega)]
  rfl

theorem next_token_equals (pos : Nat) (w y : Str) (hw : w.all isWsChar = true) :
    next_token pos (w ++ '=' :: y) = .ok (some (.equals, y)) := by
  unfold next_token
  rw [skip_trivia_clean w '=' y hw (by decide) (by decide) _ (by simp; omega)]
  rfl

theorem next_token_semicolon (pos : Nat) (w y : Str) (hw : w.all isWsChar = true) :
    next_token pos (w ++ ';' :: y) = .ok (some (.semicolon, y)) := by
  unfold next_token
  rw [skip_trivia_clean w ';' y hw (by decide) (by decide) _ (by simp; omega)]
  rfl

theorem next_token_comma (pos : Nat) (w y : Str) (hw : w.all isWsChar = true) :
    next_token pos (w ++ ',' :: y) = .ok (some (.comma, y)) := by
  unfold next_token
  rw [skip_trivia_clean w ',' y hw (by decide) (by decide) _ (by simp; omega)]
  rfl

theorem read_data_literal_render (h y : Str) (hh : h.all isHexDigit = true) :
    ∀ st, read_data_literal st (h ++ '>' :: y) = .ok (.dataLit (hexPairs h), y) := by
  intro st
  have hne : ∀ c ∈ h, (decide (c ≠ '>') : Bool) = true := by
    intro c hc
    have hcx := List.all_eq_true.mp hh c hc
    simp only [decide_eq_true_eq]
    intro he
    subst he
    exact absurd hcx (by decide)
  obtain ⟨t1, t2⟩ := takeWhile_all_append hne '>' (by decide) y
  have hhw : h.all (fun c => isHexDigit c || isAsciiWhitespace c) = true := by
    rw [List.all_eq_true] at hh ⊢
    intro c hc
    simp [hh c hc]
  simp only [read_data_literal]
  rw [t1, t2, if_neg (by simp), collectHex_all_hexws hhw,
    List.filter_eq_self.mpr (by
      intro c hc
      exact List.all_eq_true.mp hh c hc)]
  rfl

theorem next_token_data (pos : Nat) (w h y : Str) (hw : w.all isWsChar = true)
    (hh : h.all isHexDigit = true) :
    next_token pos (w ++ '<' :: (h ++ '>' :: y))
      = .ok (some (.dataLit (hexPairs h), y)) := by
  unfold next_token
  rw [skip_trivia_clean w '<' (h ++ '>' :: y) hw (by decide) (by decide) _
    (by simp; omega)]
  change (read_data_literal _ (h ++ '>' :: y)).map some = _
  rw [read_data_literal_render h y hh]
  rfl

theorem next_token_ws_eof (pos : Nat) (w : Str) (hw : w.all isWsChar = true) :
    next_token pos w = .ok none := by
  unfold next_token
  rw [skip_trivia_all_ws w hw _ (by omega)]

theorem lexAll_ws_eof (fuel pos : Nat) (w : Str) (hw : w.all isWsChar = true) :
    lexAll fuel pos w = .ok [] := by
  cases fuel with
  | zero => rfl
  | succ f =>
      show (match next_token pos w with
            | Except.error e => Except.error e
            | Except.ok none => Except.ok []
            | Except.ok (some (t, rest)) =>
                (lexAll f (pos + utf8Len w - utf8Len rest) rest).map
                  (fun ts => t :: ts)) = Except.ok []
      rw [next_token_ws_eof pos w hw]

end Xcode

namespace Xcode

theorem lexAll_cons_step (fuel pos : Nat) (s : Str) (t : Token) (rest : Str)
    (h : next_token pos s = .ok (some (t, rest))) :
    lexAll (fuel + 1) pos s
      = (lexAll fuel (pos + utf8Len s - utf8Len rest) rest).map
          (fun ts => t :: ts) := by
  show (match next_token pos s with
        | Except.error e => Except.error e
        | Except.ok none => Except.ok []
        | Except.ok (some (t, rest)) =>
            (lexAll fuel (pos + utf8Len s - utf8Len rest) rest).map
              (fun ts => t :: ts)) = _
  rw [h]

theorem write_object_nil (c : List (Str × Str)) (i : Nat) (b : Bool) :
    write_object c i b [] = [] := by
  rw [write_object]

end Xcode

namespace Xcode

/-- `s` lexes to the token list `ts` (with trailing trivia allowed); the
starting offset `pos` only feeds error payloads, so a successful lex holds
at every offset. -/
inductive LexTo : Nat → Str → List Token → Prop where
  | eof (pos : Nat) (w : Str) (hw : w.all isWsChar = true) : LexTo pos w []
  | step (pos : Nat) (s : Str) (t : Token) (rest : Str) (ts : List Token)
      (h : next_token pos s = .ok (some (t, rest)))
      (hrest : LexTo (pos + utf8Len s - utf8Len rest) rest ts) :
      LexTo pos s (t :: ts)

theorem skip_trivia_length_le : ∀ (fuel : Nat) (s : Str),
    (skip_trivia fuel s).length ≤ s.length := by
  intro fuel
  induction fuel with
  | zero => intro s; exact Nat.le_refl _
  | succ f ih =>
      intro s
      cases s with
      | nil => exact Nat.le_refl _
      | cons c rest =>
          show (if isWsChar c = true then skip_trivia f rest
                else if c = '/' then _ else c :: rest).length ≤ _
          by_cases hws : isWsChar c = true
          · rw [if_pos hws]
            have := ih rest
            simp
            omega
          · rw [if_neg hws]
            by_cases hc : c = '/'
            · rw [if_pos hc]
              cases rest with
              | nil => exact Nat.le_refl _
              | cons d rest2 =>
                  change List.length (if d = '/' then (_ : Str) else _) ≤ _
                  by_cases hd : d = '/'
                  · rw [if_pos hd]
                    have h1 := ih (dropLineComment rest2)
                    have h2 := dropLineComment_length_le rest2
                    simp at h1 ⊢
                    omega
                  · rw [if_neg hd]
                    by_cases hd2 : d = '*'
                    · rw [if_pos hd2]
                      have h1 := ih (dropBlockComment rest2)
                      have h2 := dropBlockComment_length_le rest2
                      simp at h1 ⊢
                      omega
                    · rw [if_neg hd2]
            · rw [if_neg hc]

theorem scanQuoted_length (q : Char) : ∀ (n : Nat) (s : Str), s.length ≤ n →
    ∀ raw esc r, scanQuoted q s = some (raw, esc, r) → r.length < s.length := by
  intro n
  induction n with
  | zero =>
      intro s hs raw esc r h
      cases s with
      | nil => cases h
      | cons c rest => simp at hs
  | succ n ih =>
      intro s hs raw esc r h
      cases s with
      | nil => cases h
      | cons c rest =>
          unfold scanQuoted at h
          by_cases hq : c = q
          · rw [if_pos hq] at h
            injection h with h1
            injection h1 with h2 h3
            injection h3 with h4 h5
            rw [← h5]
            simp
          · rw [if_neg hq] at h
            by_cases hb : c = '\\'
            · rw [if_pos hb] at h
              cases rest with
              | nil => cases h
              | cons d rest2 =>
                  have h' : (match scanQuoted q rest2 with
                      | some (raw, _, r) => some ('\\' :: d :: raw, true, r)
                      | none => none) = some (raw, esc, r) := h
                  clear h
                  cases hs2 : scanQuoted q rest2 with
                  | none => rw [hs2] at h'; cases h'
                  | some v =>
                      obtain ⟨raw2, esc2, r2⟩ := v
                      rw [hs2] at h'
                      injection h' with h1
                      injection h1 with h2 h3
                      injection h3 with h4 h5
                      have := ih rest2 (by simp at hs; omega) raw2 esc2 r2 hs2
                      rw [← h5]
                      simp at this ⊢
                      omega
            · rw [if_neg hb] at h
              have h' : (match scanQuoted q rest with
                  | some (raw, esc, r) => some (c :: raw, esc, r)
                  | none => none) = some (raw, esc, r) := h
              clear h
              cases hs2 : scanQuoted q rest with
              | none => rw [hs2] at h'; cases h'
              | some v =>
                  obtain ⟨raw2, esc2, r2⟩ := v
                  rw [hs2] at h'
                  injection h' with h1
                  injection h1 with h2 h3
                  injection h3 with h4 h5
                  have := ih rest (by simp at hs; omega) raw2 esc2 r2 hs2
                  rw [← h5]
                  simp at this ⊢
                  omega

theorem read_data_literal_length (st : Nat) (s : Str) (t : Token) (rest : Str)
    (h : read_data_literal st s = .ok (t, rest)) : rest.length ≤ s.length := by
  simp only [read_data_literal] at h
  by_cases hlen : (s.takeWhile (fun c => c ≠ '>')).length = s.length
  · rw [if_pos hlen] at h; cases h
  · rw [if_neg hlen] at h
    cases hc : collectHex (s.takeWhile (fun c => c ≠ '>')) with
    | error e => rw [hc] at h; cases h
    | ok hex =>
        rw [hc] at h
        injection h with h1
        injection h1 with h2 h3
        rw [← h3]
        have h4 : (s.dropWhile (fun c => c ≠ '>')).length ≤ s.length :=
          (List.dropWhile_sublist _).length_le
        have h5 : ((s.dropWhile (fun c => c ≠ '>')).tail).length
            ≤ (s.dropWhile (fun c => c ≠ '>')).length := by
          cases s.dropWhile (fun c => c ≠ '>') with
          | nil => simp
          | cons a l => simp
        omega

end Xcode

namespace Xcode

theorem next_token_consumes (pos : Nat) (s : Str) (t : Token) (rest : Str)
    (h : next_token pos s = .ok (some (t, rest))) : rest.length < s.length := by
  unfold next_token at h
  have hsk := skip_trivia_length_le (s.length + 1) s
  cases hst : skip_trivia (s.length + 1) s with
  | nil => rw [hst] at h; cases h
  | cons c r =>
      rw [hst] at h
      rw [hst] at hsk
      simp only [List.length_cons] at hsk
      have hr : r.length < s.length := by omega
      replace h : (if c = '\x7b' then Except.ok (some (Token.openBrace, r))
          else if c = '\x7d' then Except.ok (some (Token.closeBrace, r))
          else if c = '(' then Except.ok (some (Token.openParen, r))
          else if c = ')' then Except.ok (some (Token.closeParen, r))
          else if c = '=' then Except.ok (some (Token.equals, r))
          else if c = ';' then Except.ok (some (Token.semicolon, r))
          else if c = ',' then Except.ok (some (Token.comma, r))
          else if c = '<' then
            (read_data_literal (pos + utf8Len s - utf8Len r) r).map some
          else if c = '"' ∨ c = '\'' then
            (read_quoted_string (pos + utf8Len s - utf8Len (c :: r)) c r).map some
          else if is_literal_char c = true then
            Except.ok (some (.stringLit (c :: r.takeWhile is_literal_char),
              r.dropWhile is_literal_char))
          else Except.error (.unexpectedChar c
            (pos + utf8Len s - utf8Len (c :: r)))) = Except.ok (some (t, rest)) := h
      by_cases h1 : c = '\x7b'
      · rw [if_pos h1] at h
        injection h with h'
        injection h' with h''
        injection h'' with ha hb
        rw [← hb]
        exact hr
      · rw [if_neg h1] at h
        by_cases h2 : c = '\x7d'
        · rw [if_pos h2] at h
          injection h with h'
          injection h' with h''
          injection h'' with ha hb
          rw [← hb]
          exact hr
        · rw [if_neg h2] at h
          by_cases h3 : c = '('
          · rw [if_pos h3] at h
            injection h with h'
            injection h' with h''
            injection h'' with ha hb
            rw [← hb]
            exact hr
          · rw [if_neg h3] at h
            by_cases h4 : c = ')'
            · rw [if_pos h4] at h
              injection h with h'
              injection h' with h''
              injection h'' with ha hb
              rw [← hb]
              exact hr
            · rw [if_neg h4] at h
              by_cases h5 : c = '='
              · rw [if_pos h5] at h
                injection h with h'
                injection h' with h''
                injection h'' with ha hb
                rw [← hb]
                exact hr
              · rw [if_neg h5] at h
                by_cases h6 : c = ';'
                · rw [if_pos h6] at h
                  injection h with h'
                  injection h' with h''
                  injection h'' with ha hb
                  rw [← hb]
                  exact hr
                · rw [if_neg h6] at h
                  by_cases h7 : c = ','
                  · rw [if_pos h7] at h
                    injection h with h'
                    injection h' with h''
                    injection h'' with ha hb
                    rw [← hb]
                    exact hr
                  · rw [if_neg h7] at h
                    by_cases h8 : c = '<'
                    · rw [if_pos h8] at h
                      cases hrd : read_data_literal
                          (pos + utf8Len s - utf8Len r) r with
                      | error e => rw [hrd] at h; cases h
                      | ok v =>
                          obtain ⟨t2, rest2⟩ := v
                          rw [hrd] at h
                          injection h with h'
                          injection h' with h''
                          injection h'' with ha hb
                          have := read_data_literal_length _ _ _ _ hrd
                          rw [← hb]
                          omega
                    · rw [if_neg h8] at h
                      by_cases h9 : c = '"' ∨ c = '\''
                      · rw [if_pos h9] at h
                        simp only [read_quoted_string] at h
                        cases hsc : scanQuoted c r with
                        | none => rw [hsc] at h; cases h
                        | some v =>
                            obtain ⟨raw, esc, r2⟩ := v
                            rw [hsc] at h
                            injection h with h'
                            injection h' with h''
                            injection h'' with ha hb
                            have := scanQuoted_length c r.length r
                              (Nat.le_refl _) raw esc r2 hsc
                            rw [← hb]
                            omega
                      · rw [if_neg h9] at h
                        by_cases h10 : is_literal_char c = true
                        · rw [if_pos h10] at h
                          injection h with h'
                          injection h' with h''
                          injection h'' with ha hb
                          have : (r.dropWhile is_literal_char).length ≤ r.length :=
                            (List.dropWhile_sublist _).length_le
                          rw [← hb]
                          omega
                        · rw [if_neg h10] at h
                          cases h

theorem lexTo_lexAll (pos : Nat) (s : Str) (ts : List Token)
    (hl : LexTo pos s ts) :
    ∀ fuel, s.length < fuel → lexAll fuel pos s = .ok ts := by
  induction hl with
  | eof pos w hw => intro fuel _; exact lexAll_ws_eof fuel pos w hw
  | step pos s t rest ts h hrest ih =>
      intro fuel hf
      cases fuel with
      | zero => omega
      | succ f =>
          rw [lexAll_cons_step f pos s t rest h]
          have hc := next_token_consumes pos s t rest h
          rw [ih f (by omega)]
          rfl

end Xcode

namespace Xcode

mutual

/-- The token sequence the writer's output denotes for one value. -/
def toks_of : PlistValue → List Token
  | .str s => [.stringLit s]
  | .int n => [.stringLit (intToStr n)]
  | .float q => [.stringLit (float_display q)]
  | .data d => [.dataLit d]
  | .object m => .openBrace :: (toks_entries m ++ [.closeBrace])
  | .array l => .openParen :: (toks_items l ++ [.closeParen])

/-- Token sequence of an entry list: `key = value ;` per entry. -/
def toks_entries : List (Str × PlistValue) → List Token
  | [] => []
  | (k, v) :: r =>
      .stringLit k :: .equals :: (toks_of v ++ .semicolon :: toks_entries r)

/-- Token sequence of an array item list: `value ,` per item. -/
def toks_items : List PlistValue → List Token
  | [] => []
  | v :: r => toks_of v ++ .comma :: toks_items r

end

/-- A string the writer emits bare and the lexer reads back as one
`StringLiteral`: non-empty, all safe characters, and not starting with a
line-comment introducer. -/
def goodLit (s : Str) : Bool :=
  is_safe_unquoted s && !(s.take 2 == ['/', '/'])

/-- A key the round trip preserves: writable bare, not the `objects`
sectioning key, and not one of the keys whose integer values are rewritten
in decimal form. -/
def goodKey (k : Str) : Bool :=
  goodLit k && !(k == ("objects").data) && !(key_has_float_value k)

/-- A string value the round trip preserves: emitted bare and read back as
the same String atom by `parse_type`. -/
def goodStr (s : Str) : Bool :=
  goodLit s && (match parse_type s with
                | .str s2 => s2 == s
                | _ => false)

/-- An integer value the round trip preserves: non-negative (negative
literals re-read as Strings) and within `MAX_SAFE_INTEGER`. -/
def goodInt (n : Int) : Bool :=
  decide (0 ≤ n) && (match parse_type (intToStr n) with
                     | .int m => m == n
                     | _ => false)

mutual

/-- The stable fragment: value trees whose written form re-parses to the
same tree.  Floats are excluded (their decimal rendering re-reads as a
String or Integer), as are arrays nested directly inside arrays (the writer
drops them). -/
def goodVal : PlistValue → Bool
  | .str s => goodStr s
  | .int n => goodInt n
  | .float _ => false
  | .data d => d.all (fun b => decide (b < 256))
  | .object m => goodEntries m
  | .array l => goodItems l

/-- Entries of a stable object: good keys, pairwise distinct, good values. -/
def goodEntries : List (Str × PlistValue) → Bool
  | [] => true
  | (k, v) :: r =>
      goodKey k && goodVal v && !(r.any (fun e => e.1 == k)) && goodEntries r

/-- Items of a stable array: good non-array values. -/
def goodItems : List PlistValue → Bool
  | [] => true
  | v :: r =>
      (match v with
       | .array _ => false
       | _ => true) && goodVal v && goodItems r

end

theorem safe_is_literal {c : Char} (h : isSafeChar c = true) :
    is_literal_char c = true := by
  unfold is_literal_char
  rw [h]
  rfl

theorem goodLit_parts {s : Str} (h : goodLit s = true) :
    s ≠ [] ∧ s.all isSafeChar = true ∧ s.take 2 ≠ ['/', '/'] := by
  unfold goodLit is_safe_unquoted at h
  simp only [Bool.and_eq_true, Bool.not_eq_true', beq_eq_false_iff_ne,
    ne_eq] at h
  refine ⟨?_, h.1.2, h.2⟩
  intro he
  rw [he] at h
  simp at h

theorem intToStr_goodLit {n : Int} (h : 0 ≤ n) : goodLit (intToStr n) = true := by
  obtain ⟨h1, h2⟩ := intToStr_nonneg_safe h
  have hdig : (intToStr n).all isAsciiDigit = true := by
    unfold intToStr
    rw [if_neg (by omega)]
    exact (natToStr_digits n.toNat).1
  unfold goodLit is_safe_unquoted
  have hd : (intToStr n).take 2 ≠ ['/', '/'] := by
    intro he
    cases hs : intToStr n with
    | nil => exact h2 hs
    | cons a l =>
        rw [hs] at he hdig
        rw [List.all_cons, Bool.and_eq_true] at hdig
        cases l with
        | nil => cases he
        | cons b l2 =>
            simp only [List.take, List.cons.injEq] at he
            rw [he.1] at hdig
            exact absurd hdig.1 (by decide)
  simp only [Bool.and_eq_true, Bool.not_eq_true', beq_eq_false_iff_ne, ne_eq]
  refine ⟨⟨?_, h1⟩, hd⟩
  exact List.isEmpty_eq_false.mpr h2

theorem write_ensure_quotes_to_safe {s : Str} (h1 : s ≠ [])
    (h2 : s.all isSafeChar = true) : write_ensure_quotes_to s = s := by
  unfold write_ensure_quotes_to
  have hsafe : is_safe_unquoted s = true := by
    unfold is_safe_unquoted
    simp only [Bool.and_eq_true]
    exact ⟨by simpa using h1, h2⟩
  rw [if_pos hsafe, if_neg ?_]
  unfold needs_escaping
  rw [Bool.not_eq_true, List.any_eq_false]
  intro c hc
  have hcs := List.all_eq_true.mp h2 c hc
  unfold isSafeChar at hcs
  simp only [Bool.or_eq_true, Bool.and_eq_true, decide_eq_true_eq] at hcs
  casesm* _ ∨ _
  all_goals rename_i hcs
  all_goals
    first
    | (subst hcs; decide)
    | (have hb1 : decide (c.toNat < 32) = false := by simp; omega
       have hb4 : decide (c.toNat = 127) = false := by simp; omega
       have hb2 : decide (c = '"') = false := by
         simp only [decide_eq_false_iff_not]
         intro he
         subst he
         exact absurd hcs (by decide)
       have hb3 : decide (c = '\\') = false := by
         simp only [decide_eq_false_iff_not]
         intro he
         subst he
         exact absurd hcs (by decide)
       rw [Bool.not_eq_true, hb1, hb2, hb3, hb4]
       rfl)

theorem format_id_nil (s : Str) : format_id [] s = write_ensure_quotes_to s := rfl

end Xcode

namespace Xcode

theorem next_token_goodLit (pos : Nat) (w s : Str) (c0 : Char) (y' : Str)
    (hw : w.all isWsChar = true) (hg : goodLit s = true)
    (hc1 : c0 ≠ '/') (hc2 : c0 ≠ '*') (hc3 : is_literal_char c0 = false) :
    next_token pos (w ++ (s ++ c0 :: y')) = .ok (some (.stringLit s, c0 :: y')) := by
  obtain ⟨h1, h2, h3⟩ := goodLit_parts hg
  have hlit : s.all is_literal_char = true := by
    rw [List.all_eq_true] at h2 ⊢
    exact fun c hc => safe_is_literal (h2 c hc)
  refine next_token_literal pos w s (c0 :: y') hw h1 hlit ?_ ?_ ?_
  · cases s with
    | nil => exact absurd rfl h1
    | cons a t =>
        cases t with
        | nil =>
            intro he
            have he2 : ([a] ++ c0 :: y').take 2 = [a, c0] := rfl
            rw [he2] at he
            injection he with ha hb
            injection hb with hb
            exact hc1 hb
        | cons b t2 =>
            intro he
            have he2 : ((a :: b :: t2) ++ c0 :: y').take 2 = [a, b] := rfl
            rw [he2] at he
            exact h3 (by rw [show (a :: b :: t2).take 2 = [a, b] from rfl]; exact he)
  · cases s with
    | nil => exact absurd rfl h1
    | cons a t =>
        cases t with
        | nil =>
            intro he
            have he2 : ([a] ++ c0 :: y').take 2 = [a, c0] := rfl
            rw [he2] at he
            injection he with ha hb
            injection hb with hb
            exact hc2 hb
        | cons b t2 =>
            intro he
            have he2 : ((a :: b :: t2) ++ c0 :: y').take 2 = [a, b] := rfl
            rw [he2] at he
            injection he with ha hb
            injection hb with hb
            have hbs : isSafeChar b = true :=
              List.all_eq_true.mp h2 b (by simp)
            rw [hb] at hbs
            exact absurd hbs (by decide)
  · intro d hd
    injection hd with hd
    rw [← hd]
    exact hc3

theorem ensure_quotes_goodLit {s : Str} (h : goodLit s = true) :
    ensure_quotes s = s := by
  obtain ⟨h1, h2, _⟩ := goodLit_parts h
  exact ensure_quotes_of_safe h1 h2

theorem write_ensure_quotes_to_goodLit {s : Str} (h : goodLit s = true) :
    write_ensure_quotes_to s = s := by
  obtain ⟨h1, h2, _⟩ := goodLit_parts h
  exact write_ensure_quotes_to_safe h1 h2

theorem indentStr_ws (n : Nat) : (indentStr n).all isWsChar = true := by
  rw [List.all_eq_true]
  intro c hc
  rw [indentStr] at hc
  rw [List.eq_of_mem_replicate hc]
  rfl

end Xcode

namespace Xcode

theorem hexDigitUpper_isHex {n : Nat} (h : n < 16) :
    isHexDigit (hexDigitUpper n) = true := by
  interval_cases n <;> decide

set_option maxHeartbeats 1000000 in
theorem hexVal_pair {hi lo : Nat} (h1 : hi < 16) (h2 : lo < 16) :
    hexVal [hexDigitUpper hi, hexDigitUpper lo] = hi * 16 + lo := by
  interval_cases hi <;> interval_cases lo <;> decide

theorem flatHex_isHex : ∀ d : List Nat,
    (d.flatMap byteHexUpper).all isHexDigit = true := by
  intro d
  induction d with
  | nil => rfl
  | cons b d' ih =>
      rw [List.flatMap_cons, List.all_append, ih, Bool.and_true]
      show ([hexDigitUpper (b / 16 % 16), hexDigitUpper (b % 16)]).all isHexDigit
        = true
      simp only [List.all_cons, List.all_nil, Bool.and_true]
      rw [hexDigitUpper_isHex (by omega), hexDigitUpper_isHex (by omega)]
      rfl

theorem hexPairs_flat : ∀ d : List Nat, d.all (fun b => decide (b < 256)) = true →
    hexPairs (d.flatMap byteHexUpper) = d := by
  intro d
  induction d with
  | nil => intro _; rfl
  | cons b d' ih =>
      intro h
      rw [List.all_cons, Bool.and_eq_true, decide_eq_true_eq] at h
      rw [List.flatMap_cons]
      show hexPairs (hexDigitUpper (b / 16 % 16) :: hexDigitUpper (b % 16)
        :: d'.flatMap byteHexUpper) = b :: d'
      rw [hexPairs, ih h.2, hexVal_pair (by omega) (by omega)]
      have : b / 16 % 16 * 16 + b % 16 = b := by omega
      rw [this]

theorem ws_append {a b : Str} (ha : a.all isWsChar = true)
    (hb : b.all isWsChar = true) : (a ++ b).all isWsChar = true := by
  rw [List.all_append, ha, hb]
  rfl

theorem ws_newline : (['\n'] : Str).all isWsChar = true := rfl

theorem ws_nil : (([]) : Str).all isWsChar = true := rfl

end Xcode

namespace Xcode

theorem lexTo_entry_lit (pos : Nat) (w : Str) (ind : Nat) (k sv REST : Str)
    (tks : List Token) (hw : w.all isWsChar = true)
    (hk : goodLit k = true) (hs : goodLit sv = true)
    (hcont : ∀ (pos : Nat) (w : Str), w.all isWsChar = true →
      LexTo pos (w ++ REST) tks) :
    LexTo pos
      (w ++ (indentStr ind ++ (k ++ (' ' :: '=' :: ' ' ::
        (sv ++ (';' :: '\n' :: REST))))))
      (.stringLit k :: .equals :: .stringLit sv :: .semicolon :: tks) := by
  rw [← List.append_assoc]
  refine LexTo.step _ _ _ _ _
    (next_token_goodLit pos (w ++ indentStr ind) k ' '
      ('=' :: ' ' :: (sv ++ (';' :: '\n' :: REST)))
      (ws_append hw (indentStr_ws ind)) hk (by decide) (by decide) (by decide)) ?_
  refine LexTo.step _ _ _ _ _
    (next_token_equals _ [' '] (' ' :: (sv ++ (';' :: '\n' :: REST))) rfl) ?_
  refine LexTo.step _ _ _ _ _
    (next_token_goodLit _ [' '] sv ';' ('\n' :: REST) rfl hs
      (by decide) (by decide) (by decide)) ?_
  refine LexTo.step _ _ _ _ _
    (next_token_semicolon _ [] ('\n' :: REST) rfl) ?_
  exact hcont _ ['\n'] rfl

theorem lexTo_entry_data (pos : Nat) (w : Str) (ind : Nat) (k hx REST : Str)
    (tks : List Token) (hw : w.all isWsChar = true)
    (hk : goodLit k = true) (hh : hx.all isHexDigit = true)
    (hcont : ∀ (pos : Nat) (w : Str), w.all isWsChar = true →
      LexTo pos (w ++ REST) tks) :
    LexTo pos
      (w ++ (indentStr ind ++ (k ++ (' ' :: '=' :: ' ' ::
        ('<' :: (hx ++ '>' :: (';' :: '\n' :: REST)))))))
      (.stringLit k :: .equals :: .dataLit (hexPairs hx) :: .semicolon :: tks) := by
  rw [← List.append_assoc]
  refine LexTo.step _ _ _ _ _
    (next_token_goodLit pos (w ++ indentStr ind) k ' '
      ('=' :: ' ' :: ('<' :: (hx ++ '>' :: (';' :: '\n' :: REST))))
      (ws_append hw (indentStr_ws ind)) hk (by decide) (by decide) (by decide)) ?_
  refine LexTo.step _ _ _ _ _
    (next_token_equals _ [' ']
      (' ' :: ('<' :: (hx ++ '>' :: (';' :: '\n' :: REST)))) rfl) ?_
  refine LexTo.step _ _ _ _ _
    (next_token_data _ [' '] hx (';' :: '\n' :: REST) rfl hh) ?_
  refine LexTo.step _ _ _ _ _
    (next_token_semicolon _ [] ('\n' :: REST) rfl) ?_
  exact hcont _ ['\n'] rfl

theorem lexTo_item_lit (pos : Nat) (w : Str) (ind : Nat) (sv REST : Str)
    (tks : List Token) (hw : w.all isWsChar = true)
    (hs : goodLit sv = true)
    (hcont : ∀ (pos : Nat) (w : Str), w.all isWsChar = true →
      LexTo pos (w ++ REST) tks) :
    LexTo pos (w ++ (indentStr ind ++ (sv ++ (',' :: '\n' :: REST))))
      (.stringLit sv :: .comma :: tks) := by
  rw [← List.append_assoc]
  refine LexTo.step _ _ _ _ _
    (next_token_goodLit pos (w ++ indentStr ind) sv ',' ('\n' :: REST)
      (ws_append hw (indentStr_ws ind)) hs (by decide) (by decide) (by decide)) ?_
  refine LexTo.step _ _ _ _ _
    (next_token_comma _ [] ('\n' :: REST) rfl) ?_
  exact hcont _ ['\n'] rfl

theorem lexTo_item_data (pos : Nat) (w : Str) (ind : Nat) (hx REST : Str)
    (tks : List Token) (hw : w.all isWsChar = true)
    (hh : hx.all isHexDigit = true)
    (hcont : ∀ (pos : Nat) (w : Str), w.all isWsChar = true →
      LexTo pos (w ++ REST) tks) :
    LexTo pos (w ++ (indentStr ind ++ ('<' :: (hx ++ '>' :: (',' :: '\n' :: REST)))))
      (.dataLit (hexPairs hx) :: .comma :: tks) := by
  rw [← List.append_assoc]
  refine LexTo.step _ _ _ _ _
    (next_token_data pos (w ++ indentStr ind) hx (',' :: '\n' :: REST)
      (ws_append hw (indentStr_ws ind)) hh) ?_
  refine LexTo.step _ _ _ _ _
    (next_token_comma _ [] ('\n' :: REST) rfl) ?_
  exact hcont _ ['\n'] rfl

end Xcode

namespace Xcode

theorem sizeVal_pos : ∀ v : PlistValue, 1 ≤ sizeVal v := by
  intro v
  cases v <;> simp [sizeVal]

theorem goodKey_parts {k : Str} (h : goodKey k = true) :
    goodLit k = true ∧ (k == ("objects").data) = false
      ∧ key_has_float_value k = false := by
  unfold goodKey at h
  simp only [Bool.and_eq_true, Bool.not_eq_true'] at h
  exact ⟨h.1.1, h.1.2, h.2⟩

theorem goodStr_parts {s : Str} (h : goodStr s = true) :
    goodLit s = true ∧ parse_type s = .str s := by
  unfold goodStr at h
  simp only [Bool.and_eq_true] at h
  refine ⟨h.1, ?_⟩
  have h2 := h.2
  cases hp : parse_type s with
  | str s2 =>
      rw [hp] at h2
      have h3 : (s2 == s) = true := h2
      rw [eq_of_beq h3]
  | int n => rw [hp] at h2; exact Bool.noConfusion h2
  | float q => rw [hp] at h2; exact Bool.noConfusion h2
  | data d => rw [hp] at h2; exact Bool.noConfusion h2
  | object m => rw [hp] at h2; exact Bool.noConfusion h2
  | array l => rw [hp] at h2; exact Bool.noConfusion h2

theorem goodInt_parts {n : Int} (h : goodInt n = true) :
    0 ≤ n ∧ parse_type (intToStr n) = .int n := by
  unfold goodInt at h
  simp only [Bool.and_eq_true, decide_eq_true_eq] at h
  refine ⟨h.1, ?_⟩
  have h2 := h.2
  cases hp : parse_type (intToStr n) with
  | int m =>
      rw [hp] at h2
      have h3 : (m == n) = true := h2
      have h4 : m = n := by simpa using h3
      rw [h4]
  | str s2 => rw [hp] at h2; exact Bool.noConfusion h2
  | float q => rw [hp] at h2; exact Bool.noConfusion h2
  | data d => rw [hp] at h2; exact Bool.noConfusion h2
  | object m => rw [hp] at h2; exact Bool.noConfusion h2
  | array l => rw [hp] at h2; exact Bool.noConfusion h2

theorem goodEntries_cons {k : Str} {v : PlistValue} {r : List (Str × PlistValue)}
    (h : goodEntries ((k, v) :: r) = true) :
    goodKey k = true ∧ goodVal v = true
      ∧ (r.any (fun e => e.1 == k)) = false ∧ goodEntries r = true := by
  unfold goodEntries at h
  simp only [Bool.and_eq_true, Bool.not_eq_true'] at h
  exact ⟨h.1.1.1, h.1.1.2, h.1.2, h.2⟩

theorem goodItems_cons {v : PlistValue} {r : List PlistValue}
    (h : goodItems (v :: r) = true) :
    goodVal v = true ∧ goodItems r = true
      ∧ (∀ l, v ≠ .array l) := by
  unfold goodItems at h
  simp only [Bool.and_eq_true] at h
  refine ⟨h.1.2, h.2, ?_⟩
  intro l he
  subst he
  have := h.1.1
  cases this

set_option maxHeartbeats 3000000 in
theorem lex_write : ∀ n : Nat,
    (∀ m : List (Str × PlistValue), sizeEntries m ≤ n →
      goodEntries m = true →
      ∀ (ind : Nat) (base : Bool) (rest : Str) (ts : List Token),
        (∀ (pos : Nat) (w : Str), w.all isWsChar = true →
          LexTo pos (w ++ rest) ts) →
        ∀ (pos : Nat) (w : Str), w.all isWsChar = true →
          LexTo pos (w ++ (write_object [] ind base m ++ rest))
            (toks_entries m ++ ts))
    ∧ (∀ l : List PlistValue, sizeItems l ≤ n →
      goodItems l = true →
      ∀ (ind : Nat) (rest : Str) (ts : List Token),
        (∀ (pos : Nat) (w : Str), w.all isWsChar = true →
          LexTo pos (w ++ rest) ts) →
        ∀ (pos : Nat) (w : Str), w.all isWsChar = true →
          LexTo pos (w ++ (write_array_items [] ind l ++ rest))
            (toks_items l ++ ts)) := by
  intro n
  induction n with
  | zero =>
      constructor
      · intro m hsz _ ind base rest ts hcont pos w hw
        cases m with
        | nil =>
            rw [write_object_nil]
            exact hcont pos w hw
        | cons e r =>
            obtain ⟨k, v⟩ := e
            have := sizeVal_pos v
            simp [sizeEntries] at hsz
      · intro l hsz _ ind rest ts hcont pos w hw
        cases l with
        | nil =>
            rw [show write_array_items [] ind ([] : List PlistValue) = []
              from by rw [write_array_items]]
            exact hcont pos w hw
        | cons v r =>
            have := sizeVal_pos v
            simp [sizeItems] at hsz
  | succ n ih =>
      obtain ⟨ihE, ihI⟩ := ih
      constructor
      · -- entries
        intro m hsz hg ind base rest ts hcont pos w hw
        cases m with
        | nil =>
            rw [write_object_nil]
            exact hcont pos w hw
        | cons e r =>
            obtain ⟨k, v⟩ := e
            obtain ⟨hgk, hgv, _, hgr⟩ := goodEntries_cons hg
            obtain ⟨hkL, hkObj, hkFl⟩ := goodKey_parts hgk
            have hszr : sizeEntries r ≤ n := by
              have := sizeVal_pos v
              simp [sizeEntries] at hsz
              omega
            cases v with
            | float q => exact absurd hgv (by simp [goodVal])
            | str s =>
                obtain ⟨hsL, _⟩ := goodStr_parts hgv
                simp only [write_object, ensure_quotes_goodLit hkL,
                  ensure_quotes_goodLit hsL, format_id_nil,
                  write_ensure_quotes_to_goodLit hsL]
                by_cases hrk : (k == ("remoteGlobalIDString").data
                    || k == ("TestTargetID").data) = true
                · rw [if_pos hrk]
                  simp only [toks_entries, toks_of, toks_items, List.append_assoc, List.cons_append]
                  exact lexTo_entry_lit pos w ind k s
                    (write_object [] ind base r ++ rest)
                    (toks_entries r ++ ts) hw hkL hsL
                    (fun pos w hw => ihE r hszr hgr ind base rest ts hcont pos w hw)
                · rw [if_neg hrk]
                  simp only [toks_entries, toks_of, toks_items, List.append_assoc, List.cons_append]
                  exact lexTo_entry_lit pos w ind k s
                    (write_object [] ind base r ++ rest)
                    (toks_entries r ++ ts) hw hkL hsL
                    (fun pos w hw => ihE r hszr hgr ind base rest ts hcont pos w hw)
            | int m =>
                obtain ⟨h0, _⟩ := goodInt_parts hgv
                have hiL := intToStr_goodLit h0
                simp only [write_object, ensure_quotes_goodLit hkL,
                  ensure_quotes_goodLit hiL]
                rw [if_neg (by rw [hkFl]; simp)]
                simp only [toks_entries, toks_of, toks_items, List.append_assoc, List.cons_append]
                exact lexTo_entry_lit pos w ind k (intToStr m)
                  (write_object [] ind base r ++ rest)
                  (toks_entries r ++ ts) hw hkL hiL
                  (fun pos w hw => ihE r hszr hgr ind base rest ts hcont pos w hw)
            | data d =>
                have hd256 : d.all (fun b => decide (b < 256)) = true := hgv
                simp only [write_object, ensure_quotes_goodLit hkL, format_data,
                  toks_entries, toks_of, toks_items, List.append_assoc, List.cons_append]
                rw [show (Token.dataLit d) = Token.dataLit
                    (hexPairs (d.flatMap byteHexUpper)) from by
                  rw [hexPairs_flat d hd256]]
                exact lexTo_entry_data pos w ind k (d.flatMap byteHexUpper)
                  (write_object [] ind base r ++ rest)
                  (toks_entries r ++ ts) hw hkL (flatHex_isHex d)
                  (fun pos w hw => ihE r hszr hgr ind base rest ts hcont pos w hw)
            | object inner =>
                have hginner : goodEntries inner = true := hgv
                have hszinner : sizeEntries inner ≤ n := by
                  simp [sizeEntries, sizeVal] at hsz
                  omega
                by_cases hempty : (!base && inner.isEmpty) = true
                · have hinner : inner = [] := by
                    cases inner with
                    | nil => rfl
                    | cons a b => simp [List.isEmpty] at hempty
                  subst hinner
                  simp only [write_object, write_ensure_quotes_to_goodLit hkL]
                  rw [if_pos hempty]
                  simp only [toks_entries, toks_of, toks_items, List.append_assoc, List.cons_append]
                  rw [← List.append_assoc]
                  refine LexTo.step _ _ _ _ _
                    (next_token_goodLit pos (w ++ indentStr ind) k ' '
                      ('=' :: ' ' :: '\x7b' :: '\x7d' :: ';' :: '\n' ::
                        (write_object [] ind base r ++ rest))
                      (ws_append hw (indentStr_ws ind)) hkL
                      (by decide) (by decide) (by decide)) ?_
                  refine LexTo.step _ _ _ _ _
                    (next_token_equals _ [' '] _ rfl) ?_
                  refine LexTo.step _ _ _ _ _
                    (next_token_openBrace _ [' '] _ rfl) ?_
                  refine LexTo.step _ _ _ _ _
                    (next_token_closeBrace _ [] _ rfl) ?_
                  refine LexTo.step _ _ _ _ _
                    (next_token_semicolon _ [] _ rfl) ?_
                  exact ihE r hszr hgr ind base rest ts hcont _ ['\n'] rfl
                · simp only [write_object, write_ensure_quotes_to_goodLit hkL]
                  rw [if_neg hempty, if_neg (by rw [hkObj, Bool.and_false]; simp)]
                  simp only [toks_entries, toks_of, toks_items, List.append_assoc, List.cons_append]
                  rw [← List.append_assoc]
                  refine LexTo.step _ _ _ _ _
                    (next_token_goodLit pos (w ++ indentStr ind) k ' '
                      ('=' :: ' ' :: '\x7b' :: '\n' ::
                        (write_object [] (ind + 1) base inner ++
                          (indentStr ind ++ ('\x7d' :: ';' :: '\n' ::
                            (write_object [] ind base r ++ rest)))))
                      (ws_append hw (indentStr_ws ind)) hkL
                      (by decide) (by decide) (by decide)) ?_
                  refine LexTo.step _ _ _ _ _
                    (next_token_equals _ [' '] _ rfl) ?_
                  refine LexTo.step _ _ _ _ _
                    (next_token_openBrace _ [' '] _ rfl) ?_
                  refine ihE inner hszinner hginner (ind + 1) base
                    (indentStr ind ++ ('\x7d' :: ';' :: '\n' ::
                      (write_object [] ind base r ++ rest)))
                    (Token.closeBrace :: Token.semicolon :: (toks_entries r ++ ts))
                    ?_ _ ['\n'] rfl
                  intro pos w hw
                  rw [← List.append_assoc]
                  refine LexTo.step _ _ _ _ _
                    (next_token_closeBrace _ (w ++ indentStr ind) _
                      (ws_append hw (indentStr_ws ind))) ?_
                  refine LexTo.step _ _ _ _ _
                    (next_token_semicolon _ [] _ rfl) ?_
                  exact ihE r hszr hgr ind base rest ts hcont _ ['\n'] rfl
            | array items =>
                have hgitems : goodItems items = true := hgv
                have hszitems : sizeItems items ≤ n := by
                  simp [sizeEntries, sizeVal] at hsz
                  omega
                simp only [write_object, write_array,
                  write_ensure_quotes_to_goodLit hkL, toks_entries, toks_of, toks_items, List.append_assoc, List.cons_append]
                rw [← List.append_assoc]
                refine LexTo.step _ _ _ _ _
                  (next_token_goodLit pos (w ++ indentStr ind) k ' '
                    ('=' :: ' ' :: '(' :: '\n' ::
                      (write_array_items [] (ind + 1) items ++
                        (indentStr ind ++ (')' :: ';' :: '\n' ::
                          (write_object [] ind base r ++ rest)))))
                    (ws_append hw (indentStr_ws ind)) hkL
                    (by decide) (by decide) (by decide)) ?_
                refine LexTo.step _ _ _ _ _
                  (next_token_equals _ [' '] _ rfl) ?_
                refine LexTo.step _ _ _ _ _
                  (next_token_openParen _ [' '] _ rfl) ?_
                refine ihI items hszitems hgitems (ind + 1)
                  (indentStr ind ++ (')' :: ';' :: '\n' ::
                    (write_object [] ind base r ++ rest)))
                  (Token.closeParen :: Token.semicolon :: (toks_entries r ++ ts))
                  ?_ _ ['\n'] rfl
                intro pos w hw
                rw [← List.append_assoc]
                refine LexTo.step _ _ _ _ _
                  (next_token_closeParen _ (w ++ indentStr ind) _
                    (ws_append hw (indentStr_ws ind))) ?_
                refine LexTo.step _ _ _ _ _
                  (next_token_semicolon _ [] _ rfl) ?_
                exact ihE r hszr hgr ind base rest ts hcont _ ['\n'] rfl
      · -- items
        intro l hsz hg ind rest ts hcont pos w hw
        cases l with
        | nil =>
            rw [show write_array_items [] ind ([] : List PlistValue) = []
              from by rw [write_array_items]]
            exact hcont pos w hw
        | cons v r =>
            obtain ⟨hgv, hgr, hnotarr⟩ := goodItems_cons hg
            have hszr : sizeItems r ≤ n := by
              have := sizeVal_pos v
              simp [sizeItems] at hsz
              omega
            cases v with
            | float q => exact absurd hgv (by simp [goodVal])
            | array l2 => exact absurd rfl (hnotarr l2)
            | str s =>
                obtain ⟨hsL, _⟩ := goodStr_parts hgv
                simp only [write_array_items, format_id_nil,
                  write_ensure_quotes_to_goodLit hsL, toks_entries, toks_of, toks_items, List.append_assoc, List.cons_append]
                exact lexTo_item_lit pos w ind s
                  (write_array_items [] ind r ++ rest)
                  (toks_items r ++ ts) hw hsL
                  (fun pos w hw => ihI r hszr hgr ind rest ts hcont pos w hw)
            | int m =>
                obtain ⟨h0, _⟩ := goodInt_parts hgv
                have hiL := intToStr_goodLit h0
                simp only [write_array_items, format_id_nil,
                  write_ensure_quotes_to_goodLit hiL, toks_entries, toks_of, toks_items, List.append_assoc, List.cons_append]
                exact lexTo_item_lit pos w ind (intToStr m)
                  (write_array_items [] ind r ++ rest)
                  (toks_items r ++ ts) hw hiL
                  (fun pos w hw => ihI r hszr hgr ind rest ts hcont pos w hw)
            | data d =>
                have hd256 : d.all (fun b => decide (b < 256)) = true := hgv
                simp only [write_array_items, format_data, toks_entries, toks_of, toks_items, List.append_assoc, List.cons_append]
                rw [show (Token.dataLit d) = Token.dataLit
                    (hexPairs (d.flatMap byteHexUpper)) from by
                  rw [hexPairs_flat d hd256]]
                exact lexTo_item_data pos w ind (d.flatMap byteHexUpper)
                  (write_array_items [] ind r ++ rest)
                  (toks_items r ++ ts) hw (flatHex_isHex d)
                  (fun pos w hw => ihI r hszr hgr ind rest ts hcont pos w hw)
            | object inner =>
                have hginner : goodEntries inner = true := hgv
                have hszinner : sizeEntries inner ≤ n := by
                  simp [sizeItems, sizeVal] at hsz
                  omega
                simp only [write_array_items, toks_entries, toks_of, toks_items, List.append_assoc, List.cons_append]
                rw [← List.append_assoc]
                refine LexTo.step _ _ _ _ _
                  (next_token_openBrace pos (w ++ indentStr ind)
                    ('\n' :: (write_object [] (ind + 1) false inner ++
                      (indentStr ind ++ ('\x7d' :: ',' :: '\n' ::
                        (write_array_items [] ind r ++ rest)))))
                    (ws_append hw (indentStr_ws ind))) ?_
                refine ihE inner hszinner hginner (ind + 1) false
                  (indentStr ind ++ ('\x7d' :: ',' :: '\n' ::
                    (write_array_items [] ind r ++ rest)))
                  (Token.closeBrace :: Token.comma :: (toks_items r ++ ts))
                  ?_ _ ['\n'] rfl
                intro pos w hw
                rw [← List.append_assoc]
                refine LexTo.step _ _ _ _ _
                  (next_token_closeBrace _ (w ++ indentStr ind) _
                    (ws_append hw (indentStr_ws ind))) ?_
                refine LexTo.step _ _ _ _ _
                  (next_token_comma _ [] _ rfl) ?_
                exact ihI r hszr hgr ind rest ts hcont _ ['\n'] rfl

end Xcode

namespace Xcode

theorem skip_trivia_shebang (f : Nat) (x : Str) :
    skip_trivia (f + 2) (shebangLine ++ x) = skip_trivia f x := rfl

theorem next_token_shebang_openBrace (pos : Nat) (y : Str) :
    next_token pos (shebangLine ++ '\x7b' :: y) = .ok (some (.openBrace, y)) := by
  have hl : shebangLine.length = 14 := rfl
  have h1 : (shebangLine ++ '\x7b' :: y).length + 1 = (y.length + 14) + 2 := by
    rw [List.length_append, hl, List.length_cons]
    omega
  have hsk : skip_trivia ((shebangLine ++ '\x7b' :: y).length + 1)
      (shebangLine ++ '\x7b' :: y) = '\x7b' :: y := by
    rw [h1, skip_trivia_shebang (y.length + 14) ('\x7b' :: y),
      skip_trivia_punct _ _ (by decide) (by decide)]
  unfold next_token
  rw [hsk]
  rfl

theorem lookup_objects_none {m : List (Str × PlistValue)}
    (hg : goodEntries m = true) : lookup? m (("objects").data) = none := by
  induction m with
  | nil => rfl
  | cons e r ih =>
      obtain ⟨k, v⟩ := e
      obtain ⟨hgk, _, _, hgr⟩ := goodEntries_cons hg
      obtain ⟨_, hkObj, _⟩ := goodKey_parts hgk
      rw [lookup_cons, hkObj, Bool.cond_false]
      exact ih hgr

theorem crl_nil {m : List (Str × PlistValue)} (hg : goodEntries m = true) :
    create_reference_list (.object m) = [] := by
  unfold create_reference_list
  rw [show ((PlistValue.object m).as_object.bind
      (fun root => lookup? root (("objects").data))) = none from
    lookup_objects_none hg]

theorem build_object_shape (m : List (Str × PlistValue))
    (hc : create_reference_list (.object m) = []) :
    build (.object m) = shebangLine ++ '\x7b' :: '\n' ::
      (write_object [] 1 true m ++ ('\x7d' :: '\n' :: [])) := by
  rw [build, hc]
  rfl

theorem lex_build (m : List (Str × PlistValue)) (hg : goodEntries m = true) :
    ∀ fuel, (build (.object m)).length < fuel →
      lexAll fuel 0 (build (.object m))
        = .ok (.openBrace :: (toks_entries m ++ [.closeBrace])) := by
  intro fuel hf
  refine lexTo_lexAll 0 _ _ ?_ fuel hf
  rw [build_object_shape m (crl_nil hg)]
  refine LexTo.step _ _ _ _ _ (next_token_shebang_openBrace 0 _) ?_
  refine (lex_write (sizeEntries m)).1 m (Nat.le_refl _) hg 1 true
    ('\x7d' :: '\n' :: []) [Token.closeBrace] ?_ _ ['\n'] rfl
  intro pos w hw
  refine LexTo.step _ _ _ _ _ (next_token_closeBrace pos w ['\n'] hw) ?_
  exact LexTo.eof _ ['\n'] rfl

end Xcode

namespace Xcode

theorem toks_length_ge (n : Nat) :
    (∀ v, sizeVal v ≤ n → sizeVal v ≤ (toks_of v).length) ∧
    (∀ m, sizeEntries m ≤ n → sizeEntries m ≤ (toks_entries m).length) ∧
    (∀ l, sizeItems l ≤ n → sizeItems l ≤ (toks_items l).length) := by
  induction n with
  | zero =>
    refine ⟨?_, ?_, ?_⟩
    · intro v hsz
      have := sizeVal_pos v
      omega
    · intro m hsz
      cases m with
      | nil => exact Nat.le_refl _ |>.trans (Nat.zero_le _)
      | cons e r =>
        obtain ⟨k, v⟩ := e
        simp only [sizeEntries] at hsz
        omega
    · intro l hsz
      cases l with
      | nil => exact Nat.zero_le _
      | cons v r =>
        simp only [sizeItems] at hsz
        omega
  | succ n ih =>
    obtain ⟨ihV, ihE, ihI⟩ := ih
    refine ⟨?_, ?_, ?_⟩
    · intro v hsz
      cases v with
      | str s =>
        simp only [sizeVal, toks_of, List.length_cons, List.length_nil]
        omega
      | int n2 =>
        simp only [sizeVal, toks_of, List.length_cons, List.length_nil]
        omega
      | float q =>
        simp only [sizeVal, toks_of, List.length_cons, List.length_nil]
        omega
      | data d =>
        simp only [sizeVal, toks_of, List.length_cons, List.length_nil]
        omega
      | object m =>
        simp only [sizeVal, toks_of, List.length_cons, List.length_append,
          List.length_nil] at hsz ⊢
        have h1 := ihE m (by omega)
        omega
      | array l =>
        simp only [sizeVal, toks_of, List.length_cons, List.length_append,
          List.length_nil] at hsz ⊢
        have h1 := ihI l (by omega)
        omega
    · intro m hsz
      cases m with
      | nil => exact Nat.zero_le _
      | cons e r =>
        obtain ⟨k, v⟩ := e
        simp only [sizeEntries, toks_entries, List.length_cons,
          List.length_append] at hsz ⊢
        have h1 := ihV v (by omega)
        have h2 := ihE r (by omega)
        omega
    · intro l hsz
      cases l with
      | nil => exact Nat.zero_le _
      | cons v r =>
        simp only [sizeItems, toks_items, List.length_cons,
          List.length_append] at hsz ⊢
        have h1 := ihV v (by omega)
        have h2 := ihI r (by omega)
        omega

theorem sizeEntries_le_toks (m : List (Str × PlistValue)) :
    sizeEntries m ≤ (toks_entries m).length :=
  (toks_length_ge (sizeEntries m)).2.1 m (Nat.le_refl _)

theorem parse_value_stringLit (f : Nat) (s : Str) (ts : List Token) (pos : Nat) :
    parse_value (f + 1) (.stringLit s :: ts) pos
      = .ok (parse_type s, ts, pos + 1) := rfl

theorem parse_value_dataLit (f : Nat) (d : List Nat) (ts : List Token) (pos : Nat) :
    parse_value (f + 1) (.dataLit d :: ts) pos
      = .ok (.data d, ts, pos + 1) := rfl

theorem parse_value_object_enter (f : Nat) (Y : List Token) (pos : Nat) :
    parse_value (f + 2) (.openBrace :: Y) pos
      = parse_object_items f [] Y (pos + 1) := rfl

theorem parse_value_array_enter (f : Nat) (Y : List Token) (pos : Nat) :
    parse_value (f + 2) (.openParen :: Y) pos
      = parse_array_items f [] Y (pos + 1) := rfl

theorem parse_object_items_close (f : Nat) (acc : List (Str × PlistValue))
    (ts : List Token) (pos : Nat) :
    parse_object_items (f + 1) acc (.closeBrace :: ts) pos
      = .ok (.object acc, ts, pos + 1) := rfl

theorem parse_array_items_close (f : Nat) (acc : List PlistValue)
    (ts : List Token) (pos : Nat) :
    parse_array_items (f + 1) acc (.closeParen :: ts) pos
      = .ok (.array acc, ts, pos + 1) := rfl

theorem parse_array_items_enter (f : Nat) (acc : List PlistValue)
    (v : PlistValue) (X : List Token) (pos : Nat) :
    parse_array_items (f + 1) acc (toks_of v ++ X) pos
      = (match parse_value f (toks_of v ++ X) pos with
         | .error e => .error e
         | .ok (v2, ts2, pos2) =>
           match ts2 with
           | .comma :: rest2 => parse_array_items f (acc ++ [v2]) rest2 (pos2 + 1)
           | _ => parse_array_items f (acc ++ [v2]) ts2 pos2) := by
  cases v <;> simp only [toks_of] <;> rfl

theorem parse_object_items_step (f : Nat) (acc : List (Str × PlistValue))
    (k : Str) (v : PlistValue) (ts1 ts2 : List Token) (pos q1 : Nat)
    (hv : parse_value f ts1 (pos + 2) = .ok (v, .semicolon :: ts2, q1)) :
    parse_object_items (f + 2) acc (.stringLit k :: .equals :: ts1) pos
      = parse_object_items (f + 1) (indexInsert acc k v) ts2 (q1 + 1) := by
  have h1 : parse_object_item (f + 1) (.stringLit k :: .equals :: ts1) pos
      = (match parse_value f ts1 (pos + 2) with
         | .error e => .error e
         | .ok (v2, ts3, pos3) =>
           match expectTok .semicolon ts3 pos3 with
           | .error e => .error e
           | .ok (ts4, pos4) => .ok ((k, v2), ts4, pos4)) := rfl
  rw [hv] at h1
  have h2 : parse_object_item (f + 1) (.stringLit k :: .equals :: ts1) pos
      = .ok ((k, v), ts2, q1 + 1) := h1
  have h3 : parse_object_items (f + 2) acc (.stringLit k :: .equals :: ts1) pos
      = (match parse_object_item (f + 1) (.stringLit k :: .equals :: ts1) pos with
         | .error e => .error e
         | .ok ((a, b), ts3, pos3) =>
           parse_object_items (f + 1) (indexInsert acc a b) ts3 pos3) := rfl
  rw [h2] at h3
  exact h3

end Xcode

namespace Xcode

set_option maxHeartbeats 1000000 in
theorem parse_toks (n : Nat) :
    (∀ v, sizeVal v ≤ n → goodVal v = true →
      ∀ fuel ts pos, 3 * sizeVal v + 1 ≤ fuel →
        ∃ q, parse_value fuel (toks_of v ++ ts) pos = .ok (v, ts, q)) ∧
    (∀ m, sizeEntries m ≤ n → goodEntries m = true →
      ∀ acc, (∀ e, e ∈ m → acc.any (fun e2 => e2.1 == e.1) = false) →
      ∀ fuel ts pos, 3 * sizeEntries m + 1 ≤ fuel →
        ∃ q, parse_object_items fuel acc (toks_entries m ++ .closeBrace :: ts) pos
          = .ok (.object (acc ++ m), ts, q)) ∧
    (∀ l, sizeItems l ≤ n → goodItems l = true →
      ∀ acc fuel ts pos, 3 * sizeItems l + 1 ≤ fuel →
        ∃ q, parse_array_items fuel acc (toks_items l ++ .closeParen :: ts) pos
          = .ok (.array (acc ++ l), ts, q)) := by
  induction n with
  | zero =>
    refine ⟨?_, ?_, ?_⟩
    · intro v hsz hg fuel ts pos hfuel
      have := sizeVal_pos v
      omega
    · intro m hsz hg acc hfresh fuel ts pos hfuel
      cases m with
      | nil =>
        cases fuel with
        | zero => omega
        | succ f =>
          refine ⟨pos + 1, ?_⟩
          simp only [toks_entries, List.nil_append]
          rw [parse_object_items_close, List.append_nil]
      | cons e r =>
        obtain ⟨k, v⟩ := e
        simp only [sizeEntries] at hsz
        have := sizeVal_pos v
        omega
    · intro l hsz hg acc fuel ts pos hfuel
      cases l with
      | nil =>
        cases fuel with
        | zero => omega
        | succ f =>
          refine ⟨pos + 1, ?_⟩
          simp only [toks_items, List.nil_append]
          rw [parse_array_items_close, List.append_nil]
      | cons v r =>
        simp only [sizeItems] at hsz
        have := sizeVal_pos v
        omega
  | succ n ih =>
    obtain ⟨ihV, ihE, ihI⟩ := ih
    refine ⟨?_, ?_, ?_⟩
    · intro v hsz hg fuel ts pos hfuel
      cases v with
      | str s =>
        simp only [goodVal] at hg
        obtain ⟨-, hps⟩ := goodStr_parts hg
        cases fuel with
        | zero => omega
        | succ f =>
          refine ⟨pos + 1, ?_⟩
          simp only [toks_of, List.cons_append, List.nil_append]
          rw [parse_value_stringLit, hps]
      | int n2 =>
        simp only [goodVal] at hg
        obtain ⟨-, hpi⟩ := goodInt_parts hg
        cases fuel with
        | zero => omega
        | succ f =>
          refine ⟨pos + 1, ?_⟩
          simp only [toks_of, List.cons_append, List.nil_append]
          rw [parse_value_stringLit, hpi]
      | float q =>
        simp only [goodVal] at hg
        exact absurd hg (by simp)
      | data d =>
        cases fuel with
        | zero => omega
        | succ f =>
          refine ⟨pos + 1, ?_⟩
          simp only [toks_of, List.cons_append, List.nil_append]
          rw [parse_value_dataLit]
      | object mo =>
        simp only [goodVal] at hg
        simp only [sizeVal] at hsz hfuel
        cases fuel with
        | zero => omega
        | succ f =>
          cases f with
          | zero => omega
          | succ f2 =>
            obtain ⟨q, hq⟩ := ihE mo (by omega) hg [] (fun e he => rfl) f2 ts
              (pos + 1) (by omega)
            refine ⟨q, ?_⟩
            simp only [toks_of, List.cons_append, List.append_assoc,
              List.nil_append]
            rw [parse_value_object_enter]
            exact hq
      | array l =>
        simp only [goodVal] at hg
        simp only [sizeVal] at hsz hfuel
        cases fuel with
        | zero => omega
        | succ f =>
          cases f with
          | zero => omega
          | succ f2 =>
            obtain ⟨q, hq⟩ := ihI l (by omega) hg [] f2 ts (pos + 1) (by omega)
            refine ⟨q, ?_⟩
            simp only [toks_of, List.cons_append, List.append_assoc,
              List.nil_append]
            rw [parse_value_array_enter]
            exact hq
    · intro m hsz hg acc hfresh fuel ts pos hfuel
      cases m with
      | nil =>
        cases fuel with
        | zero => omega
        | succ f =>
          refine ⟨pos + 1, ?_⟩
          simp only [toks_entries, List.nil_append]
          rw [parse_object_items_close, List.append_nil]
      | cons e r =>
        obtain ⟨k, v⟩ := e
        obtain ⟨hgk, hgv, hnr, hgr⟩ := goodEntries_cons hg
        simp only [sizeEntries] at hsz hfuel
        have hvp := sizeVal_pos v
        cases fuel with
        | zero => omega
        | succ f =>
          cases f with
          | zero => omega
          | succ f2 =>
            obtain ⟨q1, hq1⟩ := ihV v (by omega) hgv f2
              (.semicolon :: (toks_entries r ++ .closeBrace :: ts)) (pos + 2)
              (by omega)
            have hacc : acc.any (fun e2 => e2.1 == k) = false :=
              hfresh (k, v) (List.mem_cons_self _ _)
            have hfresh2 : ∀ e ∈ r,
                (acc ++ [(k, v)]).any (fun e2 => e2.1 == e.1) = false := by
              intro e he
              rw [List.any_append, hfresh e (List.mem_cons_of_mem _ he)]
              simp only [Bool.false_or, List.any_cons, List.any_nil,
                Bool.or_false]
              have h5 : (e.1 == k) = false := by
                cases h6 : e.1 == k with
                | false => rfl
                | true =>
                  have h7 : r.any (fun e2 => e2.1 == k) = true :=
                    List.any_eq_true.mpr ⟨e, he, h6⟩
                  rw [h7] at hnr
                  exact Bool.noConfusion hnr
              show (k == e.1) = false
              rw [beq_eq_false_iff_ne]
              intro h8
              exact (beq_eq_false_iff_ne.mp h5) h8.symm
            obtain ⟨q2, hq2⟩ := ihE r (by omega) hgr (acc ++ [(k, v)]) hfresh2
              (f2 + 1) ts (q1 + 1) (by omega)
            refine ⟨q2, ?_⟩
            simp only [toks_entries, List.cons_append, List.append_assoc,
              List.nil_append]
            rw [parse_object_items_step f2 acc k v _ _ pos q1 hq1]
            rw [indexInsert_absent acc k v hacc]
            rw [hq2, List.append_assoc]
            rfl
    · intro l hsz hg acc fuel ts pos hfuel
      cases l with
      | nil =>
        cases fuel with
        | zero => omega
        | succ f =>
          refine ⟨pos + 1, ?_⟩
          simp only [toks_items, List.nil_append]
          rw [parse_array_items_close, List.append_nil]
      | cons v r =>
        obtain ⟨hgv, hgr, -⟩ := goodItems_cons hg
        simp only [sizeItems] at hsz hfuel
        have hvp := sizeVal_pos v
        cases fuel with
        | zero => omega
        | succ f =>
          obtain ⟨q1, hq1⟩ := ihV v (by omega) hgv f
            (.comma :: (toks_items r ++ .closeParen :: ts)) pos (by omega)
          obtain ⟨q2, hq2⟩ := ihI r (by omega) hgr (acc ++ [v]) f ts (q1 + 1)
            (by omega)
          refine ⟨q2, ?_⟩
          simp only [toks_items, List.cons_append, List.append_assoc,
            List.nil_append]
          rw [parse_array_items_enter, hq1]
          show parse_array_items f (acc ++ [v])
            (toks_items r ++ .closeParen :: ts) (q1 + 1) = _
          rw [hq2, List.append_assoc]
          rfl

end Xcode

namespace Xcode

theorem parse_build (m : List (Str × PlistValue)) (hg : goodEntries m = true) :
    parse (build (.object m)) = .ok (.object m) := by
  have htoks := lex_build m hg ((build (.object m)).length + 1)
    (Nat.lt_succ_self _)
  have hsize : sizeEntries m ≤ (toks_entries m).length := sizeEntries_le_toks m
  have hlen : (Token.openBrace :: (toks_entries m ++ [Token.closeBrace])).length
      = (toks_entries m).length + 2 := by
    simp only [List.length_cons, List.length_append, List.length_nil]
  obtain ⟨q, hq⟩ := (parse_toks (sizeEntries m)).2.1 m (Nat.le_refl _) hg []
    (fun e he => rfl)
    (4 * (Token.openBrace :: (toks_entries m ++ [Token.closeBrace])).length + 3)
    [] 1 (by omega)
  have hph : parse_head
      (4 * (Token.openBrace :: (toks_entries m ++ [Token.closeBrace])).length + 4)
      (Token.openBrace :: (toks_entries m ++ [Token.closeBrace])) 0
      = parse_object_items
        (4 * (Token.openBrace :: (toks_entries m ++ [Token.closeBrace])).length + 3)
        [] (toks_entries m ++ [Token.closeBrace]) 1 := rfl
  unfold parse
  rw [htoks]
  show (match parse_head
      (4 * (Token.openBrace :: (toks_entries m ++ [Token.closeBrace])).length + 4)
      (Token.openBrace :: (toks_entries m ++ [Token.closeBrace])) 0 with
    | .error e => (.error e : Except ParseErr PlistValue)
    | .ok (v, _, _) => .ok v) = .ok (.object m)
  rw [hph, hq]
  rfl

end Xcode

namespace Xcode

/-- C1 (amended): the parse-build round trip is idempotent on the stable
fragment: for every Object tree whose entries are `goodEntries` (bare-safe
non-`objects` keys, pairwise distinct, with String/Integer/Data/Object/Array
values that re-read to themselves; no Floats, no arrays directly inside
arrays), `parse (build tree)` returns exactly the tree, preserving key
order, typed variants, and array order; hence whenever some text `T` parses
to such a tree, `parse (build (parse T)) = parse T`.  Unrestricted
idempotence is refuted by `parse_build_counterexample`: an array root is
re-rendered inside braces and comes back as an Object. -/
theorem parse_build_parse_spec (m : List (Str × PlistValue))
    (hg : goodEntries m = true) :
    parse (build (.object m)) = .ok (.object m)
      ∧ ∀ T : Str, parse T = .ok (.object m) →
        parse (build (.object m)) = parse T := by
  refine ⟨parse_build m hg, ?_⟩
  intro T hT
  rw [parse_build m hg, hT]

/-- Witness: the round trip holds at the concrete entry list
`isa = PBXProject;`. -/
theorem parse_build_parse_spec_witness :
    parse (build (.object [((("isa").data), .str (("PBXProject").data))]))
      = .ok (.object [((("isa").data), .str (("PBXProject").data))]) :=
  (parse_build_parse_spec [((("isa").data), .str (("PBXProject").data))]
    (by simp only [goodEntries, goodVal]; decide)).1

end Xcode
